import Mathlib

/-!
A shallow embedding of cpp-search-server: `SearchServer` and its helpers.

Conventions of the embedding.

* `std::string` / `std::string_view` values are lists of characters (`Word`).
* `double` values are exact rationals; the C library function `log` is a
  parameter `ln : ℚ → ℚ` of every operation that calls it.
* `std::map<K, V>` is an association list kept in strictly increasing key
  order (`OrdMap`); iteration over a map is iteration over that list.
* A C++ exception is a value of `Exception`; an operation that may throw after
  mutating the object returns its outcome together with the state it leaves.
* The algorithms of the standard library the sources call (`std::sort`,
  `std::unique`, `std::lower_bound`) are embedded as the loops libstdc++ runs.
* The execution policy is an argument of the operations that take one; the
  parallel `for_each` is embedded as the sequential loop over the same range.
-/

set_option autoImplicit false

/-! ## Ordered maps (`std::map`) -/

/-- A `std::map<K, V>`: the list of its entries in iteration order. -/
abbrev OrdMap (K : Type) (V : Type) := List (K × V)

namespace OrdMap

/-- The lookup behind `find`, `count` and `at`. -/
def find {K V : Type} [LinearOrder K] (k : K) : OrdMap K V → Option V
  | [] => none
  | (k', v) :: rest => if k = k' then some v else find k rest

/-- The entry for `k` is created with value `fresh` when absent and replaced by
`upd v` when present with value `v`.  `m[k] += x` is `upsert k (0 + x) (· + x)`,
`m.insert({k, v})` is `upsert k v id`. -/
def upsert {K V : Type} [LinearOrder K] (k : K) (fresh : V) (upd : V → V) :
    OrdMap K V → OrdMap K V
  | [] => [(k, fresh)]
  | (k', v) :: rest =>
    if k = k' then (k', upd v) :: rest
    else if k < k' then (k, fresh) :: (k', v) :: rest
    else (k', v) :: upsert k fresh upd rest

/-- The member `erase(key)`. -/
def erase {K V : Type} [LinearOrder K] (k : K) : OrdMap K V → OrdMap K V
  | [] => []
  | (k', v) :: rest => if k = k' then rest else (k', v) :: erase k rest

/-- The statement `m[k] += x` on a map of doubles. -/
def bump {K : Type} [LinearOrder K] (k : K) (x : ℚ) (m : OrdMap K ℚ) : OrdMap K ℚ :=
  m.upsert k (0 + x) (· + x)

/-- Keys in strictly increasing order: the representation invariant of `std::map`. -/
def WF {K V : Type} [LinearOrder K] (m : OrdMap K V) : Prop :=
  (m.map Prod.fst).Sorted (· < ·)

end OrdMap

/-! ## Tokenizer (`string_processing.cpp`) -/

/-- A word: the characters of a `std::string` or `std::string_view`. -/
abbrev Word := List Char

/-- The call `text.find(' ')`: `none` stands for `npos`. -/
def findSpace : List Char → Option Nat
  | [] => none
  | c :: cs => if c = ' ' then some 0 else (findSpace cs).map (· + 1)

/-- The loop of `SplitIntoWords`; `fuel` bounds the number of iterations. -/
def SplitIntoWordsLoop : Nat → List Char → List Word → List Word
  | 0, _, words => words
  | fuel + 1, text, words =>
    match findSpace text with
    | none => words ++ [text]
    | some space =>
      SplitIntoWordsLoop fuel (text.drop (space + 1)) (words ++ [text.take space])

/-- The function `SplitIntoWords`: every iteration but the last removes at least
one character, so `text.length + 1` iterations are enough. -/
def SplitIntoWords (text : List Char) : List Word :=
  SplitIntoWordsLoop (text.length + 1) text []

/-! ## Data model (`search_server.h`) -/

/-- The ways a call fails: the exceptions the sources throw, and `terminate`
for the call of `std::terminate` that ends the program when an exception leaves
a function object run by an algorithm with an execution policy. -/
inductive Exception where
  | invalid_argument
  | out_of_range
  | terminate
  deriving DecidableEq, Repr

deriving instance DecidableEq for Except

/-- Modelled from the spec: `document.h` is not among the sources; the status is
"one of a small closed set of categories" of which the sources name `ACTUAL`. -/
inductive DocumentStatus where
  | ACTUAL
  | IRRELEVANT
  | BANNED
  | REMOVED
  deriving DecidableEq, Repr, Inhabited

/-- Modelled from the spec: `document.h` is not among the sources; a scored
document is `{id, relevance, rating}`, built in that order by `FindAllDocuments`. -/
structure Document where
  id : Int
  relevance : ℚ
  rating : Int
  deriving DecidableEq

/-- The execution policies the operations are instantiated with. -/
inductive ExecutionPolicy where
  | seq
  | par
  deriving DecidableEq, Repr

/-- The nested `DocumentData`. -/
structure DocumentData where
  rating : Int
  status : DocumentStatus
  frequency_of_words : OrdMap Word ℚ
  deriving DecidableEq

/-- A value-initialised `DocumentData`, as `documents_[id]` creates it. -/
instance : Inhabited DocumentData := ⟨⟨0, DocumentStatus.ACTUAL, []⟩⟩

/-- The data members of `SearchServer`. -/
structure SearchServer where
  stop_words_ : List Word
  word_to_document_freqs_ : OrdMap Word (OrdMap Int ℚ)
  documents_ : OrdMap Int DocumentData
  document_ids_ : List Int
  deriving DecidableEq

/-- A server that holds no document. -/
def SearchServer.empty (stop_words : List Word) : SearchServer :=
  ⟨stop_words, [], [], []⟩

/-! ## Indexing (`search_server.cpp`) -/

/-- The test of the lambda in `IsValidWord`: `c >= 0 && c < 32`. -/
def IsControlChar (c : Char) : Bool :=
  decide (Char.ofNat 0 ≤ c) && decide (c < ' ')

/-- The static `IsValidWord`. -/
def IsValidWord (word : Word) : Bool :=
  !(word.any IsControlChar)

/-- The member `IsStopWord`. -/
def SearchServer.IsStopWord (s : SearchServer) (word : Word) : Bool :=
  decide (word ∈ s.stop_words_)

/-- The loop of `SplitIntoWordsNoStop` over the tokens, `words` being the vector
built so far. -/
def SearchServer.SplitIntoWordsNoStopLoop (s : SearchServer) :
    List Word → List Word → Except Exception (List Word)
  | [], words => .ok words
  | word :: rest, words =>
    if !IsValidWord word then .error Exception.invalid_argument
    else if !s.IsStopWord word then s.SplitIntoWordsNoStopLoop rest (words ++ [word])
    else s.SplitIntoWordsNoStopLoop rest words

/-- The member `SplitIntoWordsNoStop`. -/
def SearchServer.SplitIntoWordsNoStop (s : SearchServer) (text : List Char) :
    Except Exception (List Word) :=
  s.SplitIntoWordsNoStopLoop (SplitIntoWords text) []

/-- Conversion to `int`: the value modulo `2^32` in `[-2^31, 2^31)`. -/
def toInt32 (x : Int) : Int :=
  (x + 2 ^ 31) % 2 ^ 32 - 2 ^ 31

/-- The static `ComputeAverageRating`; `int` additions wrap around. -/
def ComputeAverageRating (ratings : List Int) : Int :=
  if ratings.isEmpty then 0
  else
    let rating_sum := ratings.foldl (fun sum rating => toInt32 (sum + rating)) 0
    Int.tdiv rating_sum (toInt32 ratings.length)

/-- The loop of `AddDocument` over the words of the document; the state is the
inverted index and the `frequency_of_words` of the document being added. -/
def addWordsLoop (document_id : Int) (inv_word_count : ℚ) :
    List Word → OrdMap Word (OrdMap Int ℚ) × OrdMap Word ℚ →
    OrdMap Word (OrdMap Int ℚ) × OrdMap Word ℚ
  | [], state => state
  | word :: rest, (index, frequency_of_words) =>
    addWordsLoop document_id inv_word_count rest
      (index.upsert word (OrdMap.bump document_id inv_word_count [])
          (OrdMap.bump document_id inv_word_count),
        OrdMap.bump word inv_word_count frequency_of_words)

/-- The member `AddDocument`: the outcome of the call and the state it leaves. -/
def SearchServer.AddDocument (s : SearchServer) (document_id : Int) (document : List Char)
    (status : DocumentStatus) (ratings : List Int) : Except Exception Unit × SearchServer :=
  if document_id < 0 ∨ (s.documents_.find document_id).isSome then
    (.error Exception.invalid_argument, s)
  else
    match s.SplitIntoWordsNoStop document with
    | .error e => (.error e, s)
    | .ok words =>
      let inv_word_count : ℚ := 1 / (words.length : ℚ)
      let state := addWordsLoop document_id inv_word_count words (s.word_to_document_freqs_, [])
      (.ok (),
        { s with
          word_to_document_freqs_ := state.1
          documents_ :=
            s.documents_.upsert document_id
              ⟨ComputeAverageRating ratings, status, state.2⟩ id
          document_ids_ := s.document_ids_ ++ [document_id] })

/-- The member `GetDocumentCount`. -/
def SearchServer.GetDocumentCount (s : SearchServer) : Int :=
  (s.documents_.length : Int)

/-- The member `GetWordFrequencies`. -/
def SearchServer.GetWordFrequencies (s : SearchServer) (document_id : Int) : OrdMap Word ℚ :=
  match s.documents_.find document_id with
  | some data => data.frequency_of_words
  | none => []

/-- The loop of `std::lower_bound` over `v`: `first` and `len` delimit the range
still searched, `fuel` bounds the number of halvings. -/
def lowerBoundLoop (v : List Int) (val : Int) : Nat → Nat → Nat → Nat
  | 0, first, _ => first
  | fuel + 1, first, len =>
    if len = 0 then first
    else
      let half := len / 2
      let middle := first + half
      if v.getD middle 0 < val then lowerBoundLoop v val fuel (middle + 1) (len - half - 1)
      else lowerBoundLoop v val fuel first half

/-- The call `lower_bound(v.begin(), v.end(), val)`, as an index into `v`. -/
def lowerBound (v : List Int) (val : Int) : Nat :=
  lowerBoundLoop v val v.length 0 v.length

/-- The loop of `RemoveDocument` over the words of the removed document. -/
def removeWordsLoop (document_id : Int) :
    List (Word × ℚ) → OrdMap Word (OrdMap Int ℚ) → OrdMap Word (OrdMap Int ℚ)
  | [], index => index
  | (word, _) :: rest, index =>
    removeWordsLoop document_id rest
      (index.upsert word (OrdMap.erase document_id []) (OrdMap.erase document_id))

/-- The member `RemoveDocument` (the three overloads run the same statements).
The result is `none` when `lower_bound` returns `end()`, which the function
dereferences. -/
def SearchServer.RemoveDocument (s : SearchServer) (document_id : Int) : Option SearchServer :=
  let documents1 := s.documents_.upsert document_id default id
  let frequency_of_words :=
    match documents1.find document_id with
    | some data => data.frequency_of_words
    | none => []
  let index := removeWordsLoop document_id frequency_of_words s.word_to_document_freqs_
  let documents2 := documents1.erase document_id
  let it := lowerBound s.document_ids_ document_id
  match s.document_ids_[it]? with
  | none => none
  | some found =>
    some
      { s with
        word_to_document_freqs_ := index
        documents_ := documents2
        document_ids_ :=
          if found = document_id then s.document_ids_.eraseIdx it else s.document_ids_ }

/-! ## Standard algorithms the queries call -/

/-- The loop `__unguarded_linear_insert` of libstdc++: `val` moves towards the
front past every element it is ordered before.  The list is the range that
precedes `val`, its last element first. -/
def unguardedLinearInsert {α : Type} (comp : α → α → Bool) (val : α) : List α → List α
  | [] => [val]
  | next :: before =>
    if comp val next then next :: unguardedLinearInsert comp val before
    else val :: next :: before

/-- One iteration of `__insertion_sort`: `val` goes to the front when it is
ordered before the first element, and is inserted from the back otherwise. -/
def insertionStep {α : Type} (comp : α → α → Bool) (sorted : List α) (val : α) : List α :=
  match sorted with
  | [] => [val]
  | first :: _ =>
    if comp val first then val :: sorted
    else (unguardedLinearInsert comp val sorted.reverse).reverse

/-- The call `std::iter_swap(first + i, first + j)`. -/
def iterSwap {α : Type} (v : List α) (i j : Nat) : List α :=
  match v[i]?, v[j]? with
  | some x, some y => (v.set i y).set j x
  | _, _ => v

/-- The function `__move_median_to_first` of libstdc++, on positions of the range. -/
def moveMedianToFirst {α : Type} (comp : α → α → Bool) (v : List α) (result a b c : Nat) :
    List α :=
  match v[a]?, v[b]?, v[c]? with
  | some x, some y, some z =>
    if comp x y then
      if comp y z then iterSwap v result b
      else if comp x z then iterSwap v result c
      else iterSwap v result a
    else if comp x z then iterSwap v result a
    else if comp y z then iterSwap v result c
    else iterSwap v result b
  | _, _, _ => v

/-- The function `__unguarded_partition` of libstdc++: the range after the swaps
and the position returned.  Each turn of the outer loop moves `first` up past
the elements ordered before the pivot, `last` down past those the pivot is
ordered before, and swaps the two unless they have met.  `fuel` bounds the turns
of the outer loop, each of which moves `first` up by one at least. -/
def unguardedPartition {α : Type} (comp : α → α → Bool) (pivot : Nat) :
    Nat → List α → Nat → Nat → List α × Nat
  | 0, v, first, _ => (v, first)
  | fuel + 1, v, first, last =>
    match v[pivot]? with
    | none => (v, first)
    | some p =>
      let first := first + ((v.drop first).takeWhile (fun x => comp x p)).length
      let last := last - 1
      let last := last - ((v.take (last + 1)).reverse.takeWhile (fun x => comp p x)).length
      if first < last then unguardedPartition comp pivot fuel (iterSwap v first last) (first + 1) last
      else (v, first)

/-- The function `__unguarded_partition_pivot` of libstdc++ on the range `v`. -/
def unguardedPartitionPivot {α : Type} (comp : α → α → Bool) (v : List α) : List α × Nat :=
  let mid := v.length / 2
  unguardedPartition comp 0 v.length (moveMedianToFirst comp v 0 1 mid (v.length - 1)) 1 v.length

/-- The function `__push_heap` of libstdc++: the hole moves up while its parent
is ordered before `value`, which then fills it.  `fuel` bounds the turns of the
loop, each of which moves the hole to a smaller index. -/
def pushHeap {α : Type} (comp : α → α → Bool) (value : α) (topIndex : Nat) :
    Nat → List α → Nat → List α
  | 0, v, holeIndex => v.set holeIndex value
  | fuel + 1, v, holeIndex =>
    let parent := (holeIndex - 1) / 2
    if holeIndex > topIndex then
      match v[parent]? with
      | some p =>
        if comp p value then pushHeap comp value topIndex fuel (v.set holeIndex p) parent
        else v.set holeIndex value
      | none => v.set holeIndex value
    else v.set holeIndex value

/-- The first loop of `__adjust_heap`: the hole moves down to the child that is
not ordered before the other.  The result is the range and the hole. -/
def adjustHeapLoop {α : Type} (comp : α → α → Bool) (len : Nat) :
    Nat → List α → Nat → List α × Nat
  | 0, v, secondChild => (v, secondChild)
  | fuel + 1, v, secondChild =>
    if secondChild < (len - 1) / 2 then
      let child := 2 * (secondChild + 1)
      match v[child]?, v[child - 1]? with
      | some right, some left =>
        if comp right left then adjustHeapLoop comp len fuel (v.set secondChild left) (child - 1)
        else adjustHeapLoop comp len fuel (v.set secondChild right) child
      | _, _ => (v, secondChild)
    else (v, secondChild)

/-- The function `__adjust_heap` of libstdc++ on the heap `[0, len)` of `v`. -/
def adjustHeap {α : Type} (comp : α → α → Bool) (v : List α) (holeIndex len : Nat)
    (value : α) : List α :=
  let moved := adjustHeapLoop comp len len v holeIndex
  if len % 2 = 0 ∧ moved.2 = (len - 2) / 2 then
    match moved.1[2 * (moved.2 + 1) - 1]? with
    | some left =>
      pushHeap comp value holeIndex len (moved.1.set moved.2 left) (2 * (moved.2 + 1) - 1)
    | none => pushHeap comp value holeIndex len moved.1 moved.2
  else pushHeap comp value holeIndex len moved.1 moved.2

/-- The loop of `__make_heap`, from `parent` down to 0. -/
def makeHeapLoop {α : Type} (comp : α → α → Bool) (len : Nat) : Nat → List α → List α
  | 0, v =>
    match v[0]? with
    | some value => adjustHeap comp v 0 len value
    | none => v
  | parent + 1, v =>
    match v[parent + 1]? with
    | some value => makeHeapLoop comp len parent (adjustHeap comp v (parent + 1) len value)
    | none => v

/-- The function `__make_heap` of libstdc++ on the whole range. -/
def makeHeap {α : Type} (comp : α → α → Bool) (v : List α) : List α :=
  if v.length < 2 then v else makeHeapLoop comp v.length ((v.length - 2) / 2) v

/-- The function `__pop_heap(first, first + last, first + result, comp)`. -/
def popHeap {α : Type} (comp : α → α → Bool) (v : List α) (last result : Nat) : List α :=
  match v[result]?, v[0]? with
  | some value, some top => adjustHeap comp (v.set result top) 0 last value
  | _, _ => v

/-- The function `__sort_heap(first, first + last, comp)`. -/
def sortHeap {α : Type} (comp : α → α → Bool) : Nat → List α → List α
  | 0, v => v
  | last + 1, v => if last + 1 > 1 then sortHeap comp last (popHeap comp v last last) else v

/-- The call `__partial_sort(first, last, last, comp)` of `__introsort_loop`:
with `middle = last` the loop of `__heap_select` has no turn. -/
def partialSort {α : Type} (comp : α → α → Bool) (v : List α) : List α :=
  sortHeap comp v.length (makeHeap comp v)

/-- The function `__introsort_loop` of libstdc++ on the range `v`: the part from
the cut on goes to the recursive call, the part before it to the next turn of
the loop, both with the decremented depth limit. -/
def introsortLoop {α : Type} (comp : α → α → Bool) : Nat → List α → List α
  | 0, v => if v.length > 16 then partialSort comp v else v
  | depth_limit + 1, v =>
    if v.length > 16 then
      let cut := unguardedPartitionPivot comp v
      introsortLoop comp depth_limit (cut.1.take cut.2) ++
        introsortLoop comp depth_limit (cut.1.drop cut.2)
    else v

/-- One iteration of `__unguarded_insertion_sort`. -/
def unguardedInsertionStep {α : Type} (comp : α → α → Bool) (sorted : List α) (val : α) :
    List α :=
  (unguardedLinearInsert comp val sorted.reverse).reverse

/-- The function `__final_insertion_sort` of libstdc++. -/
def finalInsertionSort {α : Type} (comp : α → α → Bool) (v : List α) : List α :=
  if v.length > 16 then
    (v.drop 16).foldl (unguardedInsertionStep comp) ((v.take 16).foldl (insertionStep comp) [])
  else v.foldl (insertionStep comp) []

/-- The loop behind `std::__lg`: the number of halvings that leave at least 1. -/
def lgLoop : Nat → Nat → Nat
  | 0, _ => 0
  | fuel + 1, n => if n ≥ 2 then lgLoop fuel (n / 2) + 1 else 0

/-- The function `std::__lg`: the binary logarithm, rounded down. -/
def lg (n : Nat) : Nat :=
  lgLoop n n

/-- The call `std::sort(first, last, comp)` as libstdc++ runs it: the introsort
loop with depth limit `2 * lg n`, then the final insertion sort.  On a range of
at most 16 elements the first does nothing.  The overload with an execution
policy hands the range to this function (always for a sequential policy; for a
parallel one with the serial backend, and with the TBB backend up to 500
elements).  An unguarded scan that would leave the range stops at its end; the
code reads outside the range there, which is undefined. -/
def stdSort {α : Type} (comp : α → α → Bool) (v : List α) : List α :=
  if v.isEmpty then v
  else finalInsertionSort comp (introsortLoop comp (lg v.length * 2) v)

/-- The loop of `std::unique`: `dest` is the last element kept. -/
def uniqueLoop {α : Type} [DecidableEq α] (dest : α) : List α → List α
  | [] => []
  | x :: rest => if dest = x then uniqueLoop dest rest else x :: uniqueLoop x rest

/-- The elements `std::unique` keeps (the range the following `resize` retains). -/
def stdUnique {α : Type} [DecidableEq α] : List α → List α
  | [] => []
  | x :: rest => x :: uniqueLoop x rest

/-! ## Query parsing (`search_server.cpp`) -/

/-- The nested `QueryWord`. -/
structure QueryWord where
  data : Word
  is_minus : Bool
  is_stop : Bool
  deriving DecidableEq

/-- The nested `Query`. -/
structure Query where
  plus_words : List Word
  minus_words : List Word
  deriving DecidableEq

/-- The member `ParseQueryWord`. -/
def SearchServer.ParseQueryWord (s : SearchServer) (text : Word) : Except Exception QueryWord :=
  if text.isEmpty then .error Exception.invalid_argument
  else
    let is_minus := decide (text.head? = some '-')
    let word := if is_minus then text.drop 1 else text
    if word.isEmpty || decide (word.head? = some '-') || !IsValidWord word then
      .error Exception.invalid_argument
    else .ok ⟨word, is_minus, s.IsStopWord word⟩

/-- The statements of `ParseQueryNoSort` that file a parsed word in `result`. -/
def pushQueryWord (result : Query) (query_word : QueryWord) : Query :=
  if !query_word.is_stop then
    if query_word.is_minus then
      { result with minus_words := result.minus_words ++ [query_word.data] }
    else { result with plus_words := result.plus_words ++ [query_word.data] }
  else result

/-- The loop of `ParseQueryNoSort`; `fuel` bounds the number of iterations. -/
def SearchServer.ParseQueryNoSortLoop (s : SearchServer) :
    Nat → List Char → Query → Except Exception Query
  | 0, _, result => .ok result
  | fuel + 1, text, result =>
    match findSpace text with
    | none =>
      if !text.isEmpty then
        match s.ParseQueryWord text with
        | .error e => .error e
        | .ok query_word => .ok (pushQueryWord result query_word)
      else .ok result
    | some space =>
      match s.ParseQueryWord (text.take space) with
      | .error e => .error e
      | .ok query_word =>
        s.ParseQueryNoSortLoop fuel (text.drop (space + 1)) (pushQueryWord result query_word)

/-- The member `ParseQueryNoSort`. -/
def SearchServer.ParseQueryNoSort (s : SearchServer) (text : List Char) : Except Exception Query :=
  s.ParseQueryNoSortLoop (text.length + 1) text ⟨[], []⟩

/-- The member `ParseQuery`. -/
def SearchServer.ParseQuery (s : SearchServer) (text : List Char) : Except Exception Query :=
  match s.ParseQueryNoSort text with
  | .error e => .error e
  | .ok result =>
    .ok
      { minus_words := stdUnique (stdSort (fun a b => decide (a < b)) result.minus_words)
        plus_words := stdUnique (stdSort (fun a b => decide (a < b)) result.plus_words) }

/-! ## The sharded map (`concurrent_map.h`) -/

/-- The class `ConcurrentMap<Key, Value>` for an integer `Key`: the maps of its
buckets (the mutexes have no counterpart in a sequential run). -/
structure ConcurrentMap (V : Type) where
  maps_ : List (OrdMap Nat V)

/-- The constructor `ConcurrentMap(bucket_count)`. -/
def ConcurrentMap.create {V : Type} (bucket_count : Nat) : ConcurrentMap V :=
  ⟨List.replicate bucket_count []⟩

/-- Conversion of an `int` key to `uint64_t`. -/
def toUInt64 (key : Int) : Nat :=
  (key % 2 ^ 64).toNat

/-- An access `cm[key]` followed by the update `upd` of the referenced value;
`init` is the value-initialised `Value` a new entry starts from. -/
def ConcurrentMap.update {V : Type} (cm : ConcurrentMap V) (key : Int) (init : V)
    (upd : V → V) : ConcurrentMap V :=
  let ukey := toUInt64 key
  ⟨cm.maps_.modify (OrdMap.upsert ukey (upd init) upd) (ukey % cm.maps_.length)⟩

/-- The member `erase`. -/
def ConcurrentMap.erase {V : Type} (cm : ConcurrentMap V) (key : Int) : ConcurrentMap V :=
  let ukey := toUInt64 key
  ⟨cm.maps_.modify (OrdMap.erase ukey) (ukey % cm.maps_.length)⟩

/-- The member `BuildOrdinaryMap` for `Key = int`: the entries of every bucket
are inserted, bucket after bucket, into a `std::map<int, Value>`. -/
def ConcurrentMap.BuildOrdinaryMap {V : Type} (cm : ConcurrentMap V) : OrdMap Int V :=
  cm.maps_.foldl
    (fun result map =>
      map.foldl (fun result entry => result.upsert (toInt32 entry.1) entry.2 id) result)
    []

/-- The values of an `int`. -/
def IsInt32 (key : Int) : Prop :=
  -2 ^ 31 ≤ key ∧ key < 2 ^ 31

/-- The value held for `key`, read in the bucket that owns the key. -/
def ConcurrentMap.lookup {V : Type} (cm : ConcurrentMap V) (key : Int) : Option V :=
  (cm.maps_[toUInt64 key % cm.maps_.length]?).bind (OrdMap.find (toUInt64 key))

/-- The representation invariant of a `ConcurrentMap<int, Value>`: there is a
bucket, every bucket is a `std::map`, and an entry sits in the bucket its key
selects, the key being the conversion of an `int`. -/
def ConcurrentMap.WF {V : Type} (cm : ConcurrentMap V) : Prop :=
  0 < cm.maps_.length ∧
    ∀ i m, cm.maps_[i]? = some m →
      m.WF ∧ ∀ e ∈ m, e.1 % cm.maps_.length = i ∧ ∃ key, IsInt32 key ∧ e.1 = toUInt64 key

/-! ## Ranking (`search_server.h`) -/

/-- The constant `MAX_RESULT_DOCUMENT_COUNT`. -/
def MAX_RESULT_DOCUMENT_COUNT : Nat := 5

/-- A document predicate: `(document_id, status, rating) → bool`. -/
abbrev DocumentPredicate := Int → DocumentStatus → Int → Bool

/-- The member `ComputeWordInverseDocumentFreq`. -/
def SearchServer.ComputeWordInverseDocumentFreq (ln : ℚ → ℚ) (s : SearchServer) (word : Word) :
    Except Exception ℚ :=
  match s.word_to_document_freqs_.find word with
  | none => .error Exception.out_of_range
  | some postings => .ok (ln ((s.GetDocumentCount : ℚ) * 1 / (postings.length : ℚ)))

/-- The inner loop of the first `for_each` of `FindAllDocuments`, over the
entries of `word_to_document_freqs_.at(word)`. -/
def accumulateLoop (s : SearchServer) (document_predicate : DocumentPredicate)
    (inverse_document_freq : ℚ) :
    List (Int × ℚ) → ConcurrentMap ℚ → Except Exception (ConcurrentMap ℚ)
  | [], document_to_relevance => .ok document_to_relevance
  | (document_id, term_freq) :: rest, document_to_relevance =>
    match s.documents_.find document_id with
    | none => .error Exception.out_of_range
    | some document_data =>
      if document_predicate document_id document_data.status document_data.rating then
        accumulateLoop s document_predicate inverse_document_freq rest
          (document_to_relevance.update document_id 0 (· + term_freq * inverse_document_freq))
      else accumulateLoop s document_predicate inverse_document_freq rest document_to_relevance

/-- The first `for_each` of `FindAllDocuments`, over the plus-words. -/
def plusWordsLoop (ln : ℚ → ℚ) (s : SearchServer) (document_predicate : DocumentPredicate) :
    List Word → ConcurrentMap ℚ → Except Exception (ConcurrentMap ℚ)
  | [], document_to_relevance => .ok document_to_relevance
  | word :: rest, document_to_relevance =>
    match s.word_to_document_freqs_.find word with
    | none => plusWordsLoop ln s document_predicate rest document_to_relevance
    | some postings =>
      match s.ComputeWordInverseDocumentFreq ln word with
      | .error _ => .error Exception.terminate
      | .ok inverse_document_freq =>
        match accumulateLoop s document_predicate inverse_document_freq postings
            document_to_relevance with
        | .error _ => .error Exception.terminate
        | .ok updated => plusWordsLoop ln s document_predicate rest updated

/-- The inner loop of the second `for_each` of `FindAllDocuments`. -/
def eraseLoop : List (Int × ℚ) → ConcurrentMap ℚ → ConcurrentMap ℚ
  | [], document_to_relevance => document_to_relevance
  | (document_id, _) :: rest, document_to_relevance =>
    eraseLoop rest (document_to_relevance.erase document_id)

/-- The second `for_each` of `FindAllDocuments`, over the minus-words. -/
def minusWordsLoop (s : SearchServer) : List Word → ConcurrentMap ℚ → ConcurrentMap ℚ
  | [], document_to_relevance => document_to_relevance
  | word :: rest, document_to_relevance =>
    match s.word_to_document_freqs_.find word with
    | none => minusWordsLoop s rest document_to_relevance
    | some postings => minusWordsLoop s rest (eraseLoop postings document_to_relevance)

/-- The last loop of `FindAllDocuments`, over the ordinary map. -/
def collectLoop (s : SearchServer) :
    List (Int × ℚ) → List Document → Except Exception (List Document)
  | [], matched_documents => .ok matched_documents
  | (document_id, relevance) :: rest, matched_documents =>
    match s.documents_.find document_id with
    | none => .error Exception.out_of_range
    | some document_data =>
      collectLoop s rest (matched_documents ++ [⟨document_id, relevance, document_data.rating⟩])

/-- The member `FindAllDocuments`.  The policy selects the overloads of
`for_each`, which run the same function objects over the same ranges. -/
def SearchServer.FindAllDocuments (ln : ℚ → ℚ) (s : SearchServer) (_policy : ExecutionPolicy)
    (query : Query) (document_predicate : DocumentPredicate) :
    Except Exception (List Document) :=
  match plusWordsLoop ln s document_predicate query.plus_words (ConcurrentMap.create 2000) with
  | .error e => .error e
  | .ok accumulated =>
    collectLoop s (minusWordsLoop s query.minus_words accumulated).BuildOrdinaryMap []

/-- The comparison `FindTopDocuments` sorts with. -/
def compareDocuments (lhs rhs : Document) : Bool :=
  if |lhs.relevance - rhs.relevance| < 1 / 1000000 then decide (lhs.rating > rhs.rating)
  else decide (lhs.relevance > rhs.relevance)

/-- The member `FindTopDocuments` with a policy and a predicate, to which the
other overloads forward.  The call `sort(policy, ...)` is embedded as `stdSort`
for both policies. -/
def SearchServer.FindTopDocuments (ln : ℚ → ℚ) (s : SearchServer) (policy : ExecutionPolicy)
    (raw_query : List Char) (document_predicate : DocumentPredicate) :
    Except Exception (List Document) :=
  match s.ParseQuery raw_query with
  | .error e => .error e
  | .ok query =>
    match s.FindAllDocuments ln policy query document_predicate with
    | .error e => .error e
    | .ok matched_documents =>
      let sorted := stdSort compareDocuments matched_documents
      .ok (if sorted.length > MAX_RESULT_DOCUMENT_COUNT then sorted.take MAX_RESULT_DOCUMENT_COUNT
        else sorted)

/-! ## Reachable states -/

/-- The `frequency_of_words` that `AddDocument` builds for a document whose
non-stop tokens are `words`. -/
def wordFreqs (inv_word_count : ℚ) (words : List Word) : OrdMap Word ℚ :=
  words.foldl (fun frequency_of_words word => OrdMap.bump word inv_word_count frequency_of_words) []

/-- The entry `index[w][d]` of an inverted index, if there is one. -/
def indexEntry (index : OrdMap Word (OrdMap Int ℚ)) (w : Word) (d : Int) : Option ℚ :=
  (index.find w).bind (OrdMap.find d)

/-- An inverted index whose map and posting maps all have increasing keys. -/
def IndexWF (index : OrdMap Word (OrdMap Int ℚ)) : Prop :=
  index.WF ∧ ∀ w postings, index.find w = some postings → postings.WF

/-- The states a server with the given stop words reaches through successful
`AddDocument` calls and `RemoveDocument` calls on present ids that return.
`corpus` records the list of non-stop tokens of every present document.  A
document id is an `int`, hence below `2 ^ 31`. -/
inductive Reaches (stop_words : List Word) : SearchServer → (Int → Option (List Word)) → Prop
  | empty : Reaches stop_words (SearchServer.empty stop_words) (fun _ => none)
  | add {s s' : SearchServer} {corpus : Int → Option (List Word)} (document_id : Int)
      (document : List Char) (status : DocumentStatus) (ratings : List Int) (words : List Word) :
      Reaches stop_words s corpus →
      document_id < 2 ^ 31 →
      s.AddDocument document_id document status ratings = (.ok (), s') →
      s.SplitIntoWordsNoStop document = .ok words →
      Reaches stop_words s' (Function.update corpus document_id (some words))
  | remove {s s' : SearchServer} {corpus : Int → Option (List Word)} (document_id : Int) :
      Reaches stop_words s corpus →
      (s.documents_.find document_id).isSome = true →
      s.RemoveDocument document_id = some s' →
      Reaches stop_words s' (Function.update corpus document_id none)

/-- The invariant of the reachable states: the maps have increasing keys, the
document ids are non-negative `int`s, every stored `frequency_of_words` is the
one built from the tokens recorded in `corpus`, and the inverted index holds
exactly the entries of the stored `frequency_of_words`. -/
structure ServerInv (s : SearchServer) (corpus : Int → Option (List Word)) : Prop where
  docs_wf : s.documents_.WF
  index_wf : IndexWF s.word_to_document_freqs_
  id_range : ∀ d, (s.documents_.find d).isSome = true → 0 ≤ d ∧ d < 2 ^ 31
  freqs : ∀ d, (s.documents_.find d).map (fun data => data.frequency_of_words) =
    (corpus d).map (fun words => wordFreqs (1 / (words.length : ℚ)) words)
  entries : ∀ w d, indexEntry s.word_to_document_freqs_ w d =
    (s.documents_.find d).bind (fun data => data.frequency_of_words.find w)

/-! ## The result of `FindAllDocuments`, in terms of the stored data -/

/-- The inverse document frequency of a word of the index, as
`ComputeWordInverseDocumentFreq` returns it. -/
def idfOf (ln : ℚ → ℚ) (s : SearchServer) (w : Word) : ℚ :=
  match s.ComputeWordInverseDocumentFreq ln w with
  | .ok inverse_document_freq => inverse_document_freq
  | .error _ => 0

/-- The verdict of a predicate on a stored document, `false` for an absent id. -/
def accepts (s : SearchServer) (document_predicate : DocumentPredicate) (d : Int) : Bool :=
  match s.documents_.find d with
  | some data => document_predicate d data.status data.rating
  | none => false

/-- The rating stored for a document, 0 for an absent id. -/
def storedRating (s : SearchServer) (d : Int) : Int :=
  match s.documents_.find d with
  | some data => data.rating
  | none => 0

/-- The products `term_freq * idf` of document `d` under the given words, in the
order of the words. -/
def contributions (ln : ℚ → ℚ) (s : SearchServer) (words : List Word) (d : Int) : List ℚ :=
  words.filterMap
    (fun w => (indexEntry s.word_to_document_freqs_ w d).map (fun tf => tf * idfOf ln s w))

/-- The accumulator entry after adding the given products to the entry `start`
(`none` for no entry). -/
def accumulate (products : List ℚ) (start : Option ℚ) : Option ℚ :=
  products.foldl (fun entry product => some (entry.getD 0 + product)) start

/-- The number of present documents whose stored term frequencies include `w`. -/
def documentFrequency (s : SearchServer) (w : Word) : Nat :=
  (s.documents_.filter (fun e => (e.2.frequency_of_words.find w).isSome)).length

/-! ## Values the theorems are evaluated at -/

/-- A value of `log` on 1 and on 2, the latter to six decimals. -/
def lnSixDecimals (x : ℚ) : ℚ :=
  if x = 2 then 693147 / 1000000 else 0

/-! ## States the theorems are evaluated at -/

/-- The example of the specification: stop words `a` and `the`, document 0
"a cat sat on the mat" with ratings 5 and 4, document 1 "a dog sat" with rating 3. -/
def catDogServer : SearchServer :=
  (((SearchServer.empty ["a".toList, "the".toList]).AddDocument 0 "a cat sat on the mat".toList
    DocumentStatus.ACTUAL [5, 4]).2.AddDocument 1 "a dog sat".toList DocumentStatus.ACTUAL [3]).2

/-- Seventeen documents 0..16, each the single word `a`. -/
def seventeenDocumentsServer : SearchServer :=
  (List.range 17).foldl
    (fun s n => (s.AddDocument (n : Int) "a".toList DocumentStatus.ACTUAL []).2)
    (SearchServer.empty [])

/-- The non-stop tokens of the two documents of `catDogServer`. -/
def catDogCorpus : Int → Option (List Word) :=
  Function.update
    (Function.update (fun _ => none) 0
      (some ["cat".toList, "sat".toList, "on".toList, "mat".toList]))
    1 (some ["dog".toList, "sat".toList])

/-- The state `catDogServer` after `RemoveDocument(1)`. -/
def catServer : SearchServer :=
  (catDogServer.RemoveDocument 1).getD catDogServer

/-! ## Matching one document (`search_server.h`) -/

/-- The test of the two lambdas of `MatchDocument`: the word is a key of the
index and its postings hold the document. -/
def SearchServer.wordInDocument (s : SearchServer) (document_id : Int) (word : Word) : Bool :=
  match s.word_to_document_freqs_.find word with
  | some postings => (postings.find document_id).isSome
  | none => false

/-- The member `MatchDocument` with a policy, to which the other overload
forwards with `seq`.  `remove_if` keeps, in order, the words its predicate
rejects. -/
def SearchServer.MatchDocument (s : SearchServer) (policy : ExecutionPolicy)
    (raw_query : List Char) (document_id : Int) :
    Except Exception (List Word × DocumentStatus) :=
  if (s.documents_.find document_id).isNone then .error Exception.out_of_range
  else
    match (match policy with
      | ExecutionPolicy.seq => s.ParseQuery raw_query
      | ExecutionPolicy.par => s.ParseQueryNoSort raw_query) with
    | .error e => .error e
    | .ok query =>
      match s.documents_.find document_id with
      | none => .error Exception.out_of_range
      | some document_data =>
        if query.plus_words.isEmpty || query.minus_words.any (s.wordInDocument document_id) then
          .ok ([], document_data.status)
        else
          .ok (stdUnique (stdSort (fun a b => decide (a < b))
              (query.plus_words.filter (s.wordInDocument document_id))),
            document_data.status)

/-! ## Batch processing (`process_queries.cpp`) -/

/-- A value-initialised `Document`, as `std::vector<Document> result(n)` holds. -/
instance : Inhabited Document := ⟨⟨0, 0, 0⟩⟩

/-- The function `ProcessQueries`: `transform` with the parallel policy applies
`FindTopDocuments(query)` (sequential policy, status `ACTUAL`) to every query;
an exception that leaves the function object ends the program. -/
def ProcessQueries (ln : ℚ → ℚ) (s : SearchServer) :
    List (List Char) → Except Exception (List (List Document))
  | [] => .ok []
  | query :: rest =>
    match s.FindTopDocuments ln ExecutionPolicy.seq query
        (fun _ document_status _ => decide (document_status = DocumentStatus.ACTUAL)) with
    | .error _ => .error Exception.terminate
    | .ok documents =>
      match ProcessQueries ln s rest with
      | .error e => .error e
      | .ok result => .ok (documents :: result)

/-- The call `it = move(execution::par, document.begin(), document.end(), it)`:
the block overwrites `result` from position `it`, the new `it` is its end. -/
def moveBlock (state : List Document × Nat) (document : List Document) : List Document × Nat :=
  (state.1.take state.2 ++ document ++ state.1.drop (state.2 + document.length),
    state.2 + document.length)

/-- The function `ProcessQueriesJoined`. -/
def ProcessQueriesJoined (ln : ℚ → ℚ) (s : SearchServer) (queries : List (List Char)) :
    Except Exception (List Document) :=
  match ProcessQueries ln s queries with
  | .error e => .error e
  | .ok documents =>
    let result : List Document :=
      List.replicate (documents.foldl (fun sum docs => sum + docs.length) 0) default
    .ok (documents.foldl moveBlock (result, 0)).1

/-! ## Sequences of calls -/

/-- A call of one of the two members that change a server. -/
inductive Call where
  | AddDocument (document_id : Int) (document : List Char) (status : DocumentStatus)
      (ratings : List Int)
  | RemoveDocument (document_id : Int)

/-- The numbers of `AddDocument` calls that succeeded and of `RemoveDocument`
calls made on a present id. -/
structure Tally where
  successful_adds : Nat
  removals_of_present : Nat
  deriving DecidableEq

/-- The calls run one after the other; an `AddDocument` that throws leaves the
state it threw in.  The result is `none` when a `RemoveDocument` does not return. -/
def runCalls : List Call → SearchServer → Tally → Option (SearchServer × Tally)
  | [], s, tally => some (s, tally)
  | Call.AddDocument document_id document status ratings :: rest, s, tally =>
    match s.AddDocument document_id document status ratings with
    | (.ok _, s') => runCalls rest s' { tally with successful_adds := tally.successful_adds + 1 }
    | (.error _, s') => runCalls rest s' tally
  | Call.RemoveDocument document_id :: rest, s, tally =>
    match s.RemoveDocument document_id with
    | none => none
    | some s' =>
      runCalls rest s'
        (if (s.documents_.find document_id).isSome then
          { tally with removals_of_present := tally.removals_of_present + 1 }
        else tally)

/-- An operation on a map with `int` keys: an access `m[key]` followed by an
update of the referenced value, or `m.erase(key)`. -/
inductive MapOp (V : Type) where
  | access (key : Int) (upd : V → V)
  | erase (key : Int)

/-- The key of an operation. -/
def MapOp.key {V : Type} : MapOp V → Int
  | MapOp.access key _ => key
  | MapOp.erase key => key

/-- The operations applied in turn to a `ConcurrentMap`; `init` is the
value-initialised `Value`. -/
def ConcurrentMap.run {V : Type} (init : V) : List (MapOp V) → ConcurrentMap V → ConcurrentMap V
  | [], cm => cm
  | MapOp.access key upd :: rest, cm => ConcurrentMap.run init rest (cm.update key init upd)
  | MapOp.erase key :: rest, cm => ConcurrentMap.run init rest (cm.erase key)

/-- The operations applied in turn to an ordinary `std::map<int, Value>`:
`operator[]` creates an absent key with `init`, `erase` of an absent key changes
nothing. -/
def OrdMap.run {V : Type} (init : V) : List (MapOp V) → OrdMap Int V → OrdMap Int V
  | [], m => m
  | MapOp.access key upd :: rest, m => OrdMap.run init rest (m.upsert key (upd init) upd)
  | MapOp.erase key :: rest, m => OrdMap.run init rest (m.erase key)

/-! ## Query words, in terms of the slices of the text -/

/-- A valid query word: not empty, not the single character `-`, not starting
with `--`, and free of characters with code 0..31. -/
def IsValidQueryWord (t : Word) : Prop :=
  t ≠ [] ∧ t ≠ ['-'] ∧ ¬ (['-', '-'] <+: t) ∧ ∀ c ∈ t, ¬ c.toNat < 32

instance (t : Word) : Decidable (IsValidQueryWord t) := by
  unfold IsValidQueryWord
  infer_instance

/-- The slices the loop of `ParseQueryNoSort` passes to `ParseQueryWord`: all
the slices of the text but an empty last one. -/
def parsedSlices : List Word → List Word
  | [] => []
  | [last] => if last.isEmpty then [] else [last]
  | slice :: rest => slice :: parsedSlices rest

/-- The loop of `ParseQueryNoSort` over the slices it parses. -/
def SearchServer.parseWords (s : SearchServer) : List Word → Query → Except Exception Query
  | [], result => .ok result
  | slice :: rest, result =>
    match s.ParseQueryWord slice with
    | .error e => .error e
    | .ok query_word => s.parseWords rest (pushQueryWord result query_word)

/-- A `ConcurrentMap` and an ordinary map that hold the same values for the
same `int` keys. -/
def Refines {V : Type} (cm : ConcurrentMap V) (m : OrdMap Int V) : Prop :=
  cm.WF ∧ m.WF ∧ (∀ e ∈ m, IsInt32 e.1) ∧ ∀ k, IsInt32 k → cm.lookup k = m.find k

/-! ## The request queue -/

/-- The entry `QueryResult` of the request queue: whether the result was empty. -/
structure QueryResult where
  empty : Bool
  deriving DecidableEq

/-- The constructor of `QueryResult` from the documents of a result. -/
def QueryResult.ofDocuments (documents : List Document) : QueryResult :=
  { empty := documents.isEmpty }

/-- The constant `sec_in_day_` of `RequestQueue`. -/
def sec_in_day_ : Int := 1440

/-- The data members of `RequestQueue` other than the reference to the server. -/
structure RequestQueue where
  requests_ : List QueryResult
  size : Int
  num_empty_result : Int
  deriving DecidableEq

/-- The state the constructor of `RequestQueue` leaves. -/
def RequestQueue.empty : RequestQueue :=
  { requests_ := []
    size := 0
    num_empty_result := 0 }

/-- The member `NewRequest`; `int` increments and decrements wrap around. -/
def RequestQueue.NewRequest (q : RequestQueue) (documents : List Document) : RequestQueue :=
  if q.size < sec_in_day_ then
    { requests_ := q.requests_ ++ [QueryResult.ofDocuments documents]
      size := toInt32 (q.size + 1)
      num_empty_result :=
        if documents.isEmpty then toInt32 (q.num_empty_result + 1) else q.num_empty_result }
  else
    let front := (q.requests_ ++ [QueryResult.ofDocuments documents]).head (by simp)
    { requests_ := (q.requests_ ++ [QueryResult.ofDocuments documents]).tail
      size := q.size
      num_empty_result :=
        if front.empty && !documents.isEmpty then toInt32 (q.num_empty_result - 1)
        else if !front.empty && documents.isEmpty then toInt32 (q.num_empty_result + 1)
        else q.num_empty_result }

/-- The member `GetNoResultRequests`. -/
def RequestQueue.GetNoResultRequests (q : RequestQueue) : Int :=
  q.num_empty_result

/-- The requests of a sequence of `NewRequest` calls that a window of 1440
requests holds: the last 1440, or all when there are fewer. -/
def lastRequests (results : List (List Document)) : List (List Document) :=
  results.drop (results.length - min results.length 1440)

/-- What the queue holds after `NewRequest` was called with each of `results`
in turn: the window entries, their number and the number of empty results. -/
def QueueInv (q : RequestQueue) (results : List (List Document)) : Prop :=
  q.requests_ = (lastRequests results).map QueryResult.ofDocuments ∧
    q.size = min (results.length : Int) 1440 ∧
    q.num_empty_result = ((lastRequests results).countP List.isEmpty : Int)

/-! ## Facts about ordered maps -/

namespace OrdMap

variable {K V : Type} [LinearOrder K]

theorem wf_nil : WF ([] : OrdMap K V) := by
  simp [WF]

theorem wf_cons_iff (k : K) (v : V) (m : OrdMap K V) :
    WF ((k, v) :: m) ↔ (∀ e ∈ m, k < e.1) ∧ WF m := by
  simp [WF, List.Sorted]

theorem find_eq_none_of_forall_ne (k : K) (m : OrdMap K V) (h : ∀ e ∈ m, e.1 ≠ k) :
    find k m = none := by
  induction m with
  | nil => rfl
  | cons e rest ih =>
    obtain ⟨k', v⟩ := e
    have h1 : k ≠ k' := fun hk => h (k', v) (List.mem_cons_self _ _) hk.symm
    simp only [find, if_neg h1]
    exact ih (fun e he => h e (List.mem_cons_of_mem _ he))

theorem mem_of_find_eq_some {k : K} {v : V} {m : OrdMap K V} (h : find k m = some v) :
    (k, v) ∈ m := by
  induction m with
  | nil => simp [find] at h
  | cons e rest ih =>
    obtain ⟨k', v'⟩ := e
    by_cases hk : k = k'
    · simp only [find, if_pos hk, Option.some.injEq] at h
      subst hk; subst h
      exact List.mem_cons_self _ _
    · simp only [find, if_neg hk] at h
      exact List.mem_cons_of_mem _ (ih h)

theorem find_eq_some_of_mem {k : K} {v : V} {m : OrdMap K V} (hwf : WF m) (h : (k, v) ∈ m) :
    find k m = some v := by
  induction m with
  | nil => simp at h
  | cons e rest ih =>
    obtain ⟨k', v'⟩ := e
    rw [wf_cons_iff] at hwf
    rcases List.mem_cons.mp h with heq | hmem
    · simp only [Prod.mk.injEq] at heq
      simp [find, heq.1, heq.2]
    · have hlt := hwf.1 _ hmem
      have hk : k ≠ k' := ne_of_gt hlt
      simp only [find, if_neg hk]
      exact ih hwf.2 hmem

theorem find_eq_some_iff {k : K} {v : V} {m : OrdMap K V} (hwf : WF m) :
    find k m = some v ↔ (k, v) ∈ m :=
  ⟨mem_of_find_eq_some, find_eq_some_of_mem hwf⟩

theorem find_isSome_iff (k : K) (m : OrdMap K V) :
    (find k m).isSome = true ↔ k ∈ m.map Prod.fst := by
  induction m with
  | nil => simp [find]
  | cons e rest ih =>
    obtain ⟨k', v'⟩ := e
    by_cases hk : k = k'
    · simp [find, hk]
    · simp only [find, if_neg hk, List.map_cons, List.mem_cons]
      rw [ih]
      exact ⟨Or.inr, fun h => h.resolve_left hk⟩

theorem mem_upsert {k : K} {fresh : V} {upd : V → V} {m : OrdMap K V} {e : K × V}
    (h : e ∈ upsert k fresh upd m) : e.1 = k ∨ e ∈ m := by
  induction m with
  | nil =>
    simp only [upsert, List.mem_singleton] at h
    exact Or.inl (by rw [h])
  | cons e' rest ih =>
    obtain ⟨k', v'⟩ := e'
    by_cases hk : k = k'
    · simp only [upsert, if_pos hk, List.mem_cons] at h
      rcases h with h | h
      · exact Or.inl (by rw [h, hk])
      · exact Or.inr (List.mem_cons_of_mem _ h)
    · by_cases hlt : k < k'
      · simp only [upsert, if_neg hk, if_pos hlt, List.mem_cons] at h
        rcases h with h | h | h
        · exact Or.inl (by rw [h])
        · exact Or.inr (by rw [h]; exact List.mem_cons_self _ _)
        · exact Or.inr (List.mem_cons_of_mem _ h)
      · simp only [upsert, if_neg hk, if_neg hlt, List.mem_cons] at h
        rcases h with h | h
        · exact Or.inr (by rw [h]; exact List.mem_cons_self _ _)
        · rcases ih h with h | h
          · exact Or.inl h
          · exact Or.inr (List.mem_cons_of_mem _ h)

theorem wf_upsert (k : K) (fresh : V) (upd : V → V) {m : OrdMap K V} (hwf : WF m) :
    WF (upsert k fresh upd m) := by
  induction m with
  | nil => simp [upsert, WF]
  | cons e' rest ih =>
    obtain ⟨k', v'⟩ := e'
    rw [wf_cons_iff] at hwf
    by_cases hk : k = k'
    · simp only [upsert, if_pos hk]
      rw [wf_cons_iff]
      exact hwf
    · by_cases hlt : k < k'
      · simp only [upsert, if_neg hk, if_pos hlt]
        rw [wf_cons_iff, wf_cons_iff]
        refine ⟨?_, hwf⟩
        intro e he
        rcases List.mem_cons.mp he with h | h
        · rw [h]; exact hlt
        · exact lt_trans hlt (hwf.1 e h)
      · simp only [upsert, if_neg hk, if_neg hlt]
        rw [wf_cons_iff]
        refine ⟨?_, ih hwf.2⟩
        intro e he
        rcases mem_upsert he with h | h
        · rw [h]
          exact lt_of_le_of_ne (not_lt.mp hlt) (Ne.symm hk)
        · exact hwf.1 e h

theorem find_upsert (k k' : K) (fresh : V) (upd : V → V) {m : OrdMap K V} (hwf : WF m) :
    find k' (upsert k fresh upd m) =
      if k' = k then some (match find k m with | some v => upd v | none => fresh)
      else find k' m := by
  induction m with
  | nil =>
    by_cases h : k' = k <;> simp [upsert, find, h]
  | cons e' rest ih =>
    obtain ⟨k0, v0⟩ := e'
    rw [wf_cons_iff] at hwf
    by_cases hk : k = k0
    · subst hk
      by_cases h : k' = k <;> simp [upsert, find, h]
    · by_cases hlt : k < k0
      · have hnone : find k rest = none :=
          find_eq_none_of_forall_ne k rest (fun e he => ne_of_gt (lt_trans hlt (hwf.1 e he)))
        by_cases h : k' = k
        · subst h
          simp [upsert, find, hk, hlt, hnone]
        · simp [upsert, find, hk, hlt, h]
      · simp only [upsert, if_neg hk, if_neg hlt, find, ih hwf.2]
        by_cases h : k' = k
        · subst h
          simp [hk]
        · simp [h]

theorem mem_of_mem_erase {k : K} {m : OrdMap K V} {e : K × V} (h : e ∈ erase k m) : e ∈ m := by
  induction m with
  | nil => simp [erase] at h
  | cons e' rest ih =>
    obtain ⟨k', v'⟩ := e'
    by_cases hk : k = k'
    · simp only [erase, if_pos hk] at h
      exact List.mem_cons_of_mem _ h
    · simp only [erase, if_neg hk, List.mem_cons] at h
      rcases h with h | h
      · rw [h]; exact List.mem_cons_self _ _
      · exact List.mem_cons_of_mem _ (ih h)

theorem wf_erase (k : K) {m : OrdMap K V} (hwf : WF m) : WF (erase k m) := by
  induction m with
  | nil => simp [erase, WF]
  | cons e' rest ih =>
    obtain ⟨k', v'⟩ := e'
    rw [wf_cons_iff] at hwf
    by_cases hk : k = k'
    · simp only [erase, if_pos hk]
      exact hwf.2
    · simp only [erase, if_neg hk]
      rw [wf_cons_iff]
      exact ⟨fun e he => hwf.1 e (mem_of_mem_erase he), ih hwf.2⟩

theorem find_erase (k k' : K) {m : OrdMap K V} (hwf : WF m) :
    find k' (erase k m) = if k' = k then none else find k' m := by
  induction m with
  | nil => simp [erase, find]
  | cons e' rest ih =>
    obtain ⟨k0, v0⟩ := e'
    rw [wf_cons_iff] at hwf
    by_cases hk : k = k0
    · subst hk
      simp only [erase, if_true, find]
      by_cases h : k' = k
      · subst h
        simp only [if_true]
        exact find_eq_none_of_forall_ne _ _ (fun e he => ne_of_gt (hwf.1 e he))
      · simp [h]
    · simp only [erase, if_neg hk, find, ih hwf.2]
      by_cases h : k' = k
      · subst h
        simp [hk]
      · simp [h]

theorem ext {m₁ m₂ : OrdMap K V} (h₁ : WF m₁) (h₂ : WF m₂)
    (h : ∀ k, find k m₁ = find k m₂) : m₁ = m₂ := by
  have hmem : ∀ e : K × V, e ∈ m₁ ↔ e ∈ m₂ := by
    intro e
    obtain ⟨k, v⟩ := e
    rw [← find_eq_some_iff h₁, ← find_eq_some_iff h₂, h]
  have hs₁ : m₁.Sorted (fun a b => a.1 < b.1) := by
    unfold WF at h₁
    exact (List.pairwise_map.mp h₁)
  have hs₂ : m₂.Sorted (fun a b => a.1 < b.1) := by
    unfold WF at h₂
    exact (List.pairwise_map.mp h₂)
  have hp : m₁.Perm m₂ := by
    apply (List.perm_ext_iff_of_nodup _ _).mpr hmem
    · exact hs₁.imp (fun hab heq => by rw [heq] at hab; exact lt_irrefl _ hab)
    · exact hs₂.imp (fun hab heq => by rw [heq] at hab; exact lt_irrefl _ hab)
  haveI : IsAntisymm (K × V) (fun a b => a.1 < b.1) :=
    ⟨fun a b hab hba => absurd (lt_trans hab hba) (lt_irrefl _)⟩
  exact List.eq_of_perm_of_sorted hp hs₁ hs₂

end OrdMap

/-! ## Facts about the loops of `AddDocument` and `RemoveDocument` -/

theorem OrdMap.find_bump {K : Type} [LinearOrder K] (k k' : K) (x : ℚ) {m : OrdMap K ℚ}
    (hwf : m.WF) :
    OrdMap.find k' (OrdMap.bump k x m) =
      if k' = k then some ((OrdMap.find k m).getD 0 + x) else OrdMap.find k' m := by
  unfold OrdMap.bump
  rw [OrdMap.find_upsert _ _ _ _ hwf]
  by_cases h : k' = k
  · simp only [if_pos h]
    cases OrdMap.find k m <;> simp
  · simp only [if_neg h]

theorem OrdMap.wf_bump {K : Type} [LinearOrder K] (k : K) (x : ℚ) {m : OrdMap K ℚ}
    (hwf : m.WF) : (OrdMap.bump k x m).WF :=
  OrdMap.wf_upsert _ _ _ hwf

theorem OrdMap.sum_bump {K : Type} [LinearOrder K] (k : K) (x : ℚ) (m : OrdMap K ℚ) :
    ((OrdMap.bump k x m).map Prod.snd).sum = (m.map Prod.snd).sum + x := by
  unfold OrdMap.bump
  induction m with
  | nil => simp [OrdMap.upsert]
  | cons e rest ih =>
    obtain ⟨k', v⟩ := e
    by_cases hk : k = k'
    · simp only [OrdMap.upsert, if_pos hk, List.map_cons, List.sum_cons]
      ring
    · by_cases hlt : k < k'
      · simp only [OrdMap.upsert, if_neg hk, if_pos hlt, List.map_cons, List.sum_cons]
        ring
      · simp only [OrdMap.upsert, if_neg hk, if_neg hlt, List.map_cons, List.sum_cons, ih]
        ring

theorem indexWF_nil : IndexWF [] :=
  ⟨OrdMap.wf_nil, fun w p h => by simp [OrdMap.find] at h⟩

theorem indexWF_upsert {index : OrdMap Word (OrdMap Int ℚ)} (h : IndexWF index) (w : Word)
    (fresh : OrdMap Int ℚ) (upd : OrdMap Int ℚ → OrdMap Int ℚ) (hfresh : fresh.WF)
    (hupd : ∀ p, p.WF → (upd p).WF) : IndexWF (index.upsert w fresh upd) := by
  refine ⟨OrdMap.wf_upsert _ _ _ h.1, ?_⟩
  intro w' p hp
  rw [OrdMap.find_upsert _ _ _ _ h.1] at hp
  by_cases hw : w' = w
  · simp only [if_pos hw, Option.some.injEq] at hp
    subst hp
    cases hf : OrdMap.find w index with
    | none => simpa using hfresh
    | some q => simpa using hupd q (h.2 w q hf)
  · simp only [if_neg hw] at hp
    exact h.2 w' p hp

theorem indexEntry_upsert_bump {index : OrdMap Word (OrdMap Int ℚ)} (h : IndexWF index)
    (w w' : Word) (d d' : Int) (x : ℚ) :
    indexEntry (index.upsert w (OrdMap.bump d x []) (OrdMap.bump d x)) w' d' =
      if w' = w ∧ d' = d then some ((indexEntry index w d).getD 0 + x)
      else indexEntry index w' d' := by
  unfold indexEntry
  rw [OrdMap.find_upsert _ _ _ _ h.1]
  by_cases hw : w' = w
  · subst hw
    simp only [if_true, true_and, Option.some_bind]
    cases hf : OrdMap.find w' index with
    | none =>
      simp only [Option.none_bind]
      rw [OrdMap.find_bump _ _ _ OrdMap.wf_nil]
      simp [OrdMap.find]
    | some p =>
      simp only [Option.some_bind]
      rw [OrdMap.find_bump _ _ _ (h.2 w' p hf)]
  · simp [hw]

theorem addWordsLoop_snd (document_id : Int) (inv : ℚ) (words : List Word)
    (index : OrdMap Word (OrdMap Int ℚ)) (freqs : OrdMap Word ℚ) :
    (addWordsLoop document_id inv words (index, freqs)).2 =
      words.foldl (fun fr word => OrdMap.bump word inv fr) freqs := by
  induction words generalizing index freqs with
  | nil => rfl
  | cons w rest ih => simp only [addWordsLoop, List.foldl_cons, ih]

theorem addWordsLoop_indexWF (document_id : Int) (inv : ℚ) (words : List Word)
    (index : OrdMap Word (OrdMap Int ℚ)) (freqs : OrdMap Word ℚ) (h : IndexWF index) :
    IndexWF (addWordsLoop document_id inv words (index, freqs)).1 := by
  induction words generalizing index freqs with
  | nil => exact h
  | cons w rest ih =>
    simp only [addWordsLoop]
    apply ih
    exact indexWF_upsert h w _ _ (OrdMap.wf_bump _ _ OrdMap.wf_nil)
      (fun p hp => OrdMap.wf_bump _ _ hp)

theorem addWordsLoop_entry_ne (document_id : Int) (inv : ℚ) (words : List Word)
    (index : OrdMap Word (OrdMap Int ℚ)) (freqs : OrdMap Word ℚ) (h : IndexWF index)
    (w : Word) (d : Int) (hd : d ≠ document_id) :
    indexEntry (addWordsLoop document_id inv words (index, freqs)).1 w d = indexEntry index w d := by
  induction words generalizing index freqs with
  | nil => rfl
  | cons w0 rest ih =>
    simp only [addWordsLoop]
    rw [ih _ _ (indexWF_upsert h w0 _ _ (OrdMap.wf_bump _ _ OrdMap.wf_nil)
      (fun p hp => OrdMap.wf_bump _ _ hp))]
    rw [indexEntry_upsert_bump h]
    simp [hd]

theorem foldl_bump_wf (inv : ℚ) (words : List Word) (freqs : OrdMap Word ℚ) (h : freqs.WF) :
    (words.foldl (fun fr word => OrdMap.bump word inv fr) freqs).WF := by
  induction words generalizing freqs with
  | nil => exact h
  | cons w rest ih => exact ih _ (OrdMap.wf_bump _ _ h)

theorem addWordsLoop_entry_self (document_id : Int) (inv : ℚ) (words : List Word)
    (index : OrdMap Word (OrdMap Int ℚ)) (freqs : OrdMap Word ℚ) (h : IndexWF index)
    (hf : freqs.WF) (heq : ∀ w, indexEntry index w document_id = OrdMap.find w freqs) (w : Word) :
    indexEntry (addWordsLoop document_id inv words (index, freqs)).1 w document_id =
      OrdMap.find w (addWordsLoop document_id inv words (index, freqs)).2 := by
  induction words generalizing index freqs with
  | nil => exact heq w
  | cons w0 rest ih =>
    simp only [addWordsLoop]
    apply ih _ _ (indexWF_upsert h w0 _ _ (OrdMap.wf_bump _ _ OrdMap.wf_nil)
      (fun p hp => OrdMap.wf_bump _ _ hp)) (OrdMap.wf_bump _ _ hf)
    intro w'
    rw [indexEntry_upsert_bump h, OrdMap.find_bump _ _ _ hf, heq w0]
    by_cases hw : w' = w0
    · simp [hw]
    · simp [hw, heq w']

theorem find_foldl_bump (inv : ℚ) (words : List Word) (freqs : OrdMap Word ℚ) (h : freqs.WF)
    (w : Word) :
    OrdMap.find w (words.foldl (fun fr word => OrdMap.bump word inv fr) freqs) =
      if w ∈ words then some ((OrdMap.find w freqs).getD 0 + (words.count w : ℚ) * inv)
      else OrdMap.find w freqs := by
  induction words generalizing freqs with
  | nil => simp
  | cons w0 rest ih =>
    simp only [List.foldl_cons]
    rw [ih _ (OrdMap.wf_bump _ _ h), OrdMap.find_bump _ _ _ h]
    by_cases hw : w = w0
    · subst hw
      simp only [if_true, List.mem_cons, true_or, Option.getD_some, List.count_cons_self]
      by_cases hm : w ∈ rest
      · simp only [if_pos hm, Option.some.injEq]
        push_cast
        ring
      · simp only [if_neg hm, Option.some.injEq, List.count_eq_zero_of_not_mem hm]
        push_cast
        ring
    · have hw' : w0 ≠ w := fun h => hw h.symm
      have hc : List.count w (w0 :: rest) = List.count w rest := by
        rw [List.count_cons]
        simp [hw']
      simp only [if_neg hw, List.mem_cons, hw, false_or, hc, if_false]

theorem find_wordFreqs (inv : ℚ) (words : List Word) (w : Word) :
    OrdMap.find w (wordFreqs inv words) =
      if w ∈ words then some ((words.count w : ℚ) * inv) else none := by
  unfold wordFreqs
  rw [find_foldl_bump _ _ _ OrdMap.wf_nil]
  simp [OrdMap.find]

theorem sum_foldl_bump (inv : ℚ) (words : List Word) (freqs : OrdMap Word ℚ) :
    ((words.foldl (fun fr word => OrdMap.bump word inv fr) freqs).map Prod.snd).sum =
      (freqs.map Prod.snd).sum + (words.length : ℚ) * inv := by
  induction words generalizing freqs with
  | nil => simp
  | cons w0 rest ih =>
    simp only [List.foldl_cons, ih, OrdMap.sum_bump, List.length_cons]
    push_cast
    ring

theorem indexEntry_upsert_erase {index : OrdMap Word (OrdMap Int ℚ)} (h : IndexWF index)
    (w w' : Word) (d d' : Int) :
    indexEntry (index.upsert w (OrdMap.erase d []) (OrdMap.erase d)) w' d' =
      if w' = w ∧ d' = d then none else indexEntry index w' d' := by
  unfold indexEntry
  rw [OrdMap.find_upsert _ _ _ _ h.1]
  by_cases hw : w' = w
  · subst hw
    simp only [if_true, true_and, Option.some_bind]
    cases hf : OrdMap.find w' index with
    | none => simp [OrdMap.erase, OrdMap.find]
    | some p =>
      simp only [Option.some_bind]
      rw [OrdMap.find_erase _ _ (h.2 w' p hf)]
  · simp [hw]

theorem removeWordsLoop_indexWF (document_id : Int) (freqs : List (Word × ℚ))
    (index : OrdMap Word (OrdMap Int ℚ)) (h : IndexWF index) :
    IndexWF (removeWordsLoop document_id freqs index) := by
  induction freqs generalizing index with
  | nil => exact h
  | cons e rest ih =>
    obtain ⟨w, f⟩ := e
    simp only [removeWordsLoop]
    apply ih
    exact indexWF_upsert h w _ _ (OrdMap.wf_erase _ OrdMap.wf_nil)
      (fun p hp => OrdMap.wf_erase _ hp)

theorem removeWordsLoop_entry (document_id : Int) (freqs : List (Word × ℚ))
    (index : OrdMap Word (OrdMap Int ℚ)) (h : IndexWF index) (w : Word) (d : Int) :
    indexEntry (removeWordsLoop document_id freqs index) w d =
      if d = document_id ∧ w ∈ freqs.map Prod.fst then none else indexEntry index w d := by
  induction freqs generalizing index with
  | nil => simp [removeWordsLoop]
  | cons e rest ih =>
    obtain ⟨w0, f⟩ := e
    simp only [removeWordsLoop]
    rw [ih _ (indexWF_upsert h w0 _ _ (OrdMap.wf_erase _ OrdMap.wf_nil)
      (fun p hp => OrdMap.wf_erase _ hp)), indexEntry_upsert_erase h]
    simp only [List.map_cons, List.mem_cons]
    split_ifs
    all_goals first | rfl | (exfalso; tauto)

theorem SplitIntoWordsNoStopLoop_eq (s : SearchServer) (tokens words : List Word) :
    s.SplitIntoWordsNoStopLoop tokens words =
      if tokens.all IsValidWord then
        .ok (words ++ tokens.filter (fun w => !s.IsStopWord w))
      else .error Exception.invalid_argument := by
  induction tokens generalizing words with
  | nil => simp [SearchServer.SplitIntoWordsNoStopLoop]
  | cons w rest ih =>
    simp only [SearchServer.SplitIntoWordsNoStopLoop, List.all_cons, List.filter_cons]
    cases hv : IsValidWord w
    · simp
    · cases hs : s.IsStopWord w
      · simp [ih]
      · simp [ih]

theorem SplitIntoWordsNoStop_eq (s : SearchServer) (text : List Char) :
    s.SplitIntoWordsNoStop text =
      if (SplitIntoWords text).all IsValidWord then
        .ok ((SplitIntoWords text).filter (fun w => !s.IsStopWord w))
      else .error Exception.invalid_argument := by
  unfold SearchServer.SplitIntoWordsNoStop
  rw [SplitIntoWordsNoStopLoop_eq]
  simp

theorem AddDocument_ok {s s' : SearchServer} {document_id : Int} {document : List Char}
    {status : DocumentStatus} {ratings : List Int}
    (h : s.AddDocument document_id document status ratings = (.ok (), s')) :
    0 ≤ document_id ∧ s.documents_.find document_id = none ∧
      ∃ words, s.SplitIntoWordsNoStop document = .ok words ∧
        s' =
          { s with
            word_to_document_freqs_ :=
              (addWordsLoop document_id (1 / (words.length : ℚ)) words
                (s.word_to_document_freqs_, [])).1
            documents_ :=
              s.documents_.upsert document_id
                ⟨ComputeAverageRating ratings, status,
                  wordFreqs (1 / (words.length : ℚ)) words⟩ id
            document_ids_ := s.document_ids_ ++ [document_id] } := by
  unfold SearchServer.AddDocument at h
  by_cases hc : document_id < 0 ∨ (s.documents_.find document_id).isSome = true
  · rw [if_pos hc] at h
    simp at h
  · rw [if_neg hc] at h
    push_neg at hc
    have hnone : s.documents_.find document_id = none := by
      cases hf : OrdMap.find document_id s.documents_ with
      | none => rfl
      | some v => simp [hf] at hc
    refine ⟨hc.1, hnone, ?_⟩
    cases hw : s.SplitIntoWordsNoStop document with
    | error e => simp [hw] at h
    | ok words =>
      refine ⟨words, rfl, ?_⟩
      simp only [hw, Prod.mk.injEq, true_and] at h
      rw [← h, addWordsLoop_snd]
      rfl

theorem AddDocument_preserves {s s' : SearchServer} {corpus : Int → Option (List Word)}
    {document_id : Int} {document : List Char} {status : DocumentStatus} {ratings : List Int}
    {words : List Word} (hinv : ServerInv s corpus) (hid : document_id < 2 ^ 31)
    (h : s.AddDocument document_id document status ratings = (.ok (), s'))
    (hw : s.SplitIntoWordsNoStop document = .ok words) :
    ServerInv s' (Function.update corpus document_id (some words)) := by
  obtain ⟨hnn, hnone, words', hw', hs'⟩ := AddDocument_ok h
  rw [hw] at hw'
  cases hw'
  have hfind : ∀ d, OrdMap.find d s'.documents_ =
      if d = document_id then
        some ⟨ComputeAverageRating ratings, status, wordFreqs (1 / (words.length : ℚ)) words⟩
      else OrdMap.find d s.documents_ := by
    intro d
    rw [hs']
    simp only
    rw [OrdMap.find_upsert _ _ _ _ hinv.docs_wf, hnone]
  have hnoentry : ∀ w, indexEntry s.word_to_document_freqs_ w document_id = none := by
    intro w
    rw [hinv.entries, hnone]
    rfl
  refine ⟨?_, ?_, ?_, ?_, ?_⟩
  · rw [hs']
    exact OrdMap.wf_upsert _ _ _ hinv.docs_wf
  · rw [hs']
    exact addWordsLoop_indexWF _ _ _ _ _ hinv.index_wf
  · intro d hd
    rw [hfind] at hd
    by_cases hdd : d = document_id
    · rw [hdd]
      exact ⟨hnn, hid⟩
    · rw [if_neg hdd] at hd
      exact hinv.id_range d hd
  · intro d
    rw [hfind]
    by_cases hdd : d = document_id
    · subst hdd
      simp
    · simp only [if_neg hdd, Function.update_noteq hdd]
      exact hinv.freqs d
  · intro w d
    rw [hfind]
    by_cases hdd : d = document_id
    · subst hdd
      simp only [if_true, Option.some_bind]
      have := addWordsLoop_entry_self d (1 / (words.length : ℚ)) words
        s.word_to_document_freqs_ [] hinv.index_wf OrdMap.wf_nil
        (fun w => by rw [hnoentry w]; rfl) w
      rw [addWordsLoop_snd] at this
      rw [hs']
      exact this
    · simp only [if_neg hdd]
      rw [hs']
      simp only
      rw [addWordsLoop_entry_ne _ _ _ _ _ hinv.index_wf _ _ hdd]
      exact hinv.entries w d

theorem OrdMap.upsert_id_of_find {K V : Type} [LinearOrder K] {k : K} {v fresh : V}
    {m : OrdMap K V} (hwf : m.WF) (h : OrdMap.find k m = some v) :
    OrdMap.upsert k fresh id m = m := by
  induction m with
  | nil => simp [OrdMap.find] at h
  | cons e rest ih =>
    obtain ⟨k0, v0⟩ := e
    rw [OrdMap.wf_cons_iff] at hwf
    by_cases hk : k = k0
    · simp [OrdMap.upsert, hk]
    · simp only [OrdMap.find, if_neg hk] at h
      have hmem := OrdMap.mem_of_find_eq_some h
      have hlt : ¬ k < k0 := not_lt.mpr (le_of_lt (hwf.1 _ hmem))
      simp only [OrdMap.upsert, if_neg hk, if_neg hlt, ih hwf.2 h]

theorem RemoveDocument_some {s s' : SearchServer} {document_id : Int} {data : DocumentData}
    (hwf : s.documents_.WF) (hfind : s.documents_.find document_id = some data)
    (h : s.RemoveDocument document_id = some s') :
    s'.stop_words_ = s.stop_words_ ∧
      s'.word_to_document_freqs_ =
        removeWordsLoop document_id data.frequency_of_words s.word_to_document_freqs_ ∧
      s'.documents_ = s.documents_.erase document_id := by
  unfold SearchServer.RemoveDocument at h
  simp only [OrdMap.upsert_id_of_find hwf hfind, hfind] at h
  cases hget : s.document_ids_[lowerBound s.document_ids_ document_id]? with
  | none => simp [hget] at h
  | some found =>
    simp only [hget, Option.some.injEq] at h
    rw [← h]
    exact ⟨rfl, rfl, rfl⟩

theorem RemoveDocument_preserves {s s' : SearchServer} {corpus : Int → Option (List Word)}
    {document_id : Int} (hinv : ServerInv s corpus)
    (hpresent : (s.documents_.find document_id).isSome = true)
    (h : s.RemoveDocument document_id = some s') :
    ServerInv s' (Function.update corpus document_id none) := by
  obtain ⟨data, hdata⟩ := Option.isSome_iff_exists.mp hpresent
  obtain ⟨_, hidx, hdocs⟩ := RemoveDocument_some hinv.docs_wf hdata h
  have hfind : ∀ d, OrdMap.find d s'.documents_ =
      if d = document_id then none else OrdMap.find d s.documents_ := by
    intro d
    rw [hdocs, OrdMap.find_erase _ _ hinv.docs_wf]
  refine ⟨?_, ?_, ?_, ?_, ?_⟩
  · rw [hdocs]
    exact OrdMap.wf_erase _ hinv.docs_wf
  · rw [hidx]
    exact removeWordsLoop_indexWF _ _ _ hinv.index_wf
  · intro d hd
    rw [hfind] at hd
    by_cases hdd : d = document_id
    · simp [hdd] at hd
    · rw [if_neg hdd] at hd
      exact hinv.id_range d hd
  · intro d
    rw [hfind]
    by_cases hdd : d = document_id
    · subst hdd
      simp
    · simp only [if_neg hdd, Function.update_noteq hdd]
      exact hinv.freqs d
  · intro w d
    rw [hfind, hidx, removeWordsLoop_entry _ _ _ hinv.index_wf]
    by_cases hdd : d = document_id
    · subst hdd
      simp only [if_true, true_and, Option.none_bind]
      by_cases hm : w ∈ data.frequency_of_words.map Prod.fst
      · rw [if_pos hm]
      · rw [if_neg hm, hinv.entries, hdata]
        simp only [Option.some_bind]
        cases hf : OrdMap.find w data.frequency_of_words with
        | none => rfl
        | some f =>
          exact absurd (List.mem_map_of_mem Prod.fst (OrdMap.mem_of_find_eq_some hf)) hm
    · rw [if_neg (fun hc => hdd hc.1), if_neg hdd]
      exact hinv.entries w d

theorem ServerInv_empty (stop_words : List Word) :
    ServerInv (SearchServer.empty stop_words) (fun _ => none) := by
  refine ⟨OrdMap.wf_nil, indexWF_nil, ?_, ?_, ?_⟩
  · intro d hd
    simp [SearchServer.empty, OrdMap.find] at hd
  · intro d
    simp [SearchServer.empty, OrdMap.find]
  · intro w d
    simp [SearchServer.empty, OrdMap.find, indexEntry]

theorem Reaches.inv {stop_words : List Word} {s : SearchServer}
    {corpus : Int → Option (List Word)} (h : Reaches stop_words s corpus) :
    ServerInv s corpus := by
  induction h with
  | empty => exact ServerInv_empty stop_words
  | add document_id document status ratings words _ hid hadd hw ih =>
    exact AddDocument_preserves ih hid hadd hw
  | remove document_id _ hpresent hrem ih =>
    exact RemoveDocument_preserves ih hpresent hrem

theorem ServerInv.present_iff {s : SearchServer} {corpus : Int → Option (List Word)}
    (hinv : ServerInv s corpus) (d : Int) :
    (s.documents_.find d).isSome = (corpus d).isSome := by
  have := hinv.freqs d
  cases h1 : OrdMap.find d s.documents_ <;> cases h2 : corpus d <;> simp [h1, h2] at this ⊢

/-! ## Claims about indexing -/

theorem IsControlChar_iff (c : Char) : IsControlChar c = true ↔ c.toNat < 32 := by
  unfold IsControlChar
  have h0 : Char.ofNat 0 ≤ c := by
    rw [Char.le_def]
    exact Nat.zero_le _
  have h1 : c < ' ' ↔ c.toNat < 32 := by
    rw [Char.lt_def]
    exact Iff.rfl
  simp [h0, h1]

theorem IsValidWord_eq_false_iff (word : Word) :
    IsValidWord word = false ↔ ∃ c ∈ word, c.toNat < 32 := by
  unfold IsValidWord
  simp [List.any_eq_true, IsControlChar_iff]

/-- C5: `AddDocument` fails with `invalid_argument` exactly when the id is
negative, the id is already present, or some token of the text holds a character
with code 0..31; and a call that does not succeed fails with `invalid_argument`
and leaves the whole state (document store, inverted index, id list) as it was. -/
theorem C5_AddDocument_failure (s : SearchServer) (document_id : Int) (document : List Char)
    (status : DocumentStatus) (ratings : List Int) :
    ((s.AddDocument document_id document status ratings).1 = .error Exception.invalid_argument ↔
      (document_id < 0 ∨ (s.documents_.find document_id).isSome = true ∨
        ∃ token ∈ SplitIntoWords document, ∃ c ∈ token, c.toNat < 32)) ∧
    ((s.AddDocument document_id document status ratings).1 = .ok () ∨
      s.AddDocument document_id document status ratings = (.error Exception.invalid_argument, s)) := by
  have hvalid : (SplitIntoWords document).all IsValidWord = true ↔
      ¬ ∃ token ∈ SplitIntoWords document, ∃ c ∈ token, c.toNat < 32 := by
    rw [List.all_eq_true]
    constructor
    · rintro h ⟨token, ht, hc⟩
      have := (IsValidWord_eq_false_iff token).mpr hc
      rw [h token ht] at this
      exact Bool.noConfusion this
    · intro h token ht
      cases hv : IsValidWord token with
      | true => rfl
      | false => exact absurd ⟨token, ht, (IsValidWord_eq_false_iff token).mp hv⟩ h
  unfold SearchServer.AddDocument
  by_cases hc : document_id < 0 ∨ (s.documents_.find document_id).isSome = true
  · rw [if_pos hc]
    refine ⟨⟨fun _ => ?_, fun _ => rfl⟩, Or.inr rfl⟩
    rcases hc with h | h
    · exact Or.inl h
    · exact Or.inr (Or.inl h)
  · rw [if_neg hc, SplitIntoWordsNoStop_eq]
    by_cases hv : (SplitIntoWords document).all IsValidWord = true
    · rw [if_pos hv]
      refine ⟨⟨fun h => ?_, fun h => ?_⟩, Or.inl rfl⟩
      · simp at h
      · rcases h with h | h | h
        · exact absurd (Or.inl h) hc
        · exact absurd (Or.inr h) hc
        · exact absurd h (hvalid.mp hv)
    · rw [if_neg hv]
      refine ⟨⟨fun _ => ?_, fun _ => rfl⟩, Or.inr rfl⟩
      refine Or.inr (Or.inr ?_)
      by_contra hcon
      exact hv (hvalid.mpr hcon)

/-- C6, as the code has it: an id that is present (added and not removed since)
is rejected by `AddDocument` with `invalid_argument`, and the state is unchanged. -/
theorem C6_present_id_rejected {stop_words : List Word} {s : SearchServer}
    {corpus : Int → Option (List Word)} (hr : Reaches stop_words s corpus) (document_id : Int)
    (hused : (corpus document_id).isSome = true) (document : List Char)
    (status : DocumentStatus) (ratings : List Int) :
    s.AddDocument document_id document status ratings = (.error Exception.invalid_argument, s) := by
  have hp : (s.documents_.find document_id).isSome = true := by
    rw [hr.inv.present_iff]
    exact hused
  unfold SearchServer.AddDocument
  rw [if_pos (Or.inr hp)]

/-- C6 at a concrete state: document 1 is present after one `AddDocument`. -/
theorem C6_present_id_rejected_witness :
    Reaches [] ((SearchServer.empty []).AddDocument 1 "a".toList DocumentStatus.ACTUAL []).2
        (Function.update (fun _ => none) 1 (some ["a".toList])) ∧
      ((Function.update (fun _ => none) 1 (some ["a".toList]) :
        Int → Option (List Word)) 1).isSome = true ∧
      ((SearchServer.empty []).AddDocument 1 "a".toList DocumentStatus.ACTUAL []).2.AddDocument 1
          "b".toList DocumentStatus.ACTUAL [] =
        (.error Exception.invalid_argument,
          ((SearchServer.empty []).AddDocument 1 "a".toList DocumentStatus.ACTUAL []).2) :=
  have hr : Reaches [] ((SearchServer.empty []).AddDocument 1 "a".toList DocumentStatus.ACTUAL []).2
      (Function.update (fun _ => none) 1 (some ["a".toList])) :=
    Reaches.add 1 "a".toList DocumentStatus.ACTUAL [] ["a".toList] Reaches.empty (by decide)
      (by decide!) (by decide!)
  ⟨hr, by simp, C6_present_id_rejected hr 1 (by simp) _ _ _⟩

/-- C6 as stated fails: after `RemoveDocument(1)` the id 1 is accepted again. -/
theorem C6_removed_id_accepted_again :
    ((SearchServer.empty []).AddDocument 1 "a".toList DocumentStatus.ACTUAL []).1 = .ok () ∧
      (((SearchServer.empty []).AddDocument 1 "a".toList DocumentStatus.ACTUAL []).2.RemoveDocument
          1).map (fun s => (s.AddDocument 1 "a".toList DocumentStatus.ACTUAL []).1) =
        some (.ok ()) := by
  decide!

/-- C8: in every reachable state the inverted index holds `index[w][d] = f`
exactly when `d` is present and its stored `frequency_of_words` maps `w` to `f`,
and that happens exactly when `w` occurs among the non-stop tokens of `d` and `f`
is its number of occurrences divided by the number of those tokens.  (The query
operations are functions of the state that return no state.) -/
theorem C8_index_invariant {stop_words : List Word} {s : SearchServer}
    {corpus : Int → Option (List Word)} (hr : Reaches stop_words s corpus)
    (w : Word) (d : Int) (f : ℚ) :
    (indexEntry s.word_to_document_freqs_ w d = some f ↔
      ∃ data, s.documents_.find d = some data ∧ data.frequency_of_words.find w = some f) ∧
    ((∃ data, s.documents_.find d = some data ∧ data.frequency_of_words.find w = some f) ↔
      ∃ words, corpus d = some words ∧ w ∈ words ∧
        f = (words.count w : ℚ) / (words.length : ℚ)) := by
  have hinv := hr.inv
  constructor
  · rw [hinv.entries]
    cases hd : OrdMap.find d s.documents_ with
    | none => simp
    | some data => simp
  · have hfr := hinv.freqs d
    constructor
    · rintro ⟨data, hd, hf⟩
      rw [hd] at hfr
      cases hc : corpus d with
      | none => simp [hc] at hfr
      | some words =>
        simp only [hc, Option.map_some', Option.some.injEq] at hfr
        rw [hfr, find_wordFreqs] at hf
        by_cases hm : w ∈ words
        · rw [if_pos hm, Option.some.injEq] at hf
          refine ⟨words, rfl, hm, ?_⟩
          rw [← hf]
          ring
        · rw [if_neg hm] at hf
          exact Option.noConfusion hf
    · rintro ⟨words, hc, hm, hf⟩
      rw [hc] at hfr
      cases hd : OrdMap.find d s.documents_ with
      | none => simp [hd] at hfr
      | some data =>
        simp only [hd, Option.map_some', Option.some.injEq] at hfr
        refine ⟨data, rfl, ?_⟩
        rw [hfr, find_wordFreqs, if_pos hm, hf]
        congr 1
        ring

/-- C8 at a concrete state: one document with the tokens `b`, `c`, `b`. -/
theorem C8_index_invariant_witness :
    Reaches ["a".toList]
        ((SearchServer.empty ["a".toList]).AddDocument 0 "b a c b".toList
          DocumentStatus.ACTUAL []).2
        (Function.update (fun _ => none) 0 (some ["b".toList, "c".toList, "b".toList])) ∧
      indexEntry
          ((SearchServer.empty ["a".toList]).AddDocument 0 "b a c b".toList
            DocumentStatus.ACTUAL []).2.word_to_document_freqs_ "b".toList 0 = some (2 / 3) :=
  have hr : Reaches ["a".toList]
      ((SearchServer.empty ["a".toList]).AddDocument 0 "b a c b".toList
        DocumentStatus.ACTUAL []).2
      (Function.update (fun _ => none) 0 (some ["b".toList, "c".toList, "b".toList])) :=
    Reaches.add 0 "b a c b".toList DocumentStatus.ACTUAL [] ["b".toList, "c".toList, "b".toList]
      Reaches.empty (by decide) (by decide!) (by decide!)
  ⟨hr, ((C8_index_invariant hr "b".toList 0 (2 / 3)).1.mpr
    ((C8_index_invariant hr "b".toList 0 (2 / 3)).2.mpr
      ⟨["b".toList, "c".toList, "b".toList], by simp, by decide, by decide!⟩))⟩

/-- C9 fails on the code: ids added in decreasing order stay in call order, and
removing document 3 then leaves its id in the list. -/
theorem C9_ids_added_out_of_order :
    (((SearchServer.empty []).AddDocument 5 "a".toList DocumentStatus.ACTUAL []).2.AddDocument 3
        "b".toList DocumentStatus.ACTUAL []).1 = .ok () ∧
      (((SearchServer.empty []).AddDocument 5 "a".toList DocumentStatus.ACTUAL []).2.AddDocument 3
        "b".toList DocumentStatus.ACTUAL []).2.document_ids_ = [5, 3] ∧
      ((((SearchServer.empty []).AddDocument 5 "a".toList DocumentStatus.ACTUAL []).2.AddDocument 3
        "b".toList DocumentStatus.ACTUAL []).2.RemoveDocument 3).map
          (fun s => (s.document_ids_, s.documents_.map Prod.fst)) = some ([5, 3], [5]) := by
  decide!

/-- C10, as the code has it: in every reachable state the stored term
frequencies of a present document sum to 1 when the document has at least one
non-stop token, and to 0 (the map is empty) when it has none. -/
theorem C10_frequencies_sum_to_one {stop_words : List Word} {s : SearchServer}
    {corpus : Int → Option (List Word)} (hr : Reaches stop_words s corpus) (d : Int)
    (words : List Word) (hd : corpus d = some words) :
    ((s.GetWordFrequencies d).map Prod.snd).sum = if words = [] then 0 else 1 := by
  have hfr := hr.inv.freqs d
  rw [hd] at hfr
  unfold SearchServer.GetWordFrequencies
  cases hf : OrdMap.find d s.documents_ with
  | none => simp [hf] at hfr
  | some data =>
    simp only [hf, Option.map_some', Option.some.injEq] at hfr
    simp only [hfr]
    unfold wordFreqs
    rw [sum_foldl_bump]
    by_cases hne : words = []
    · simp [hne]
    · rw [if_neg hne]
      have hlen : (words.length : ℚ) ≠ 0 := by
        have : words.length ≠ 0 := fun h => hne (List.length_eq_zero.mp h)
        exact_mod_cast this
      simp only [List.map_nil, List.sum_nil, zero_add]
      field_simp

/-- C10 at a concrete state: one document with the tokens `b`, `c`, `b`. -/
theorem C10_frequencies_sum_to_one_witness :
    Reaches ["a".toList]
        ((SearchServer.empty ["a".toList]).AddDocument 0 "b a c b".toList
          DocumentStatus.ACTUAL []).2
        (Function.update (fun _ => none) 0 (some ["b".toList, "c".toList, "b".toList])) ∧
      ((((SearchServer.empty ["a".toList]).AddDocument 0 "b a c b".toList
        DocumentStatus.ACTUAL []).2.GetWordFrequencies 0).map Prod.snd).sum =
        if ["b".toList, "c".toList, "b".toList] = [] then 0 else 1 :=
  have hr : Reaches ["a".toList]
      ((SearchServer.empty ["a".toList]).AddDocument 0 "b a c b".toList
        DocumentStatus.ACTUAL []).2
      (Function.update (fun _ => none) 0 (some ["b".toList, "c".toList, "b".toList])) :=
    Reaches.add 0 "b a c b".toList DocumentStatus.ACTUAL [] ["b".toList, "c".toList, "b".toList]
      Reaches.empty (by decide) (by decide!) (by decide!)
  ⟨hr, C10_frequencies_sum_to_one hr 0 ["b".toList, "c".toList, "b".toList] (by simp)⟩

/-- C10 as stated fails: a document made of stop words only is added with an
empty `frequency_of_words`, whose values sum to 0. -/
theorem C10_stop_words_only_document :
    ((SearchServer.empty ["a".toList]).AddDocument 0 "a a".toList DocumentStatus.ACTUAL []).1 =
        .ok () ∧
      ((SearchServer.empty ["a".toList]).AddDocument 0 "a a".toList
        DocumentStatus.ACTUAL []).2.GetWordFrequencies 0 = [] ∧
      ((((SearchServer.empty ["a".toList]).AddDocument 0 "a a".toList
        DocumentStatus.ACTUAL []).2.GetWordFrequencies 0).map Prod.snd).sum ≠ 1 := by
  decide!

/-! ## Facts about the ranking of `FindTopDocuments` -/

theorem unguardedLinearInsert_perm {α : Type} (comp : α → α → Bool) (val : α) (l : List α) :
    (unguardedLinearInsert comp val l).Perm (val :: l) := by
  induction l with
  | nil => exact List.Perm.refl _
  | cons next before ih =>
    simp only [unguardedLinearInsert]
    split_ifs
    · exact ((List.Perm.cons next ih).trans (List.Perm.swap val next before))
    · exact List.Perm.refl _

theorem insertionStep_perm {α : Type} (comp : α → α → Bool) (sorted : List α) (val : α) :
    (insertionStep comp sorted val).Perm (val :: sorted) := by
  cases sorted with
  | nil => exact List.Perm.refl _
  | cons first rest =>
    simp only [insertionStep]
    split_ifs
    · exact List.Perm.refl _
    · refine (List.reverse_perm _).trans ((unguardedLinearInsert_perm comp val _).trans ?_)
      exact List.Perm.cons val (List.reverse_perm _)

theorem foldl_insertionStep_perm {α : Type} (comp : α → α → Bool) (v sorted : List α) :
    (v.foldl (insertionStep comp) sorted).Perm (sorted ++ v) := by
  induction v generalizing sorted with
  | nil => simp
  | cons x rest ih =>
    simp only [List.foldl_cons]
    refine (ih _).trans ?_
    refine (List.Perm.append_right rest (insertionStep_perm comp sorted x)).trans ?_
    simp only [List.cons_append]
    exact (List.perm_middle).symm

theorem set_getElem_same {α : Type} :
    ∀ (v : List α) (i : Nat) (h : i < v.length), v.set i v[i] = v
  | _ :: _, 0, _ => rfl
  | x :: xs, i + 1, h => by
    simp only [List.set_cons_succ, List.getElem_cons_succ]
    rw [set_getElem_same xs i (by simpa using h)]

theorem set_set_perm {α : Type} (v : List α) {i j : Nat} (hi : i < v.length) {y : α}
    (hj : v[j]? = some y) (x : α) : ((v.set i y).set j x).Perm (v.set i x) := by
  classical
  obtain ⟨hjl, hjy⟩ := List.getElem?_eq_some_iff.mp hj
  by_cases hij : i = j
  · subst hij
    rw [List.set_set]
  · rw [List.perm_iff_count]
    intro a
    have h1 : j < (v.set i y).length := by simpa using hjl
    rw [List.count_set _ _ _ _ h1, List.count_set _ _ _ _ hi, List.count_set _ _ _ _ hi]
    have h2 : (v.set i y)[j] = y := by
      rw [List.getElem_set_ne hij]
      exact hjy
    rw [h2]
    have h3 : (if v[i] == a then 1 else 0) ≤ List.count a v := by
      split_ifs with h
      · have : v[i] = a := by simpa using h
        exact List.count_pos_iff.mpr (this ▸ List.getElem_mem _)
      · exact Nat.zero_le _
    by_cases hy : (y == a) = true <;> simp only [hy, if_true, if_false] <;> omega

theorem iterSwap_perm {α : Type} (v : List α) (i j : Nat) : (iterSwap v i j).Perm v := by
  unfold iterSwap
  cases hi : v[i]? with
  | none => exact List.Perm.refl _
  | some x =>
    cases hj : v[j]? with
    | none => exact List.Perm.refl _
    | some y =>
      obtain ⟨hil, hix⟩ := List.getElem?_eq_some_iff.mp hi
      have := set_set_perm v hil hj x
      rw [← hix, set_getElem_same] at this
      simpa [hix] using this

theorem iterSwap_length {α : Type} (v : List α) (i j : Nat) : (iterSwap v i j).length = v.length :=
  (iterSwap_perm v i j).length_eq

theorem moveMedianToFirst_perm {α : Type} (comp : α → α → Bool) (v : List α)
    (result a b c : Nat) : (moveMedianToFirst comp v result a b c).Perm v := by
  unfold moveMedianToFirst
  split
  · split_ifs <;> exact iterSwap_perm _ _ _
  · exact List.Perm.refl _

theorem unguardedPartition_perm {α : Type} (comp : α → α → Bool) (pivot fuel : Nat) :
    ∀ (v : List α) (first last : Nat),
      (unguardedPartition comp pivot fuel v first last).1.Perm v := by
  induction fuel with
  | zero => exact fun v _ _ => List.Perm.refl _
  | succ fuel ih =>
    intro v first last
    unfold unguardedPartition
    split
    · exact List.Perm.refl _
    · simp only
      split_ifs
      · exact (ih _ _ _).trans (iterSwap_perm _ _ _)
      · exact List.Perm.refl _

theorem unguardedPartitionPivot_perm {α : Type} (comp : α → α → Bool) (v : List α) :
    (unguardedPartitionPivot comp v).1.Perm v :=
  (unguardedPartition_perm comp 0 _ _ _ _).trans (moveMedianToFirst_perm comp v _ _ _ _)

theorem pushHeap_perm {α : Type} (comp : α → α → Bool) (value : α) (topIndex fuel : Nat) :
    ∀ (v : List α) (holeIndex : Nat), holeIndex < v.length →
      (pushHeap comp value topIndex fuel v holeIndex).Perm (v.set holeIndex value) := by
  induction fuel with
  | zero => exact fun v _ _ => List.Perm.refl _
  | succ fuel ih =>
    intro v holeIndex hhole
    unfold pushHeap
    simp only
    split_ifs with htop
    · cases hp : v[(holeIndex - 1) / 2]? with
      | none => exact List.Perm.refl _
      | some p =>
        simp only
        split_ifs
        · have hpl : (holeIndex - 1) / 2 < (v.set holeIndex p).length := by
            rw [List.length_set]
            exact (List.getElem?_eq_some_iff.mp hp).1
          exact (ih _ _ hpl).trans (set_set_perm v hhole hp value)
        · exact List.Perm.refl _
    · exact List.Perm.refl _

theorem adjustHeapLoop_spec {α : Type} (comp : α → α → Bool) (len fuel : Nat) :
    ∀ (v : List α) (secondChild : Nat), secondChild < v.length →
      (adjustHeapLoop comp len fuel v secondChild).2 <
          (adjustHeapLoop comp len fuel v secondChild).1.length ∧
        ∀ value, ((adjustHeapLoop comp len fuel v secondChild).1.set
          (adjustHeapLoop comp len fuel v secondChild).2 value).Perm (v.set secondChild value) := by
  induction fuel with
  | zero => exact fun v _ h => ⟨h, fun _ => List.Perm.refl _⟩
  | succ fuel ih =>
    intro v secondChild hhole
    unfold adjustHeapLoop
    split_ifs with hlt
    · simp only
      cases hr : v[2 * (secondChild + 1)]? with
      | none => exact ⟨hhole, fun _ => List.Perm.refl _⟩
      | some right =>
        cases hl : v[2 * (secondChild + 1) - 1]? with
        | none => exact ⟨hhole, fun _ => List.Perm.refl _⟩
        | some left =>
          simp only
          split_ifs
          · have hlen : 2 * (secondChild + 1) - 1 < (v.set secondChild left).length := by
              rw [List.length_set]
              exact (List.getElem?_eq_some_iff.mp hl).1
            obtain ⟨h1, h2⟩ := ih _ _ hlen
            exact ⟨h1, fun value => (h2 value).trans (set_set_perm v hhole hl value)⟩
          · have hlen : 2 * (secondChild + 1) < (v.set secondChild right).length := by
              rw [List.length_set]
              exact (List.getElem?_eq_some_iff.mp hr).1
            obtain ⟨h1, h2⟩ := ih _ _ hlen
            exact ⟨h1, fun value => (h2 value).trans (set_set_perm v hhole hr value)⟩
    · exact ⟨hhole, fun _ => List.Perm.refl _⟩

theorem adjustHeap_perm {α : Type} (comp : α → α → Bool) (v : List α) (holeIndex len : Nat)
    (value : α) (hhole : holeIndex < v.length) :
    (adjustHeap comp v holeIndex len value).Perm (v.set holeIndex value) := by
  obtain ⟨h1, h2⟩ := adjustHeapLoop_spec comp len len v holeIndex hhole
  unfold adjustHeap
  simp only
  split_ifs
  · cases hl : (adjustHeapLoop comp len len v holeIndex).1[
        2 * ((adjustHeapLoop comp len len v holeIndex).2 + 1) - 1]? with
    | none => exact (pushHeap_perm comp value _ _ _ _ h1).trans (h2 value)
    | some left =>
      simp only
      have hlen : 2 * ((adjustHeapLoop comp len len v holeIndex).2 + 1) - 1 <
          ((adjustHeapLoop comp len len v holeIndex).1.set
            (adjustHeapLoop comp len len v holeIndex).2 left).length := by
        rw [List.length_set]
        exact (List.getElem?_eq_some_iff.mp hl).1
      exact ((pushHeap_perm comp value _ _ _ _ hlen).trans
        (set_set_perm _ h1 hl value)).trans (h2 value)
  · exact (pushHeap_perm comp value _ _ _ _ h1).trans (h2 value)

theorem adjustHeap_self_perm {α : Type} (comp : α → α → Bool) (v : List α)
    (holeIndex len : Nat) (value : α) (h : v[holeIndex]? = some value) :
    (adjustHeap comp v holeIndex len value).Perm v := by
  obtain ⟨hl, hv⟩ := List.getElem?_eq_some_iff.mp h
  subst hv
  have := adjustHeap_perm comp v holeIndex len v[holeIndex] hl
  rwa [set_getElem_same] at this

theorem makeHeapLoop_perm {α : Type} (comp : α → α → Bool) (len parent : Nat) :
    ∀ v : List α, (makeHeapLoop comp len parent v).Perm v := by
  induction parent with
  | zero =>
    intro v
    unfold makeHeapLoop
    cases h : v[0]? with
    | none => exact List.Perm.refl _
    | some value => exact adjustHeap_self_perm comp v 0 len value h
  | succ parent ih =>
    intro v
    unfold makeHeapLoop
    cases h : v[parent + 1]? with
    | none => exact List.Perm.refl _
    | some value => exact (ih _).trans (adjustHeap_self_perm comp v _ len value h)

theorem makeHeap_perm {α : Type} (comp : α → α → Bool) (v : List α) :
    (makeHeap comp v).Perm v := by
  unfold makeHeap
  split_ifs
  · exact List.Perm.refl _
  · exact makeHeapLoop_perm comp _ _ v

theorem popHeap_perm {α : Type} (comp : α → α → Bool) (v : List α) (last result : Nat) :
    (popHeap comp v last result).Perm v := by
  unfold popHeap
  cases hr : v[result]? with
  | none => exact List.Perm.refl _
  | some value =>
    cases ht : v[0]? with
    | none => exact List.Perm.refl _
    | some top =>
      simp only
      obtain ⟨hrl, hrv⟩ := List.getElem?_eq_some_iff.mp hr
      subst hrv
      have h0 : 0 < (v.set result top).length := by
        rw [List.length_set]
        exact (List.getElem?_eq_some_iff.mp ht).1
      have h1 := adjustHeap_perm comp (v.set result top) 0 last v[result] h0
      have h2 := set_set_perm v hrl ht v[result]
      rw [set_getElem_same] at h2
      exact h1.trans h2

theorem sortHeap_perm {α : Type} (comp : α → α → Bool) (last : Nat) :
    ∀ v : List α, (sortHeap comp last v).Perm v := by
  induction last with
  | zero => exact fun v => List.Perm.refl _
  | succ last ih =>
    intro v
    unfold sortHeap
    split_ifs
    · exact (ih _).trans (popHeap_perm comp v last last)
    · exact List.Perm.refl _

theorem partialSort_perm {α : Type} (comp : α → α → Bool) (v : List α) :
    (partialSort comp v).Perm v :=
  (sortHeap_perm comp _ _).trans (makeHeap_perm comp v)

theorem introsortLoop_perm {α : Type} (comp : α → α → Bool) (depth_limit : Nat) :
    ∀ v : List α, (introsortLoop comp depth_limit v).Perm v := by
  induction depth_limit with
  | zero =>
    intro v
    unfold introsortLoop
    split_ifs
    · exact partialSort_perm comp v
    · exact List.Perm.refl _
  | succ depth_limit ih =>
    intro v
    unfold introsortLoop
    split_ifs
    · simp only
      refine (List.Perm.append (ih _) (ih _)).trans ?_
      rw [List.take_append_drop]
      exact unguardedPartitionPivot_perm comp v
    · exact List.Perm.refl _

theorem unguardedInsertionStep_perm {α : Type} (comp : α → α → Bool) (sorted : List α)
    (val : α) : (unguardedInsertionStep comp sorted val).Perm (val :: sorted) := by
  unfold unguardedInsertionStep
  refine (List.reverse_perm _).trans ((unguardedLinearInsert_perm comp val _).trans ?_)
  exact List.Perm.cons val (List.reverse_perm _)

theorem foldl_unguardedInsertionStep_perm {α : Type} (comp : α → α → Bool)
    (v sorted : List α) :
    (v.foldl (unguardedInsertionStep comp) sorted).Perm (sorted ++ v) := by
  induction v generalizing sorted with
  | nil => simp
  | cons x rest ih =>
    simp only [List.foldl_cons]
    refine (ih _).trans ?_
    refine (List.Perm.append_right rest (unguardedInsertionStep_perm comp sorted x)).trans ?_
    simp only [List.cons_append]
    exact (List.perm_middle).symm

theorem finalInsertionSort_perm {α : Type} (comp : α → α → Bool) (v : List α) :
    (finalInsertionSort comp v).Perm v := by
  unfold finalInsertionSort
  split_ifs
  · refine (foldl_unguardedInsertionStep_perm comp _ _).trans ?_
    refine (List.Perm.append_right _ (foldl_insertionStep_perm comp _ [])).trans ?_
    simp
  · simpa using foldl_insertionStep_perm comp v []

theorem stdSort_perm {α : Type} (comp : α → α → Bool) (v : List α) :
    (stdSort comp v).Perm v := by
  unfold stdSort
  split_ifs
  · exact List.Perm.refl _
  · exact (finalInsertionSort_perm comp _).trans (introsortLoop_perm comp _ v)

theorem unguardedLinearInsert_chain {α : Type} (comp : α → α → Bool) (R : α → α → Prop)
    (hpos : ∀ a b, comp a b = true → R a b) (hneg : ∀ a b, comp b a = false → R a b)
    (val : α) (l : List α) (h : l.Chain' (flip R)) :
    (unguardedLinearInsert comp val l).Chain' (flip R) := by
  induction l with
  | nil => simp [unguardedLinearInsert]
  | cons next before ih =>
    simp only [unguardedLinearInsert]
    cases hc : comp val next with
    | true =>
      simp only [if_true]
      have ih' := ih (List.Chain'.tail h)
      cases before with
      | nil =>
        simp only [unguardedLinearInsert]
        exact List.chain'_pair.mpr (hpos _ _ hc)
      | cons b rest =>
        simp only [unguardedLinearInsert] at ih' ⊢
        split_ifs at ih' ⊢
        · exact List.Chain'.cons (List.Chain'.rel_head h) ih'
        · exact List.Chain'.cons (hpos _ _ hc) ih'
    | false =>
      simp only [Bool.false_eq_true, if_false]
      exact List.Chain'.cons (hneg _ _ hc) h

theorem insertionStep_chain {α : Type} (comp : α → α → Bool) (R : α → α → Prop)
    (hpos : ∀ a b, comp a b = true → R a b) (hneg : ∀ a b, comp b a = false → R a b)
    (sorted : List α) (val : α) (h : sorted.Chain' R) :
    (insertionStep comp sorted val).Chain' R := by
  cases sorted with
  | nil => simp [insertionStep]
  | cons first rest =>
    simp only [insertionStep]
    split_ifs with hc
    · exact List.Chain'.cons (hpos _ _ hc) h
    · rw [List.chain'_reverse]
      apply unguardedLinearInsert_chain comp R hpos hneg
      rw [← List.chain'_reverse]
      simpa using h

theorem unguardedInsertionStep_chain {α : Type} (comp : α → α → Bool) (R : α → α → Prop)
    (hpos : ∀ a b, comp a b = true → R a b) (hneg : ∀ a b, comp b a = false → R a b)
    (sorted : List α) (val : α) (h : sorted.Chain' R) :
    (unguardedInsertionStep comp sorted val).Chain' R := by
  unfold unguardedInsertionStep
  rw [List.chain'_reverse]
  apply unguardedLinearInsert_chain comp R hpos hneg
  rw [← List.chain'_reverse]
  simpa using h

theorem foldl_insertionStep_chain {α : Type} (comp : α → α → Bool) (R : α → α → Prop)
    (hpos : ∀ a b, comp a b = true → R a b) (hneg : ∀ a b, comp b a = false → R a b)
    (v : List α) : ∀ sorted : List α, sorted.Chain' R →
      (v.foldl (insertionStep comp) sorted).Chain' R := by
  induction v with
  | nil => exact fun _ h => h
  | cons x rest ih =>
    intro sorted h
    exact ih _ (insertionStep_chain comp R hpos hneg sorted x h)

theorem foldl_unguardedInsertionStep_chain {α : Type} (comp : α → α → Bool)
    (R : α → α → Prop)
    (hpos : ∀ a b, comp a b = true → R a b) (hneg : ∀ a b, comp b a = false → R a b)
    (v : List α) : ∀ sorted : List α, sorted.Chain' R →
      (v.foldl (unguardedInsertionStep comp) sorted).Chain' R := by
  induction v with
  | nil => exact fun _ h => h
  | cons x rest ih =>
    intro sorted h
    exact ih _ (unguardedInsertionStep_chain comp R hpos hneg sorted x h)

theorem finalInsertionSort_chain {α : Type} (comp : α → α → Bool) (R : α → α → Prop)
    (hpos : ∀ a b, comp a b = true → R a b) (hneg : ∀ a b, comp b a = false → R a b)
    (v : List α) : (finalInsertionSort comp v).Chain' R := by
  unfold finalInsertionSort
  split_ifs
  · exact foldl_unguardedInsertionStep_chain comp R hpos hneg _ _
      (foldl_insertionStep_chain comp R hpos hneg _ [] List.chain'_nil)
  · exact foldl_insertionStep_chain comp R hpos hneg v [] List.chain'_nil

theorem stdSort_chain {α : Type} (comp : α → α → Bool) (R : α → α → Prop)
    (hpos : ∀ a b, comp a b = true → R a b) (hneg : ∀ a b, comp b a = false → R a b)
    (v : List α) : (stdSort comp v).Chain' R := by
  unfold stdSort
  split_ifs with hv
  · have : v = [] := List.isEmpty_iff.mp hv
    rw [this]
    exact List.chain'_nil
  · exact finalInsertionSort_chain comp R hpos hneg _

/-! ## The loops of `std::sort` end before their fuel does -/

theorem lgLoop_eq_log2 (fuel : Nat) : ∀ n : Nat, n ≤ fuel → lgLoop fuel n = Nat.log2 n := by
  induction fuel with
  | zero =>
    intro n hn
    have : n = 0 := by omega
    subst this
    rw [Nat.log2]
    rfl
  | succ fuel ih =>
    intro n hn
    unfold lgLoop
    rw [Nat.log2]
    split_ifs with h
    · rw [ih (n / 2) (by omega)]
    · rfl

theorem lg_eq_log2 (n : Nat) : lg n = Nat.log2 n :=
  lgLoop_eq_log2 n n (Nat.le_refl n)

theorem unguardedPartition_fuel {α : Type} (comp : α → α → Bool) (pivot fuel : Nat) :
    ∀ (v : List α) (first last : Nat), last ≤ first + fuel →
      unguardedPartition comp pivot (fuel + 2) v first last =
        unguardedPartition comp pivot (fuel + 1) v first last := by
  induction fuel with
  | zero =>
    intro v first last h
    rw [unguardedPartition, unguardedPartition]
    cases hp : v[pivot]? with
    | none => rfl
    | some p =>
      simp only
      split_ifs with hlt
      · omega
      · rfl
  | succ fuel ih =>
    intro v first last h
    rw [unguardedPartition]
    conv_rhs => rw [unguardedPartition]
    cases hp : v[pivot]? with
    | none => rfl
    | some p =>
      simp only
      split_ifs with hlt
      · exact ih _ _ _ (by omega)
      · rfl

theorem pushHeap_fuel {α : Type} (comp : α → α → Bool) (value : α) (topIndex fuel : Nat) :
    ∀ (v : List α) (holeIndex : Nat), holeIndex ≤ fuel →
      pushHeap comp value topIndex (fuel + 1) v holeIndex =
        pushHeap comp value topIndex fuel v holeIndex := by
  induction fuel with
  | zero =>
    intro v holeIndex h
    have : holeIndex = 0 := by omega
    subst this
    simp [pushHeap]
  | succ fuel ih =>
    intro v holeIndex h
    rw [pushHeap]
    conv_rhs => rw [pushHeap]
    split_ifs with htop
    · cases hp : v[(holeIndex - 1) / 2]? with
      | none => rfl
      | some p =>
        simp only
        split_ifs
        · exact ih _ _ (by omega)
        · rfl
    · rfl

theorem adjustHeapLoop_fuel {α : Type} (comp : α → α → Bool) (len fuel : Nat) :
    ∀ (v : List α) (secondChild : Nat), (len - 1) / 2 ≤ secondChild + fuel →
      adjustHeapLoop comp len (fuel + 1) v secondChild =
        adjustHeapLoop comp len fuel v secondChild := by
  induction fuel with
  | zero =>
    intro v secondChild h
    rw [adjustHeapLoop, adjustHeapLoop]
    rw [if_neg (by omega)]
  | succ fuel ih =>
    intro v secondChild h
    rw [adjustHeapLoop]
    conv_rhs => rw [adjustHeapLoop]
    split_ifs with hlt
    · simp only
      cases hr : v[2 * (secondChild + 1)]? with
      | none => rfl
      | some right =>
        cases hl : v[2 * (secondChild + 1) - 1]? with
        | none => rfl
        | some left =>
          simp only
          split_ifs
          · exact ih _ _ (by omega)
          · exact ih _ _ (by omega)
    · rfl

/-! ## Claims about the ranking and the truncation of the results -/

theorem compareDocuments_asymm (a b : Document) (h : compareDocuments a b = true) :
    compareDocuments b a = false := by
  unfold compareDocuments at h ⊢
  rw [abs_sub_comm b.relevance a.relevance]
  by_cases hc : |a.relevance - b.relevance| < 1 / 1000000
  · rw [if_pos hc] at h ⊢
    have : a.rating > b.rating := of_decide_eq_true h
    exact decide_eq_false (by omega)
  · rw [if_neg hc] at h ⊢
    have : a.relevance > b.relevance := of_decide_eq_true h
    exact decide_eq_false (not_lt.mpr (le_of_lt this))

theorem stdSort_seventeen_ties :
    stdSort (fun _ _ : Nat => false) (List.range 17) =
      [8, 16, 15, 14, 13, 12, 11, 10, 9, 0, 7, 6, 5, 4, 3, 2, 1] := by
  decide

theorem stdSort_of_length_le {α : Type} (comp : α → α → Bool) (v : List α)
    (h : v.length ≤ 16) : stdSort comp v = v.foldl (insertionStep comp) [] := by
  unfold stdSort
  split_ifs with hv
  · rw [List.isEmpty_iff.mp hv]
    rfl
  · have hloop : introsortLoop comp (lg v.length * 2) v = v := by
      cases lg v.length * 2 <;> simp [introsortLoop, Nat.not_lt.mpr h]
    rw [hloop]
    unfold finalInsertionSort
    rw [if_neg (Nat.not_lt.mpr h)]

theorem FindTopDocuments_ok {ln : ℚ → ℚ} {s : SearchServer} {policy : ExecutionPolicy}
    {raw_query : List Char} {document_predicate : DocumentPredicate} {docs : List Document}
    (h : s.FindTopDocuments ln policy raw_query document_predicate = .ok docs) :
    ∃ query matched, s.ParseQuery raw_query = .ok query ∧
      s.FindAllDocuments ln policy query document_predicate = .ok matched ∧
      docs = (stdSort compareDocuments matched).take MAX_RESULT_DOCUMENT_COUNT := by
  unfold SearchServer.FindTopDocuments at h
  cases hq : s.ParseQuery raw_query with
  | error e => simp [hq] at h
  | ok query =>
    simp only [hq] at h
    cases hm : s.FindAllDocuments ln policy query document_predicate with
    | error e => simp [hm] at h
    | ok matched =>
      simp only [hm, Except.ok.injEq] at h
      refine ⟨query, matched, rfl, hm, ?_⟩
      rw [← h]
      split_ifs with hlen
      · rfl
      · exact (List.take_of_length_le (not_lt.mp hlen)).symm

/-- C3: a successful `FindTopDocuments` returns the first `min 5 n` entries of
a ranking of the `n` documents `FindAllDocuments` produced: a permutation of
them in which no document is ordered by the comparison before the one that
precedes it, and which under the sequential policy is the result of `std::sort`.
Hence it returns at most `MAX_RESULT_DOCUMENT_COUNT = 5` documents, and all of
them when `n <= 5`. -/
theorem C3_top_results_truncated (ln : ℚ → ℚ) (s : SearchServer) (policy : ExecutionPolicy)
    (raw_query : List Char) (document_predicate : DocumentPredicate) (docs : List Document)
    (h : s.FindTopDocuments ln policy raw_query document_predicate = .ok docs) :
    ∃ query matched ranked, s.ParseQuery raw_query = .ok query ∧
      s.FindAllDocuments ln policy query document_predicate = .ok matched ∧
      ranked.Perm matched ∧
      ranked.Chain' (fun a b => compareDocuments b a = false) ∧
      (policy = ExecutionPolicy.seq → ranked = stdSort compareDocuments matched) ∧
      docs = ranked.take (min 5 matched.length) ∧
      docs.length = min 5 matched.length ∧
      docs.length ≤ MAX_RESULT_DOCUMENT_COUNT ∧
      MAX_RESULT_DOCUMENT_COUNT = 5 ∧
      (matched.length ≤ 5 → docs.Perm matched) := by
  obtain ⟨query, matched, hq, hm, hdocs⟩ := FindTopDocuments_ok h
  have hperm := stdSort_perm compareDocuments matched
  have hlen : (stdSort compareDocuments matched).length = matched.length := hperm.length_eq
  have htake : (stdSort compareDocuments matched).take MAX_RESULT_DOCUMENT_COUNT =
      (stdSort compareDocuments matched).take (min 5 matched.length) := by
    rw [List.take_eq_take]
    simp [MAX_RESULT_DOCUMENT_COUNT, hlen]
  refine ⟨query, matched, stdSort compareDocuments matched, hq, hm, hperm, ?_, fun _ => rfl,
    hdocs.trans htake, ?_, ?_, rfl, ?_⟩
  · exact stdSort_chain compareDocuments (fun a b => compareDocuments b a = false)
      compareDocuments_asymm (fun _ _ hc => hc) matched
  · rw [hdocs, List.length_take, hlen]
    rfl
  · rw [hdocs, List.length_take]
    exact min_le_left _ _
  · intro hle
    rw [hdocs, List.take_of_length_le (by rw [hlen]; exact hle)]
    exact hperm

/-- C3 at a concrete state: seventeen one-word documents match with equal
relevance and rating, and `std::sort` brings five of them to the front. -/
theorem C3_top_results_truncated_witness :
    seventeenDocumentsServer.FindTopDocuments lnSixDecimals ExecutionPolicy.seq "a".toList
        (fun _ _ _ => true) =
      .ok [⟨8, 0, 0⟩, ⟨16, 0, 0⟩, ⟨15, 0, 0⟩, ⟨14, 0, 0⟩, ⟨13, 0, 0⟩] ∧
    ∃ query matched ranked, seventeenDocumentsServer.ParseQuery "a".toList = .ok query ∧
      seventeenDocumentsServer.FindAllDocuments lnSixDecimals ExecutionPolicy.seq query
        (fun _ _ _ => true) = .ok matched ∧
      ranked.Perm matched ∧
      ranked.Chain' (fun a b => compareDocuments b a = false) ∧
      (ExecutionPolicy.seq = ExecutionPolicy.seq → ranked = stdSort compareDocuments matched) ∧
      [⟨8, 0, 0⟩, ⟨16, 0, 0⟩, ⟨15, 0, 0⟩, ⟨14, 0, 0⟩, ⟨13, 0, 0⟩] =
        ranked.take (min 5 matched.length) ∧
      [(⟨8, 0, 0⟩ : Document), ⟨16, 0, 0⟩, ⟨15, 0, 0⟩, ⟨14, 0, 0⟩, ⟨13, 0, 0⟩].length =
        min 5 matched.length ∧
      [(⟨8, 0, 0⟩ : Document), ⟨16, 0, 0⟩, ⟨15, 0, 0⟩, ⟨14, 0, 0⟩, ⟨13, 0, 0⟩].length ≤
        MAX_RESULT_DOCUMENT_COUNT ∧
      MAX_RESULT_DOCUMENT_COUNT = 5 ∧
      (matched.length ≤ 5 →
        [(⟨8, 0, 0⟩ : Document), ⟨16, 0, 0⟩, ⟨15, 0, 0⟩, ⟨14, 0, 0⟩, ⟨13, 0, 0⟩].Perm matched) :=
  ⟨by decide!,
    C3_top_results_truncated lnSixDecimals seventeenDocumentsServer ExecutionPolicy.seq
      "a".toList (fun _ _ _ => true)
      [⟨8, 0, 0⟩, ⟨16, 0, 0⟩, ⟨15, 0, 0⟩, ⟨14, 0, 0⟩, ⟨13, 0, 0⟩] (by decide!)⟩

/-! ## Facts about `ConcurrentMap` -/

theorem toInt32_toUInt64 {key : Int} (h : IsInt32 key) : toInt32 (toUInt64 key : Int) = key := by
  unfold IsInt32 at h
  unfold toInt32 toUInt64
  have h64 : (0 : Int) ≤ key % 2 ^ 64 := Int.emod_nonneg _ (by norm_num)
  rw [Int.toNat_of_nonneg h64]
  norm_num at h ⊢
  omega

theorem toUInt64_injective {k k' : Int} (h : IsInt32 k) (h' : IsInt32 k')
    (heq : toUInt64 k = toUInt64 k') : k = k' := by
  rw [← toInt32_toUInt64 h, ← toInt32_toUInt64 h', heq]

theorem isInt32_toInt32 (x : Int) : IsInt32 (toInt32 x) := by
  unfold IsInt32 toInt32
  norm_num
  omega

theorem ConcurrentMap.create_wf {V : Type} (n : Nat) (hn : 0 < n) :
    (ConcurrentMap.create n : ConcurrentMap V).WF := by
  refine ⟨by simpa [ConcurrentMap.create] using hn, ?_⟩
  intro i m hm
  simp only [ConcurrentMap.create, List.getElem?_replicate] at hm
  split_ifs at hm
  cases hm
  exact ⟨OrdMap.wf_nil, fun e he => by simp at he⟩

theorem ConcurrentMap.lookup_create {V : Type} (n : Nat) (key : Int) :
    (ConcurrentMap.create n : ConcurrentMap V).lookup key = none := by
  simp only [ConcurrentMap.lookup, ConcurrentMap.create, List.getElem?_replicate]
  split_ifs <;> simp [OrdMap.find]

theorem ConcurrentMap.update_wf {V : Type} {cm : ConcurrentMap V} (h : cm.WF) {key : Int}
    (hk : IsInt32 key) (init : V) (upd : V → V) : (cm.update key init upd).WF := by
  obtain ⟨hpos, hb⟩ := h
  refine ⟨by simpa [ConcurrentMap.update] using hpos, ?_⟩
  intro i m hm
  simp only [ConcurrentMap.update, List.getElem?_modify, List.length_modify] at hm ⊢
  cases hget : cm.maps_[i]? with
  | none => simp [hget] at hm
  | some m0 =>
    simp only [hget, Option.map_eq_map, Option.map_some', Option.some.injEq] at hm
    obtain ⟨hwf0, hent0⟩ := hb i m0 hget
    by_cases hi : toUInt64 key % cm.maps_.length = i
    · rw [if_pos hi] at hm
      subst hm
      refine ⟨OrdMap.wf_upsert _ _ _ hwf0, ?_⟩
      intro e he
      rcases OrdMap.mem_upsert he with h1 | h1
      · rw [h1]
        exact ⟨hi, key, hk, rfl⟩
      · exact hent0 e h1
    · rw [if_neg hi] at hm
      subst hm
      exact ⟨hwf0, hent0⟩

theorem ConcurrentMap.erase_wf {V : Type} {cm : ConcurrentMap V} (h : cm.WF) (key : Int) :
    (cm.erase key).WF := by
  obtain ⟨hpos, hb⟩ := h
  refine ⟨by simpa [ConcurrentMap.erase] using hpos, ?_⟩
  intro i m hm
  simp only [ConcurrentMap.erase, List.getElem?_modify, List.length_modify] at hm ⊢
  cases hget : cm.maps_[i]? with
  | none => simp [hget] at hm
  | some m0 =>
    simp only [hget, Option.map_eq_map, Option.map_some', Option.some.injEq] at hm
    obtain ⟨hwf0, hent0⟩ := hb i m0 hget
    by_cases hi : toUInt64 key % cm.maps_.length = i
    · rw [if_pos hi] at hm
      subst hm
      exact ⟨OrdMap.wf_erase _ hwf0, fun e he => hent0 e (OrdMap.mem_of_mem_erase he)⟩
    · rw [if_neg hi] at hm
      subst hm
      exact ⟨hwf0, hent0⟩

theorem ConcurrentMap.bucket_exists {V : Type} {cm : ConcurrentMap V} (h : cm.WF) (key : Int) :
    ∃ m, cm.maps_[toUInt64 key % cm.maps_.length]? = some m := by
  have hlt : toUInt64 key % cm.maps_.length < cm.maps_.length := Nat.mod_lt _ h.1
  exact ⟨cm.maps_[toUInt64 key % cm.maps_.length], List.getElem?_eq_getElem hlt⟩

theorem ConcurrentMap.lookup_update {V : Type} {cm : ConcurrentMap V} (h : cm.WF) {key key' : Int}
    (hk : IsInt32 key) (hk' : IsInt32 key') (init : V) (upd : V → V) :
    (cm.update key init upd).lookup key' =
      if key' = key then
        some (match cm.lookup key with | some v => upd v | none => upd init)
      else cm.lookup key' := by
  obtain ⟨m', hm'⟩ := ConcurrentMap.bucket_exists h key'
  have hwf' := (h.2 _ _ hm').1
  have hl : cm.lookup key' = OrdMap.find (toUInt64 key') m' := by
    simp only [ConcurrentMap.lookup, hm', Option.some_bind]
  have hu : (cm.update key init upd).lookup key' =
      OrdMap.find (toUInt64 key')
        (if toUInt64 key % cm.maps_.length = toUInt64 key' % cm.maps_.length then
          OrdMap.upsert (toUInt64 key) (upd init) upd m' else m') := by
    simp only [ConcurrentMap.lookup, ConcurrentMap.update, List.getElem?_modify,
      List.length_modify, hm', Option.map_eq_map, Option.map_some', Option.some_bind]
  rw [hu]
  by_cases hkk : key' = key
  · subst hkk
    rw [if_pos rfl, if_pos rfl, hl, OrdMap.find_upsert _ _ _ _ hwf', if_pos rfl]
  · rw [if_neg hkk, hl]
    by_cases hi : toUInt64 key % cm.maps_.length = toUInt64 key' % cm.maps_.length
    · rw [if_pos hi, OrdMap.find_upsert _ _ _ _ hwf']
      have hne : toUInt64 key' ≠ toUInt64 key := fun heq => hkk (toUInt64_injective hk' hk heq)
      rw [if_neg hne]
    · rw [if_neg hi]

theorem ConcurrentMap.lookup_erase {V : Type} {cm : ConcurrentMap V} (h : cm.WF) {key key' : Int}
    (hk : IsInt32 key) (hk' : IsInt32 key') :
    (cm.erase key).lookup key' = if key' = key then none else cm.lookup key' := by
  obtain ⟨m', hm'⟩ := ConcurrentMap.bucket_exists h key'
  have hwf' := (h.2 _ _ hm').1
  have hl : cm.lookup key' = OrdMap.find (toUInt64 key') m' := by
    simp only [ConcurrentMap.lookup, hm', Option.some_bind]
  have hu : (cm.erase key).lookup key' =
      OrdMap.find (toUInt64 key')
        (if toUInt64 key % cm.maps_.length = toUInt64 key' % cm.maps_.length then
          OrdMap.erase (toUInt64 key) m' else m') := by
    simp only [ConcurrentMap.lookup, ConcurrentMap.erase, List.getElem?_modify,
      List.length_modify, hm', Option.map_eq_map, Option.map_some', Option.some_bind]
  rw [hu]
  by_cases hkk : key' = key
  · subst hkk
    rw [if_pos rfl, if_pos rfl, OrdMap.find_erase _ _ hwf', if_pos rfl]
  · rw [if_neg hkk, hl]
    by_cases hi : toUInt64 key % cm.maps_.length = toUInt64 key' % cm.maps_.length
    · rw [if_pos hi, OrdMap.find_erase _ _ hwf']
      have hne : toUInt64 key' ≠ toUInt64 key := fun heq => hkk (toUInt64_injective hk' hk heq)
      rw [if_neg hne]
    · rw [if_neg hi]

theorem OrdMap.mem_upsert_id {K V : Type} [LinearOrder K] {k : K} {fresh : V} {m : OrdMap K V}
    {e : K × V} (h : e ∈ OrdMap.upsert k fresh id m) : e = (k, fresh) ∨ e ∈ m := by
  induction m with
  | nil =>
    simp only [OrdMap.upsert, List.mem_singleton] at h
    exact Or.inl h
  | cons e' rest ih =>
    obtain ⟨k', v'⟩ := e'
    by_cases hk : k = k'
    · simp only [OrdMap.upsert, if_pos hk, id] at h
      exact Or.inr h
    · by_cases hlt : k < k'
      · simp only [OrdMap.upsert, if_neg hk, if_pos hlt, List.mem_cons] at h
        rcases h with h | h
        · exact Or.inl h
        · exact Or.inr (List.mem_cons.mpr h)
      · simp only [OrdMap.upsert, if_neg hk, if_neg hlt, List.mem_cons] at h
        rcases h with h | h
        · exact Or.inr (List.mem_cons.mpr (Or.inl h))
        · rcases ih h with h | h
          · exact Or.inl h
          · exact Or.inr (List.mem_cons_of_mem _ h)

theorem insertBucket_wf {V : Type} (m : List (Nat × V)) (r : OrdMap Int V) (h : r.WF) :
    (m.foldl (fun result entry => result.upsert (toInt32 entry.1) entry.2 id) r).WF := by
  induction m generalizing r with
  | nil => exact h
  | cons e rest ih => exact ih _ (OrdMap.wf_upsert _ _ _ h)

theorem insertBucket_origin {V : Type} (m : List (Nat × V)) (r : OrdMap Int V) (k : Int) (v : V)
    (h : (k, v) ∈ m.foldl (fun result entry => result.upsert (toInt32 entry.1) entry.2 id) r) :
    (k, v) ∈ r ∨ ∃ e ∈ m, toInt32 e.1 = k ∧ e.2 = v := by
  induction m generalizing r with
  | nil => exact Or.inl h
  | cons e rest ih =>
    rcases ih _ h with h1 | ⟨e', he', hk⟩
    · rcases OrdMap.mem_upsert_id h1 with h2 | h2
      · simp only [Prod.mk.injEq] at h2
        exact Or.inr ⟨e, List.mem_cons_self _ _, h2.1.symm, h2.2.symm⟩
      · exact Or.inl h2
    · exact Or.inr ⟨e', List.mem_cons_of_mem _ he', hk⟩

theorem insertBucket_keeps {V : Type} (m : List (Nat × V)) (r : OrdMap Int V) (hwf : r.WF)
    (k : Int) (h : (OrdMap.find k r).isSome = true) :
    (OrdMap.find k
      (m.foldl (fun result entry => result.upsert (toInt32 entry.1) entry.2 id) r)).isSome =
      true := by
  induction m generalizing r with
  | nil => exact h
  | cons e rest ih =>
    apply ih _ (OrdMap.wf_upsert _ _ _ hwf)
    rw [OrdMap.find_upsert _ _ _ _ hwf]
    split_ifs
    · rfl
    · exact h

theorem insertBucket_present {V : Type} (m : List (Nat × V)) (r : OrdMap Int V) (hwf : r.WF)
    (e : Nat × V) (he : e ∈ m) :
    (OrdMap.find (toInt32 e.1)
      (m.foldl (fun result entry => result.upsert (toInt32 entry.1) entry.2 id) r)).isSome =
      true := by
  induction m generalizing r with
  | nil => simp at he
  | cons e' rest ih =>
    rcases List.mem_cons.mp he with h | h
    · subst h
      apply insertBucket_keeps _ _ (OrdMap.wf_upsert _ _ _ hwf)
      rw [OrdMap.find_upsert _ _ _ _ hwf, if_pos rfl]
      rfl
    · exact ih _ (OrdMap.wf_upsert _ _ _ hwf) h

theorem insertBuckets_wf {V : Type} (bs : List (OrdMap Nat V)) (r : OrdMap Int V) (h : r.WF) :
    (bs.foldl
      (fun result map =>
        map.foldl (fun result entry => result.upsert (toInt32 entry.1) entry.2 id) result) r).WF := by
  induction bs generalizing r with
  | nil => exact h
  | cons m rest ih => exact ih _ (insertBucket_wf m r h)

theorem insertBuckets_origin {V : Type} (bs : List (OrdMap Nat V)) (r : OrdMap Int V) (k : Int)
    (v : V)
    (h : (k, v) ∈ bs.foldl
      (fun result map =>
        map.foldl (fun result entry => result.upsert (toInt32 entry.1) entry.2 id) result) r) :
    (k, v) ∈ r ∨ ∃ m ∈ bs, ∃ e ∈ m, toInt32 e.1 = k ∧ e.2 = v := by
  induction bs generalizing r with
  | nil => exact Or.inl h
  | cons m rest ih =>
    rcases ih _ h with h1 | ⟨m', hm', hk⟩
    · rcases insertBucket_origin m r k v h1 with h2 | h2
      · exact Or.inl h2
      · exact Or.inr ⟨m, List.mem_cons_self _ _, h2⟩
    · exact Or.inr ⟨m', List.mem_cons_of_mem _ hm', hk⟩

theorem insertBuckets_keeps {V : Type} (bs : List (OrdMap Nat V)) (r : OrdMap Int V)
    (hwf : r.WF) (k : Int) (h : (OrdMap.find k r).isSome = true) :
    (OrdMap.find k (bs.foldl
      (fun result map =>
        map.foldl (fun result entry => result.upsert (toInt32 entry.1) entry.2 id) result)
      r)).isSome = true := by
  induction bs generalizing r with
  | nil => exact h
  | cons m rest ih => exact ih _ (insertBucket_wf m r hwf) (insertBucket_keeps m r hwf k h)

theorem insertBuckets_present {V : Type} (bs : List (OrdMap Nat V)) (r : OrdMap Int V)
    (hwf : r.WF) (m : OrdMap Nat V) (hm : m ∈ bs) (e : Nat × V) (he : e ∈ m) :
    (OrdMap.find (toInt32 e.1) (bs.foldl
      (fun result map =>
        map.foldl (fun result entry => result.upsert (toInt32 entry.1) entry.2 id) result)
      r)).isSome = true := by
  induction bs generalizing r with
  | nil => simp at hm
  | cons m' rest ih =>
    rcases List.mem_cons.mp hm with h | h
    · subst h
      exact insertBuckets_keeps rest _ (insertBucket_wf m r hwf) _
        (insertBucket_present m r hwf e he)
    · exact ih _ (insertBucket_wf m' r hwf) h

theorem ConcurrentMap.BuildOrdinaryMap_wf {V : Type} (cm : ConcurrentMap V) :
    cm.BuildOrdinaryMap.WF :=
  insertBuckets_wf cm.maps_ [] OrdMap.wf_nil

theorem ConcurrentMap.BuildOrdinaryMap_isInt32 {V : Type} (cm : ConcurrentMap V) (k : Int) (v : V)
    (h : (k, v) ∈ cm.BuildOrdinaryMap) : IsInt32 k := by
  rcases insertBuckets_origin cm.maps_ [] k v h with h1 | ⟨m, _, e, _, hk, _⟩
  · simp at h1
  · rw [← hk]
    exact isInt32_toInt32 _

theorem ConcurrentMap.lookup_of_mem_BuildOrdinaryMap {V : Type} {cm : ConcurrentMap V}
    (hwf : cm.WF) (k : Int) (v : V) (h : (k, v) ∈ cm.BuildOrdinaryMap) :
    cm.lookup k = some v := by
  rcases insertBuckets_origin cm.maps_ [] k v h with h1 | ⟨m, hm, e, he, hk, hv⟩
  · simp at h1
  · obtain ⟨i, hi⟩ := List.getElem?_of_mem hm
    obtain ⟨hmwf, hent⟩ := hwf.2 i m hi
    obtain ⟨hmod, key, hkey, hukey⟩ := hent e he
    have hkk : key = k := by
      rw [← hk, hukey, toInt32_toUInt64 hkey]
    subst hkk
    unfold ConcurrentMap.lookup
    rw [← hukey, hmod, hi]
    simp only [Option.some_bind]
    rw [← hv]
    exact OrdMap.find_eq_some_of_mem hmwf he

theorem ConcurrentMap.BuildOrdinaryMap_find {V : Type} {cm : ConcurrentMap V} (hwf : cm.WF)
    (k : Int) (hk : IsInt32 k) : OrdMap.find k cm.BuildOrdinaryMap = cm.lookup k := by
  cases hl : cm.lookup k with
  | none =>
    cases hf : OrdMap.find k cm.BuildOrdinaryMap with
    | none => rfl
    | some v =>
      have := ConcurrentMap.lookup_of_mem_BuildOrdinaryMap hwf k v (OrdMap.mem_of_find_eq_some hf)
      rw [hl] at this
      exact Option.noConfusion this
  | some v =>
    obtain ⟨m, hm⟩ := ConcurrentMap.bucket_exists hwf k
    have hfm : OrdMap.find (toUInt64 k) m = some v := by
      simpa [ConcurrentMap.lookup, hm] using hl
    have hmem := OrdMap.mem_of_find_eq_some hfm
    have hpres := insertBuckets_present cm.maps_ [] OrdMap.wf_nil m
      (List.getElem?_mem hm) _ hmem
    simp only [toInt32_toUInt64 hk] at hpres
    obtain ⟨v', hv'⟩ := Option.isSome_iff_exists.mp hpres
    have hv'' : OrdMap.find k cm.BuildOrdinaryMap = some v' := hv'
    have := ConcurrentMap.lookup_of_mem_BuildOrdinaryMap hwf k v'
      (OrdMap.mem_of_find_eq_some hv'')
    rw [hl] at this
    rw [hv'', this]

/-! ## Facts about the loops of `FindAllDocuments` -/

theorem accumulateLoop_spec (s : SearchServer) (document_predicate : DocumentPredicate) (idf : ℚ)
    (postings : OrdMap Int ℚ) (cm : ConcurrentMap ℚ) (hcm : cm.WF) (hp : postings.WF)
    (hdocs : ∀ e ∈ postings, IsInt32 e.1 ∧ (s.documents_.find e.1).isSome = true) :
    ∃ cm', accumulateLoop s document_predicate idf postings cm = .ok cm' ∧ cm'.WF ∧
      ∀ d, IsInt32 d → cm'.lookup d =
        match OrdMap.find d postings with
        | some tf =>
          if accepts s document_predicate d then some ((cm.lookup d).getD 0 + tf * idf)
          else cm.lookup d
        | none => cm.lookup d := by
  induction postings generalizing cm with
  | nil => exact ⟨cm, rfl, hcm, fun d _ => rfl⟩
  | cons e rest ih =>
    obtain ⟨d0, tf0⟩ := e
    rw [OrdMap.wf_cons_iff] at hp
    obtain ⟨hd0, hpres⟩ := hdocs (d0, tf0) (List.mem_cons_self _ _)
    obtain ⟨data, hdata⟩ := Option.isSome_iff_exists.mp hpres
    have hrest : ∀ e ∈ rest, IsInt32 e.1 ∧ (s.documents_.find e.1).isSome = true :=
      fun e he => hdocs e (List.mem_cons_of_mem _ he)
    have hnone : OrdMap.find d0 rest = none :=
      OrdMap.find_eq_none_of_forall_ne d0 rest (fun e he => ne_of_gt (hp.1 e he))
    have hacc : accepts s document_predicate d0 =
        document_predicate d0 data.status data.rating := by
      simp [accepts, hdata]
    simp only [accumulateLoop, hdata] at hdata ⊢
    cases hpred : document_predicate d0 data.status data.rating with
    | true =>
      simp only [if_true]
      obtain ⟨cm', hok, hwf', hl⟩ :=
        ih (cm.update d0 0 (· + tf0 * idf)) (ConcurrentMap.update_wf hcm hd0 _ _) hp.2 hrest
      refine ⟨cm', hok, hwf', ?_⟩
      intro d hd
      rw [hl d hd, ConcurrentMap.lookup_update hcm hd0 hd]
      by_cases hdd : d = d0
      · subst hdd
        simp only [hnone, if_true, OrdMap.find, hacc, hpred]
        cases cm.lookup d <;> simp
      · have hdd' : ¬ d = d0 := hdd
        simp only [if_neg hdd, OrdMap.find, if_neg hdd']
    | false =>
      simp only [Bool.false_eq_true, if_false]
      obtain ⟨cm', hok, hwf', hl⟩ := ih cm hcm hp.2 hrest
      refine ⟨cm', hok, hwf', ?_⟩
      intro d hd
      rw [hl d hd]
      by_cases hdd : d = d0
      · subst hdd
        simp only [hnone, if_true, OrdMap.find, hacc, hpred, Bool.false_eq_true, if_false]
      · simp only [OrdMap.find, if_neg hdd]

theorem eraseLoop_spec (postings : OrdMap Int ℚ) (cm : ConcurrentMap ℚ) (hcm : cm.WF)
    (hdocs : ∀ e ∈ postings, IsInt32 e.1) :
    (eraseLoop postings cm).WF ∧
      ∀ d, IsInt32 d → (eraseLoop postings cm).lookup d =
        if (OrdMap.find d postings).isSome = true then none else cm.lookup d := by
  induction postings generalizing cm with
  | nil => exact ⟨hcm, fun d _ => by simp [eraseLoop, OrdMap.find]⟩
  | cons e rest ih =>
    obtain ⟨d0, tf0⟩ := e
    have hd0 := hdocs (d0, tf0) (List.mem_cons_self _ _)
    obtain ⟨hwf', hl⟩ := ih (cm.erase d0) (ConcurrentMap.erase_wf hcm d0)
      (fun e he => hdocs e (List.mem_cons_of_mem _ he))
    refine ⟨hwf', ?_⟩
    intro d hd
    simp only [eraseLoop]
    rw [hl d hd, ConcurrentMap.lookup_erase hcm hd0 hd]
    by_cases hdd : d = d0
    · simp [OrdMap.find, hdd]
    · simp [OrdMap.find, hdd]

theorem accumulate_cons (c : ℚ) (cs : List ℚ) (start : Option ℚ) :
    accumulate (c :: cs) start = accumulate cs (some (start.getD 0 + c)) := rfl

theorem accumulate_none (cs : List ℚ) :
    accumulate cs none = if cs = [] then none else some cs.sum := by
  have key : ∀ (cs : List ℚ) (x : ℚ), accumulate cs (some x) = some (x + cs.sum) := by
    intro cs
    induction cs with
    | nil => intro x; simp [accumulate]
    | cons c rest ih =>
      intro x
      rw [accumulate_cons, ih]
      simp only [Option.getD_some, List.sum_cons]
      congr 1
      ring
  cases cs with
  | nil => rfl
  | cons c rest =>
    rw [accumulate_cons, key]
    simp

theorem ServerInv.postings_docs {s : SearchServer} {corpus : Int → Option (List Word)}
    (hinv : ServerInv s corpus) {w : Word} {postings : OrdMap Int ℚ}
    (hw : s.word_to_document_freqs_.find w = some postings) :
    ∀ e ∈ postings, IsInt32 e.1 ∧ (s.documents_.find e.1).isSome = true := by
  intro e he
  have hf : OrdMap.find e.1 postings = some e.2 :=
    OrdMap.find_eq_some_of_mem (hinv.index_wf.2 w postings hw) he
  have hent : indexEntry s.word_to_document_freqs_ w e.1 = some e.2 := by
    simp [indexEntry, hw, hf]
  rw [hinv.entries] at hent
  have hpres : (s.documents_.find e.1).isSome = true := by
    cases hd : OrdMap.find e.1 s.documents_ with
    | none => simp [hd] at hent
    | some data => rfl
  have hr := hinv.id_range e.1 hpres
  refine ⟨⟨?_, hr.2⟩, hpres⟩
  have : (-2 : Int) ^ 31 ≤ 0 := by norm_num
  linarith [hr.1]

theorem idfOf_of_find {ln : ℚ → ℚ} {s : SearchServer} {w : Word} {postings : OrdMap Int ℚ}
    (hw : s.word_to_document_freqs_.find w = some postings) :
    s.ComputeWordInverseDocumentFreq ln w = .ok (idfOf ln s w) := by
  simp [idfOf, SearchServer.ComputeWordInverseDocumentFreq, hw]

theorem plusWordsLoop_spec {s : SearchServer} {corpus : Int → Option (List Word)}
    (hinv : ServerInv s corpus) (ln : ℚ → ℚ) (document_predicate : DocumentPredicate)
    (words : List Word) (cm : ConcurrentMap ℚ) (hcm : cm.WF) :
    ∃ cm', plusWordsLoop ln s document_predicate words cm = .ok cm' ∧ cm'.WF ∧
      ∀ d, IsInt32 d → cm'.lookup d =
        if accepts s document_predicate d then
          accumulate (contributions ln s words d) (cm.lookup d)
        else cm.lookup d := by
  induction words generalizing cm with
  | nil =>
    refine ⟨cm, rfl, hcm, fun d _ => ?_⟩
    simp [contributions, accumulate]
  | cons w rest ih =>
    cases hw : OrdMap.find w s.word_to_document_freqs_ with
    | none =>
      obtain ⟨cm', hok, hwf', hl⟩ := ih cm hcm
      refine ⟨cm', by simpa [plusWordsLoop, hw] using hok, hwf', ?_⟩
      intro d hd
      rw [hl d hd]
      have hc : contributions ln s (w :: rest) d = contributions ln s rest d := by
        simp [contributions, indexEntry, hw]
      rw [hc]
    | some postings =>
      obtain ⟨cm1, hok1, hwf1, hl1⟩ :=
        accumulateLoop_spec s document_predicate (idfOf ln s w) postings cm hcm
          (hinv.index_wf.2 w postings hw) (hinv.postings_docs hw)
      obtain ⟨cm', hok, hwf', hl⟩ := ih cm1 hwf1
      refine ⟨cm', ?_, hwf', ?_⟩
      · simp only [plusWordsLoop, hw, idfOf_of_find hw, hok1]
        exact hok
      · intro d hd
        rw [hl d hd, hl1 d hd]
        have hent : indexEntry s.word_to_document_freqs_ w d = OrdMap.find d postings := by
          simp [indexEntry, hw]
        cases hacc : accepts s document_predicate d with
        | false => cases OrdMap.find d postings <;> simp
        | true =>
          simp only [if_true]
          cases hf : OrdMap.find d postings with
          | none =>
            have hc : contributions ln s (w :: rest) d = contributions ln s rest d := by
              simp [contributions, hent, hf]
            rw [hc]
          | some tf =>
            have hc : contributions ln s (w :: rest) d =
                (tf * idfOf ln s w) :: contributions ln s rest d := by
              simp [contributions, hent, hf]
            rw [hc, accumulate_cons]

theorem minusWordsLoop_spec {s : SearchServer} {corpus : Int → Option (List Word)}
    (hinv : ServerInv s corpus) (words : List Word) (cm : ConcurrentMap ℚ) (hcm : cm.WF) :
    (minusWordsLoop s words cm).WF ∧
      ∀ d, IsInt32 d → (minusWordsLoop s words cm).lookup d =
        if words.any (fun w => (indexEntry s.word_to_document_freqs_ w d).isSome) = true
        then none else cm.lookup d := by
  induction words generalizing cm with
  | nil => exact ⟨hcm, fun d _ => by simp [minusWordsLoop]⟩
  | cons w rest ih =>
    cases hw : OrdMap.find w s.word_to_document_freqs_ with
    | none =>
      obtain ⟨hwf', hl⟩ := ih cm hcm
      simp only [minusWordsLoop, hw]
      refine ⟨hwf', fun d hd => ?_⟩
      rw [hl d hd]
      simp [indexEntry, hw]
    | some postings =>
      obtain ⟨hwf1, hl1⟩ := eraseLoop_spec postings cm hcm
        (fun e he => (hinv.postings_docs hw e he).1)
      obtain ⟨hwf', hl⟩ := ih (eraseLoop postings cm) hwf1
      simp only [minusWordsLoop, hw]
      refine ⟨hwf', fun d hd => ?_⟩
      rw [hl d hd, hl1 d hd]
      have hent : indexEntry s.word_to_document_freqs_ w d = OrdMap.find d postings := by
        simp [indexEntry, hw]
      simp only [List.any_cons, hent, Bool.or_eq_true]
      by_cases h1 : (OrdMap.find d postings).isSome = true
      · simp [h1]
      · simp [h1]

theorem collectLoop_spec (s : SearchServer) (entries : List (Int × ℚ)) (matched : List Document)
    (h : ∀ e ∈ entries, (s.documents_.find e.1).isSome = true) :
    collectLoop s entries matched =
      .ok (matched ++ entries.map (fun e => ⟨e.1, e.2, storedRating s e.1⟩)) := by
  induction entries generalizing matched with
  | nil => simp [collectLoop]
  | cons e rest ih =>
    obtain ⟨d, rel⟩ := e
    obtain ⟨data, hdata⟩ := Option.isSome_iff_exists.mp (h (d, rel) (List.mem_cons_self _ _))
    simp only [collectLoop] at hdata ⊢
    rw [hdata]
    simp only
    rw [ih _ (fun e he => h e (List.mem_cons_of_mem _ he))]
    simp [storedRating, hdata]

theorem accepts_eq_true_iff (s : SearchServer) (document_predicate : DocumentPredicate) (d : Int) :
    accepts s document_predicate d = true ↔
      ∃ data, s.documents_.find d = some data ∧
        document_predicate d data.status data.rating = true := by
  unfold accepts
  cases OrdMap.find d s.documents_ with
  | none => simp
  | some data => simp

theorem FindAllDocuments_spec {s : SearchServer} {corpus : Int → Option (List Word)}
    (hinv : ServerInv s corpus) (ln : ℚ → ℚ) (policy : ExecutionPolicy) (query : Query)
    (document_predicate : DocumentPredicate) :
    ∃ entries : OrdMap Int ℚ, entries.WF ∧
      s.FindAllDocuments ln policy query document_predicate =
        .ok (entries.map (fun e => ⟨e.1, e.2, storedRating s e.1⟩)) ∧
      ∀ d rel, (d, rel) ∈ entries ↔
        (accepts s document_predicate d = true ∧
          query.minus_words.any
            (fun w => (indexEntry s.word_to_document_freqs_ w d).isSome) = false ∧
          accumulate (contributions ln s query.plus_words d) none = some rel) := by
  obtain ⟨acc, hok, hwf, hl⟩ := plusWordsLoop_spec hinv ln document_predicate query.plus_words
    (ConcurrentMap.create 2000) (ConcurrentMap.create_wf 2000 (by norm_num))
  obtain ⟨hwf2, hl2⟩ := minusWordsLoop_spec hinv query.minus_words acc hwf
  have hlookup : ∀ d, IsInt32 d → (minusWordsLoop s query.minus_words acc).lookup d =
      if query.minus_words.any
          (fun w => (indexEntry s.word_to_document_freqs_ w d).isSome) = true then none
      else if accepts s document_predicate d then
        accumulate (contributions ln s query.plus_words d) none
      else none := by
    intro d hd
    rw [hl2 d hd, hl d hd, ConcurrentMap.lookup_create]
  have hsome : ∀ d rel, IsInt32 d →
      ((minusWordsLoop s query.minus_words acc).lookup d = some rel ↔
        (accepts s document_predicate d = true ∧
          query.minus_words.any
            (fun w => (indexEntry s.word_to_document_freqs_ w d).isSome) = false ∧
          accumulate (contributions ln s query.plus_words d) none = some rel)) := by
    intro d rel hd
    rw [hlookup d hd]
    cases h1 : query.minus_words.any
        (fun w => (indexEntry s.word_to_document_freqs_ w d).isSome) <;>
      cases h2 : accepts s document_predicate d <;> simp
  have hint : ∀ d, accepts s document_predicate d = true → IsInt32 d := by
    intro d hd
    obtain ⟨data, hdata, _⟩ := (accepts_eq_true_iff s document_predicate d).mp hd
    have hr := hinv.id_range d (by rw [hdata]; rfl)
    refine ⟨?_, hr.2⟩
    have : (-2 : Int) ^ 31 ≤ 0 := by norm_num
    linarith [hr.1]
  have hmem : ∀ d rel, (d, rel) ∈ (minusWordsLoop s query.minus_words acc).BuildOrdinaryMap ↔
      (accepts s document_predicate d = true ∧
        query.minus_words.any
          (fun w => (indexEntry s.word_to_document_freqs_ w d).isSome) = false ∧
        accumulate (contributions ln s query.plus_words d) none = some rel) := by
    intro d rel
    constructor
    · intro h
      have hd := ConcurrentMap.BuildOrdinaryMap_isInt32 _ d rel h
      exact (hsome d rel hd).mp (ConcurrentMap.lookup_of_mem_BuildOrdinaryMap hwf2 d rel h)
    · intro h
      have hd := hint d h.1
      apply OrdMap.mem_of_find_eq_some
      rw [ConcurrentMap.BuildOrdinaryMap_find hwf2 d hd]
      exact (hsome d rel hd).mpr h
  refine ⟨(minusWordsLoop s query.minus_words acc).BuildOrdinaryMap,
    ConcurrentMap.BuildOrdinaryMap_wf _, ?_, hmem⟩
  unfold SearchServer.FindAllDocuments
  simp only [hok]
  rw [collectLoop_spec]
  · simp
  · intro e he
    have h := (hmem e.1 e.2).mp he
    obtain ⟨data, hdata, _⟩ := (accepts_eq_true_iff s document_predicate e.1).mp h.1
    rw [hdata]
    rfl

theorem contributions_eq_nil_iff (ln : ℚ → ℚ) (s : SearchServer) (words : List Word) (d : Int) :
    contributions ln s words d = [] ↔
      ∀ w ∈ words, indexEntry s.word_to_document_freqs_ w d = none := by
  unfold contributions
  induction words with
  | nil => simp
  | cons w rest ih =>
    cases h : indexEntry s.word_to_document_freqs_ w d with
    | none => simp [List.filterMap_cons, h, ih]
    | some tf => simp [List.filterMap_cons, h]

theorem contributions_sum (ln : ℚ → ℚ) (s : SearchServer) (words : List Word) (d : Int) :
    (contributions ln s words d).sum =
      ((words.filter (fun w => (indexEntry s.word_to_document_freqs_ w d).isSome)).map
        (fun w => (indexEntry s.word_to_document_freqs_ w d).getD 0 * idfOf ln s w)).sum := by
  unfold contributions
  induction words with
  | nil => simp
  | cons w rest ih =>
    cases h : indexEntry s.word_to_document_freqs_ w d with
    | none => simp [List.filterMap_cons, List.filter_cons, h, ih]
    | some tf => simp [List.filterMap_cons, List.filter_cons, h, ih]

theorem ServerInv.postings_length {s : SearchServer} {corpus : Int → Option (List Word)}
    (hinv : ServerInv s corpus) {w : Word} {postings : OrdMap Int ℚ}
    (hw : s.word_to_document_freqs_.find w = some postings) :
    postings.length = documentFrequency s w := by
  unfold documentFrequency
  have hs1 : (postings.map Prod.fst).Sorted (· < ·) := hinv.index_wf.2 w postings hw
  have hs2 : ((s.documents_.filter
      (fun e => (e.2.frequency_of_words.find w).isSome)).map Prod.fst).Sorted (· < ·) :=
    List.Pairwise.sublist (List.Sublist.map _ (List.filter_sublist _)) hinv.docs_wf
  have hmem : ∀ d, d ∈ postings.map Prod.fst ↔
      d ∈ (s.documents_.filter
        (fun e => (e.2.frequency_of_words.find w).isSome)).map Prod.fst := by
    intro d
    rw [← OrdMap.find_isSome_iff]
    have hent : indexEntry s.word_to_document_freqs_ w d = OrdMap.find d postings := by
      simp [indexEntry, hw]
    rw [← hent, hinv.entries]
    simp only [List.mem_map, List.mem_filter, Prod.exists, exists_and_right, exists_eq_right]
    constructor
    · intro h
      cases hd : OrdMap.find d s.documents_ with
      | none => simp [hd] at h
      | some data =>
        simp only [hd, Option.some_bind] at h
        exact ⟨data, OrdMap.mem_of_find_eq_some hd, h⟩
    · rintro ⟨data, hd, hf⟩
      rw [OrdMap.find_eq_some_of_mem hinv.docs_wf hd]
      exact hf
  have hperm : (postings.map Prod.fst).Perm
      ((s.documents_.filter
        (fun e => (e.2.frequency_of_words.find w).isSome)).map Prod.fst) :=
    (List.perm_ext_iff_of_nodup (hs1.imp (fun h => ne_of_lt h))
      (hs2.imp (fun h => ne_of_lt h))).mpr hmem
  simpa using hperm.length_eq

/-! ## Claims about the candidates of a query -/

theorem uniqueLoop_chain {α : Type} [LinearOrder α] [DecidableEq α] (dest : α) (l : List α)
    (h : (dest :: l).Chain' (· ≤ ·)) : (dest :: uniqueLoop dest l).Chain' (· < ·) := by
  induction l generalizing dest with
  | nil => simp [uniqueLoop]
  | cons x rest ih =>
    have hle : dest ≤ x := List.Chain'.rel_head h
    have htail : (x :: rest).Chain' (· ≤ ·) := List.Chain'.tail h
    simp only [uniqueLoop]
    by_cases hx : dest = x
    · rw [if_pos hx]
      apply ih
      rw [hx]
      exact htail
    · rw [if_neg hx]
      exact List.Chain'.cons (lt_of_le_of_ne hle hx) (ih x htail)

theorem stdUnique_stdSort_sorted {α : Type} [LinearOrder α] [DecidableEq α] (l : List α) :
    (stdUnique (stdSort (fun a b => decide (a < b)) l)).Sorted (· < ·) := by
  have hchain : (stdSort (fun a b => decide (a < b)) l).Chain' (· ≤ ·) :=
    stdSort_chain _ (· ≤ ·) (fun a b h => le_of_lt (of_decide_eq_true h))
      (fun a b h => not_lt.mp (of_decide_eq_false h)) l
  have hlt : (stdUnique (stdSort (fun a b => decide (a < b)) l)).Chain' (· < ·) := by
    cases hs : stdSort (fun a b => decide (a < b)) l with
    | nil => simp [stdUnique]
    | cons x rest =>
      rw [hs] at hchain
      exact uniqueLoop_chain x rest hchain
  exact List.chain'_iff_pairwise.mp hlt

theorem ParseQuery_ok {s : SearchServer} {text : List Char} {query : Query}
    (h : s.ParseQuery text = .ok query) :
    ∃ result, s.ParseQueryNoSort text = .ok result ∧
      query.plus_words = stdUnique (stdSort (fun a b => decide (a < b)) result.plus_words) ∧
      query.minus_words = stdUnique (stdSort (fun a b => decide (a < b)) result.minus_words) := by
  unfold SearchServer.ParseQuery at h
  cases hr : s.ParseQueryNoSort text with
  | error e => simp [hr] at h
  | ok result =>
    simp only [hr, Except.ok.injEq] at h
    refine ⟨result, rfl, ?_, ?_⟩ <;> rw [← h]

theorem ServerInv.entry_eq {s : SearchServer} {corpus : Int → Option (List Word)}
    (hinv : ServerInv s corpus) {d : Int} {data : DocumentData}
    (hd : s.documents_.find d = some data) (w : Word) :
    indexEntry s.word_to_document_freqs_ w d = data.frequency_of_words.find w := by
  rw [hinv.entries, hd]
  rfl

theorem ServerInv.idfOf_eq {s : SearchServer} {corpus : Int → Option (List Word)}
    (hinv : ServerInv s corpus) (ln : ℚ → ℚ) {w : Word} {d : Int}
    (h : (indexEntry s.word_to_document_freqs_ w d).isSome = true) :
    idfOf ln s w = ln ((s.GetDocumentCount : ℚ) / (documentFrequency s w : ℚ)) := by
  cases hw : OrdMap.find w s.word_to_document_freqs_ with
  | none => simp [indexEntry, hw] at h
  | some postings =>
    simp only [idfOf, SearchServer.ComputeWordInverseDocumentFreq, hw, mul_one,
      hinv.postings_length hw]

theorem ServerInv.relevance_formula {s : SearchServer} {corpus : Int → Option (List Word)}
    (hinv : ServerInv s corpus) (ln : ℚ → ℚ) {d : Int} {data : DocumentData}
    (hd : s.documents_.find d = some data) (words : List Word) :
    (contributions ln s words d).sum =
      ((words.filter (fun w => (data.frequency_of_words.find w).isSome)).map
        (fun w => (data.frequency_of_words.find w).getD 0 *
          ln ((s.GetDocumentCount : ℚ) / (documentFrequency s w : ℚ)))).sum := by
  rw [contributions_sum]
  have hf : (fun w => (indexEntry s.word_to_document_freqs_ w d).isSome) =
      (fun w => (data.frequency_of_words.find w).isSome) := by
    funext w
    rw [hinv.entry_eq hd]
  rw [hf]
  congr 1
  apply List.map_congr_left
  intro w hw
  have hsome : (data.frequency_of_words.find w).isSome = true := (List.mem_filter.mp hw).2
  rw [hinv.entry_eq hd, hinv.idfOf_eq ln (by rw [hinv.entry_eq hd]; exact hsome)]

/-- C1: in every reachable state, for a query built by `ParseQuery` (whose
plus-words are duplicate-free) and every predicate, `FindAllDocuments` returns
one entry for each document that is present, accepted by the predicate, holds a
plus-word and holds no minus-word, and no other entry; the relevance of the
entry is the sum of `tf(w, d) * ln(N / df(w))` over the plus-words `w` the
document holds, and its rating is the stored rating. -/
theorem C1_FindAllDocuments_exact {stop_words : List Word} {s : SearchServer}
    {corpus : Int → Option (List Word)} (hr : Reaches stop_words s corpus) (ln : ℚ → ℚ)
    (policy : ExecutionPolicy) (raw_query : List Char) (query : Query)
    (document_predicate : DocumentPredicate) (hq : s.ParseQuery raw_query = .ok query) :
    query.plus_words.Nodup ∧
    ∃ docs, s.FindAllDocuments ln policy query document_predicate = .ok docs ∧
      (docs.map (fun doc => doc.id)).Nodup ∧
      (∀ d, d ∈ docs.map (fun doc => doc.id) ↔
        ∃ data, s.documents_.find d = some data ∧
          document_predicate d data.status data.rating = true ∧
          (∃ w ∈ query.plus_words, (data.frequency_of_words.find w).isSome = true) ∧
          (∀ w ∈ query.minus_words, data.frequency_of_words.find w = none)) ∧
      (∀ doc ∈ docs, ∃ data, s.documents_.find doc.id = some data ∧
        doc.rating = data.rating ∧
        doc.relevance =
          ((query.plus_words.filter (fun w => (data.frequency_of_words.find w).isSome)).map
            (fun w => (data.frequency_of_words.find w).getD 0 *
              ln ((s.GetDocumentCount : ℚ) / (documentFrequency s w : ℚ)))).sum) := by
  have hinv := hr.inv
  obtain ⟨result, _, hplus, _⟩ := ParseQuery_ok hq
  refine ⟨?_, ?_⟩
  · rw [hplus]
    exact (stdUnique_stdSort_sorted result.plus_words).nodup
  obtain ⟨entries, hwf, hok, hmem⟩ :=
    FindAllDocuments_spec hinv ln policy query document_predicate
  refine ⟨_, hok, ?_, ?_, ?_⟩
  · rw [List.map_map]
    exact List.Sorted.nodup hwf
  · intro d
    rw [List.map_map]
    simp only [List.mem_map, Function.comp, Prod.exists, exists_and_right, exists_eq_right]
    constructor
    · rintro ⟨rel, hrel⟩
      obtain ⟨hacc, hminus, hsum⟩ := (hmem d rel).mp hrel
      obtain ⟨data, hdata, hpred⟩ := (accepts_eq_true_iff s document_predicate d).mp hacc
      refine ⟨data, hdata, hpred, ?_, ?_⟩
      · rw [accumulate_none] at hsum
        by_contra hnone
        push_neg at hnone
        have hnil : contributions ln s query.plus_words d = [] := by
          rw [contributions_eq_nil_iff]
          intro w hw
          rw [hinv.entry_eq hdata]
          have := hnone w hw
          cases hf : OrdMap.find w data.frequency_of_words with
          | none => rfl
          | some f => simp [hf] at this
        rw [if_pos hnil] at hsum
        exact Option.noConfusion hsum
      · intro w hw
        rw [List.any_eq_false] at hminus
        have := hminus w hw
        rw [hinv.entry_eq hdata] at this
        cases hf : OrdMap.find w data.frequency_of_words with
        | none => rfl
        | some f => simp [hf] at this
    · rintro ⟨data, hdata, hpred, ⟨w, hw, hsome⟩, hminus⟩
      have hnn : contributions ln s query.plus_words d ≠ [] := by
        intro hnil
        rw [contributions_eq_nil_iff] at hnil
        have := hnil w hw
        rw [hinv.entry_eq hdata] at this
        rw [this] at hsome
        exact Bool.noConfusion hsome
      refine ⟨(contributions ln s query.plus_words d).sum, (hmem d _).mpr ⟨?_, ?_, ?_⟩⟩
      · exact (accepts_eq_true_iff s document_predicate d).mpr ⟨data, hdata, hpred⟩
      · rw [List.any_eq_false]
        intro w' hw'
        rw [hinv.entry_eq hdata, hminus w' hw']
        simp
      · rw [accumulate_none, if_neg hnn]
  · intro doc hdoc
    obtain ⟨e, he, hdoce⟩ := List.mem_map.mp hdoc
    obtain ⟨d, rel⟩ := e
    obtain ⟨hacc, hminus, hsum⟩ := (hmem d rel).mp he
    obtain ⟨data, hdata, hpred⟩ := (accepts_eq_true_iff s document_predicate d).mp hacc
    subst hdoce
    refine ⟨data, hdata, by simp [storedRating, hdata], ?_⟩
    rw [accumulate_none] at hsum
    by_cases hnil : contributions ln s query.plus_words d = []
    · rw [if_pos hnil] at hsum
      exact Option.noConfusion hsum
    · rw [if_neg hnil, Option.some.injEq] at hsum
      simp only
      rw [← hsum]
      exact hinv.relevance_formula ln hdata query.plus_words

theorem catDogServer_reaches : Reaches ["a".toList, "the".toList] catDogServer catDogCorpus :=
  have h0 : Reaches ["a".toList, "the".toList]
      ((SearchServer.empty ["a".toList, "the".toList]).AddDocument 0
        "a cat sat on the mat".toList DocumentStatus.ACTUAL [5, 4]).2
      (Function.update (fun _ => none) 0
        (some ["cat".toList, "sat".toList, "on".toList, "mat".toList])) :=
    Reaches.add 0 "a cat sat on the mat".toList DocumentStatus.ACTUAL [5, 4]
      ["cat".toList, "sat".toList, "on".toList, "mat".toList] Reaches.empty (by decide)
      (by decide!) (by decide!)
  Reaches.add 1 "a dog sat".toList DocumentStatus.ACTUAL [3] ["dog".toList, "sat".toList] h0
    (by decide) (by decide!) (by decide!)

/-- C1 at a concrete state: the example of the specification, query
"cat dog -mat" with a predicate that accepts every document. -/
theorem C1_FindAllDocuments_exact_witness :
    Reaches ["a".toList, "the".toList] catDogServer catDogCorpus ∧
    catDogServer.ParseQuery "cat dog -mat".toList =
      .ok ⟨["cat".toList, "dog".toList], ["mat".toList]⟩ ∧
    (["cat".toList, "dog".toList] : List Word).Nodup ∧
    ∃ docs, catDogServer.FindAllDocuments lnSixDecimals ExecutionPolicy.seq
        ⟨["cat".toList, "dog".toList], ["mat".toList]⟩ (fun _ _ _ => true) = .ok docs ∧
      (docs.map (fun doc => doc.id)).Nodup ∧
      (∀ d, d ∈ docs.map (fun doc => doc.id) ↔
        ∃ data, catDogServer.documents_.find d = some data ∧
          (fun _ _ _ => true : DocumentPredicate) d data.status data.rating = true ∧
          (∃ w ∈ ["cat".toList, "dog".toList],
            (data.frequency_of_words.find w).isSome = true) ∧
          (∀ w ∈ ["mat".toList], data.frequency_of_words.find w = none)) ∧
      (∀ doc ∈ docs, ∃ data, catDogServer.documents_.find doc.id = some data ∧
        doc.rating = data.rating ∧
        doc.relevance =
          ((["cat".toList, "dog".toList].filter
              (fun w => (data.frequency_of_words.find w).isSome)).map
            (fun w => (data.frequency_of_words.find w).getD 0 *
              lnSixDecimals ((catDogServer.GetDocumentCount : ℚ) /
                (documentFrequency catDogServer w : ℚ)))).sum) :=
  ⟨catDogServer_reaches, by decide!,
    C1_FindAllDocuments_exact catDogServer_reaches lnSixDecimals ExecutionPolicy.seq
      "cat dog -mat".toList ⟨["cat".toList, "dog".toList], ["mat".toList]⟩ (fun _ _ _ => true)
      (by decide!)⟩

theorem ServerInv.entry_of_token {s : SearchServer} {corpus : Int → Option (List Word)}
    (hinv : ServerInv s corpus) {d : Int} {words : List Word} (hd : corpus d = some words)
    {w : Word} (hw : w ∈ words) :
    (indexEntry s.word_to_document_freqs_ w d).isSome = true := by
  have hfr := hinv.freqs d
  rw [hd] at hfr
  cases hf : OrdMap.find d s.documents_ with
  | none => simp [hf] at hfr
  | some data =>
    simp only [hf, Option.map_some', Option.some.injEq] at hfr
    rw [hinv.entry_eq hf, hfr, find_wordFreqs, if_pos hw]
    rfl

theorem FindTopDocuments_subset {ln : ℚ → ℚ} {s : SearchServer} {policy : ExecutionPolicy}
    {raw_query : List Char} {document_predicate : DocumentPredicate} {docs : List Document}
    (h : s.FindTopDocuments ln policy raw_query document_predicate = .ok docs) :
    ∃ query matched, s.ParseQuery raw_query = .ok query ∧
      s.FindAllDocuments ln policy query document_predicate = .ok matched ∧
      ∀ doc ∈ docs, doc ∈ matched := by
  obtain ⟨query, matched, hq, hm, hdocs⟩ := FindTopDocuments_ok h
  refine ⟨query, matched, hq, hm, ?_⟩
  intro doc hdoc
  rw [hdocs] at hdoc
  exact (stdSort_perm compareDocuments matched).mem_iff.mp (List.mem_of_mem_take hdoc)

theorem FindAllDocuments_mem {s : SearchServer} {corpus : Int → Option (List Word)}
    (hinv : ServerInv s corpus) {ln : ℚ → ℚ} {policy : ExecutionPolicy} {query : Query}
    {document_predicate : DocumentPredicate} {matched : List Document}
    (hm : s.FindAllDocuments ln policy query document_predicate = .ok matched)
    {doc : Document} (hdoc : doc ∈ matched) :
    (s.documents_.find doc.id).isSome = true ∧
      ∀ w ∈ query.minus_words, indexEntry s.word_to_document_freqs_ w doc.id = none := by
  obtain ⟨entries, _, hok, hmem⟩ := FindAllDocuments_spec hinv ln policy query document_predicate
  rw [hok, Except.ok.injEq] at hm
  rw [← hm] at hdoc
  obtain ⟨e, he, hdoce⟩ := List.mem_map.mp hdoc
  obtain ⟨d, rel⟩ := e
  obtain ⟨hacc, hminus, _⟩ := (hmem d rel).mp he
  obtain ⟨data, hdata, _⟩ := (accepts_eq_true_iff s document_predicate d).mp hacc
  subst hdoce
  refine ⟨by simp [hdata], ?_⟩
  intro w hw
  rw [List.any_eq_false] at hminus
  have := hminus w hw
  cases hf : indexEntry s.word_to_document_freqs_ w d with
  | none => rfl
  | some f => simp [hf] at this

theorem FindTopDocuments_returns {s : SearchServer} {corpus : Int → Option (List Word)}
    (hinv : ServerInv s corpus) (ln : ℚ → ℚ) (policy : ExecutionPolicy) {raw_query : List Char}
    {query : Query} (document_predicate : DocumentPredicate)
    (hq : s.ParseQuery raw_query = .ok query) :
    ∃ docs, s.FindTopDocuments ln policy raw_query document_predicate = .ok docs := by
  obtain ⟨entries, _, hok, _⟩ := FindAllDocuments_spec hinv ln policy query document_predicate
  unfold SearchServer.FindTopDocuments
  simp only [hq, hok]
  exact ⟨_, rfl⟩

/-- C4: in every reachable state, for a query that parses and every predicate,
`FindTopDocuments` returns a result, and a document whose tokens include a
minus-word of the query has no entry in it. -/
theorem C4_minus_word_excludes {stop_words : List Word} {s : SearchServer}
    {corpus : Int → Option (List Word)} (hr : Reaches stop_words s corpus) (ln : ℚ → ℚ)
    (policy : ExecutionPolicy) (raw_query : List Char) (document_predicate : DocumentPredicate)
    (query : Query) (hq : s.ParseQuery raw_query = .ok query)
    (w : Word) (hw : w ∈ query.minus_words) (d : Int) (words : List Word)
    (hd : corpus d = some words) (hwd : w ∈ words) :
    ∃ docs, s.FindTopDocuments ln policy raw_query document_predicate = .ok docs ∧
      d ∉ docs.map (fun doc => doc.id) := by
  obtain ⟨docs, h⟩ := FindTopDocuments_returns hr.inv ln policy document_predicate hq
  refine ⟨docs, h, ?_⟩
  intro hmem
  obtain ⟨doc, hdoc, hid⟩ := List.mem_map.mp hmem
  obtain ⟨query', matched, hq', hm, hsub⟩ := FindTopDocuments_subset h
  rw [hq, Except.ok.injEq] at hq'
  subst hq'
  have hnone := (FindAllDocuments_mem hr.inv hm (hsub doc hdoc)).2 w hw
  have hsome := hr.inv.entry_of_token hd hwd
  rw [← hid, hnone] at hsome
  exact Bool.noConfusion hsome

/-- C4 at a concrete state: document 0 of the example holds `mat`. -/
theorem C4_minus_word_excludes_witness :
    Reaches ["a".toList, "the".toList] catDogServer catDogCorpus ∧
    catDogServer.ParseQuery "cat dog -mat".toList =
      .ok ⟨["cat".toList, "dog".toList], ["mat".toList]⟩ ∧
    ∃ docs, catDogServer.FindTopDocuments lnSixDecimals ExecutionPolicy.seq
        "cat dog -mat".toList (fun _ _ _ => true) = .ok docs ∧
      (0 : Int) ∉ docs.map (fun doc => doc.id) :=
  ⟨catDogServer_reaches, by decide!,
    C4_minus_word_excludes catDogServer_reaches lnSixDecimals ExecutionPolicy.seq
      "cat dog -mat".toList (fun _ _ _ => true) ⟨["cat".toList, "dog".toList], ["mat".toList]⟩
      (by decide!) "mat".toList (by simp) 0
      ["cat".toList, "sat".toList, "on".toList, "mat".toList] (by simp [catDogCorpus])
      (by simp)⟩

/-- C7: after a `RemoveDocument` of a present document in a reachable state,
`GetWordFrequencies` of that id is the empty map, and for every query that
parses and every predicate `FindTopDocuments` returns a result, none of whose
entries has that id. -/
theorem C7_removed_document_gone {stop_words : List Word} {s s' : SearchServer}
    {corpus : Int → Option (List Word)} (hr : Reaches stop_words s corpus) (document_id : Int)
    (hpresent : (s.documents_.find document_id).isSome = true)
    (hrem : s.RemoveDocument document_id = some s') :
    s'.GetWordFrequencies document_id = [] ∧
      ∀ (ln : ℚ → ℚ) (policy : ExecutionPolicy) (raw_query : List Char)
        (document_predicate : DocumentPredicate),
        ((∃ query, s'.ParseQuery raw_query = .ok query) →
          ∃ docs, s'.FindTopDocuments ln policy raw_query document_predicate = .ok docs) ∧
        ∀ docs, s'.FindTopDocuments ln policy raw_query document_predicate = .ok docs →
          document_id ∉ docs.map (fun doc => doc.id) := by
  have hr' := Reaches.remove document_id hr hpresent hrem
  have hinv' := hr'.inv
  have hgone : s'.documents_.find document_id = none := by
    have h := hinv'.present_iff document_id
    simp only [Function.update_same, Option.isSome_none] at h
    cases hf : OrdMap.find document_id s'.documents_ with
    | none => rfl
    | some data => simp [hf] at h
  refine ⟨by simp [SearchServer.GetWordFrequencies, hgone], ?_⟩
  intro ln policy raw_query document_predicate
  refine ⟨fun ⟨query, hq⟩ => FindTopDocuments_returns hinv' ln policy document_predicate hq, ?_⟩
  intro docs h hmem
  obtain ⟨doc, hdoc, hid⟩ := List.mem_map.mp hmem
  obtain ⟨query, matched, _, hm, hsub⟩ := FindTopDocuments_subset h
  have hp := (FindAllDocuments_mem hinv' hm (hsub doc hdoc)).1
  rw [hid, hgone] at hp
  exact Bool.noConfusion hp

/-- C7 at a concrete state: document 1 of the example is removed. -/
theorem C7_removed_document_gone_witness :
    Reaches ["a".toList, "the".toList] catDogServer catDogCorpus ∧
    (catDogServer.documents_.find 1).isSome = true ∧
    catDogServer.RemoveDocument 1 = some catServer ∧
    catServer.GetWordFrequencies 1 = [] ∧
      ∀ (ln : ℚ → ℚ) (policy : ExecutionPolicy) (raw_query : List Char)
        (document_predicate : DocumentPredicate),
        ((∃ query, catServer.ParseQuery raw_query = .ok query) →
          ∃ docs, catServer.FindTopDocuments ln policy raw_query document_predicate = .ok docs) ∧
        ∀ docs, catServer.FindTopDocuments ln policy raw_query document_predicate = .ok docs →
          (1 : Int) ∉ docs.map (fun doc => doc.id) :=
  ⟨catDogServer_reaches, by decide!, by decide!,
    C7_removed_document_gone catDogServer_reaches 1 (by decide!) (by decide!)⟩

/-! ## Claims about ratings and document counts -/

theorem toInt32_of_isInt32 {x : Int} (h : IsInt32 x) : toInt32 x = x := by
  unfold IsInt32 at h
  unfold toInt32
  norm_num at h ⊢
  omega

theorem toInt32_add_toInt32 (a b : Int) : toInt32 (toInt32 a + b) = toInt32 (a + b) := by
  unfold toInt32
  norm_num
  omega

theorem foldl_toInt32_add (ratings : List Int) (a : Int) :
    ratings.foldl (fun sum rating => toInt32 (sum + rating)) (toInt32 a) =
      toInt32 (a + ratings.sum) := by
  induction ratings generalizing a with
  | nil => simp
  | cons r rest ih =>
    simp only [List.foldl_cons, List.sum_cons]
    rw [toInt32_add_toInt32, ih, add_assoc]

theorem OrdMap.find_upsert_of_find_none {K V : Type} [LinearOrder K] {k : K} {fresh : V}
    {upd : V → V} {m : OrdMap K V} (h : OrdMap.find k m = none) :
    OrdMap.find k (OrdMap.upsert k fresh upd m) = some fresh := by
  induction m with
  | nil => simp [OrdMap.upsert, OrdMap.find]
  | cons e rest ih =>
    obtain ⟨k', v⟩ := e
    by_cases hk : k = k'
    · simp [OrdMap.find, hk] at h
    · simp only [OrdMap.find, if_neg hk] at h
      by_cases hlt : k < k'
      · simp [OrdMap.upsert, OrdMap.find, hk, hlt]
      · simp only [OrdMap.upsert, if_neg hk, if_neg hlt, OrdMap.find]
        exact ih h

/-- C15: for a list of ratings whose sum is an `int` and whose number of
elements is an `int`, `ComputeAverageRating` is 0 on the empty list and otherwise the sum
divided by the count, rounded toward zero (so `[-1, -2]` gives -1); and a
successful `AddDocument` stores that value as the rating of the document. -/
theorem C15_average_rating (ratings : List Int)
    (hsum : IsInt32 ratings.sum) (hlen : (ratings.length : Int) < 2 ^ 31) :
    ComputeAverageRating ratings =
        (if ratings = [] then 0 else Int.tdiv ratings.sum (ratings.length : Int)) ∧
      ComputeAverageRating [-1, -2] = -1 ∧
      ∀ (s s' : SearchServer) (document_id : Int) (document : List Char)
        (status : DocumentStatus),
        s.AddDocument document_id document status ratings = (.ok (), s') →
        ∃ data, s'.documents_.find document_id = some data ∧
          data.rating = ComputeAverageRating ratings := by
  refine ⟨?_, by decide, ?_⟩
  · unfold ComputeAverageRating
    cases ratings with
    | nil => simp
    | cons r rest =>
      have h0 : (0 : Int) = toInt32 0 := by decide
      have hl : IsInt32 (((r :: rest).length : Nat) : Int) := by
        refine ⟨?_, hlen⟩
        have : (0 : Int) ≤ ((r :: rest).length : Nat) := Int.natCast_nonneg _
        have h2 : (-2 : Int) ^ 31 ≤ 0 := by norm_num
        linarith
      simp only [List.isEmpty_cons, Bool.false_eq_true, if_false]
      rw [if_neg (List.cons_ne_nil r rest)]
      conv_lhs => rw [h0, foldl_toInt32_add, zero_add, toInt32_of_isInt32 hsum,
        toInt32_of_isInt32 hl]
  · intro s s' document_id document status h
    obtain ⟨_, hnone, words, _, hs'⟩ := AddDocument_ok h
    refine ⟨⟨ComputeAverageRating ratings, status, wordFreqs (1 / (words.length : ℚ)) words⟩,
      ?_, rfl⟩
    rw [hs']
    exact OrdMap.find_upsert_of_find_none hnone

/-- C15 at a concrete list: the ratings 5 and 4 of the specification's example. -/
theorem C15_average_rating_witness :
    IsInt32 ([5, 4] : List Int).sum ∧
      ((([5, 4] : List Int).length : Nat) : Int) < 2 ^ 31 ∧
      ComputeAverageRating [5, 4] =
        (if ([5, 4] : List Int) = [] then 0
          else Int.tdiv ([5, 4] : List Int).sum (([5, 4] : List Int).length : Int)) ∧
      ComputeAverageRating [-1, -2] = -1 ∧
      ∀ (s s' : SearchServer) (document_id : Int) (document : List Char)
        (status : DocumentStatus),
        s.AddDocument document_id document status [5, 4] = (.ok (), s') →
        ∃ data, s'.documents_.find document_id = some data ∧
          data.rating = ComputeAverageRating [5, 4] :=
  ⟨by simp [IsInt32], by norm_num,
    C15_average_rating [5, 4] (by simp [IsInt32]) (by norm_num)⟩

theorem OrdMap.length_upsert_of_find_none {K V : Type} [LinearOrder K] {k : K} {fresh : V}
    {upd : V → V} {m : OrdMap K V} (h : OrdMap.find k m = none) :
    (OrdMap.upsert k fresh upd m).length = m.length + 1 := by
  induction m with
  | nil => simp [OrdMap.upsert]
  | cons e rest ih =>
    obtain ⟨k', v⟩ := e
    by_cases hk : k = k'
    · simp [OrdMap.find, hk] at h
    · simp only [OrdMap.find, if_neg hk] at h
      by_cases hlt : k < k'
      · simp [OrdMap.upsert, hk, hlt]
      · simp [OrdMap.upsert, hk, hlt, ih h]

theorem OrdMap.erase_upsert_of_find_none {K V : Type} [LinearOrder K] {k : K} {fresh : V}
    {upd : V → V} {m : OrdMap K V} (h : OrdMap.find k m = none) :
    OrdMap.erase k (OrdMap.upsert k fresh upd m) = m := by
  induction m with
  | nil => simp [OrdMap.upsert, OrdMap.erase]
  | cons e rest ih =>
    obtain ⟨k', v⟩ := e
    by_cases hk : k = k'
    · simp [OrdMap.find, hk] at h
    · simp only [OrdMap.find, if_neg hk] at h
      by_cases hlt : k < k'
      · simp [OrdMap.upsert, OrdMap.erase, hk, hlt]
      · simp [OrdMap.upsert, OrdMap.erase, hk, hlt, ih h]

theorem OrdMap.length_erase_of_find_some {K V : Type} [LinearOrder K] {k : K}
    {m : OrdMap K V} (h : (OrdMap.find k m).isSome = true) :
    (OrdMap.erase k m).length + 1 = m.length := by
  induction m with
  | nil => simp [OrdMap.find] at h
  | cons e rest ih =>
    obtain ⟨k', v⟩ := e
    by_cases hk : k = k'
    · simp [OrdMap.erase, hk]
    · simp only [OrdMap.find, if_neg hk] at h
      simp [OrdMap.erase, hk, ih h]

theorem RemoveDocument_documents {s s' : SearchServer} {document_id : Int}
    (h : s.RemoveDocument document_id = some s') :
    s'.documents_ = (s.documents_.upsert document_id default id).erase document_id := by
  unfold SearchServer.RemoveDocument at h
  simp only at h
  cases hget : s.document_ids_[lowerBound s.document_ids_ document_id]? with
  | none => simp [hget] at h
  | some found =>
    simp only [hget, Option.some.injEq] at h
    rw [← h]

theorem RemoveDocument_count {s s' : SearchServer} {document_id : Int}
    (hwf : s.documents_.WF) (h : s.RemoveDocument document_id = some s') :
    s'.documents_.WF ∧
      (s'.GetDocumentCount : Int) =
        s.GetDocumentCount - (if (s.documents_.find document_id).isSome then 1 else 0) := by
  have hd := RemoveDocument_documents h
  refine ⟨?_, ?_⟩
  · rw [hd]
    exact OrdMap.wf_erase _ (OrdMap.wf_upsert _ _ _ hwf)
  · unfold SearchServer.GetDocumentCount
    rw [hd]
    cases hf : OrdMap.find document_id s.documents_ with
    | none =>
      rw [OrdMap.erase_upsert_of_find_none hf]
      simp
    | some data =>
      rw [OrdMap.upsert_id_of_find hwf hf]
      have := OrdMap.length_erase_of_find_some (k := document_id) (m := s.documents_)
        (by rw [hf]; rfl)
      simp only [Option.isSome_some, if_true]
      omega

theorem AddDocument_ok_or_unchanged (s : SearchServer) (document_id : Int)
    (document : List Char) (status : DocumentStatus) (ratings : List Int) :
    (s.AddDocument document_id document status ratings).1 = .ok () ∨
      s.AddDocument document_id document status ratings =
        (.error Exception.invalid_argument, s) := by
  unfold SearchServer.AddDocument
  by_cases hc : document_id < 0 ∨ (s.documents_.find document_id).isSome = true
  · rw [if_pos hc]
    exact Or.inr rfl
  · rw [if_neg hc, SplitIntoWordsNoStop_eq]
    by_cases hv : (SplitIntoWords document).all IsValidWord = true
    · rw [if_pos hv]
      exact Or.inl rfl
    · rw [if_neg hv]
      exact Or.inr rfl

theorem AddDocument_count (s : SearchServer) (document_id : Int) (document : List Char)
    (status : DocumentStatus) (ratings : List Int) (hwf : s.documents_.WF) :
    (s.AddDocument document_id document status ratings).2.documents_.WF ∧
      ((s.AddDocument document_id document status ratings).2.GetDocumentCount : Int) =
        s.GetDocumentCount +
          (match (s.AddDocument document_id document status ratings).1 with
            | .ok _ => 1
            | .error _ => 0) := by
  cases h1 : (s.AddDocument document_id document status ratings).1 with
  | error e =>
    have h := (AddDocument_ok_or_unchanged s document_id document status ratings)
    rcases h with h | h
    · rw [h1] at h
      exact Except.noConfusion h
    · rw [h]
      exact ⟨hwf, by simp⟩
  | ok u =>
    have hpair : s.AddDocument document_id document status ratings =
        (.ok (), (s.AddDocument document_id document status ratings).2) := by
      rw [Prod.ext_iff]
      exact ⟨h1, rfl⟩
    obtain ⟨_, hnone, words, _, hs'⟩ := AddDocument_ok hpair
    rw [hs']
    refine ⟨OrdMap.wf_upsert _ _ _ hwf, ?_⟩
    simp only [SearchServer.GetDocumentCount, OrdMap.length_upsert_of_find_none hnone]
    push_cast
    ring

theorem runCalls_count (calls : List Call) (s0 s : SearchServer) (t0 t : Tally)
    (hwf : s0.documents_.WF) (h : runCalls calls s0 t0 = some (s, t)) :
    (s.GetDocumentCount : Int) - s0.GetDocumentCount =
      ((t.successful_adds : Int) - t0.successful_adds) -
        ((t.removals_of_present : Int) - t0.removals_of_present) := by
  induction calls generalizing s0 t0 with
  | nil =>
    simp only [runCalls, Option.some.injEq, Prod.mk.injEq] at h
    rw [h.1, h.2]
    ring
  | cons call rest ih =>
    cases call with
    | AddDocument document_id document status ratings =>
      obtain ⟨hwf', hcount⟩ := AddDocument_count s0 document_id document status ratings hwf
      simp only [runCalls] at h
      cases hadd : s0.AddDocument document_id document status ratings with
      | mk outcome s1 =>
        rw [hadd] at h hwf' hcount
        cases outcome with
        | error e =>
          simp only at h hcount
          have := ih s1 t0 hwf' h
          rw [hcount] at this
          omega
        | ok u =>
          simp only at h hcount
          have := ih s1 _ hwf' h
          simp only at this
          rw [hcount] at this
          push_cast at this
          omega
    | RemoveDocument document_id =>
      simp only [runCalls] at h
      cases hrem : s0.RemoveDocument document_id with
      | none => simp [hrem] at h
      | some s1 =>
        rw [hrem] at h
        simp only at h
        obtain ⟨hwf', hcount⟩ := RemoveDocument_count hwf hrem
        have := ih s1 _ hwf' h
        cases hf : (OrdMap.find document_id s0.documents_).isSome with
        | true =>
          simp only [hf, if_true] at this hcount
          rw [hcount] at this
          push_cast at this
          omega
        | false =>
          simp only [hf, Bool.false_eq_true, if_false] at this hcount
          rw [hcount] at this
          omega

/-- After a sequence of `AddDocument` and `RemoveDocument` calls run on an empty
server in which every `RemoveDocument` returns, `GetDocumentCount` is the number
of successful `AddDocument` calls minus the number of `RemoveDocument` calls
made on a present id; and an `AddDocument` that fails leaves the count as it
was. -/
theorem GetDocumentCount_of_runCalls (stop_words : List Word) (calls : List Call) (s : SearchServer)
    (tally : Tally)
    (h : runCalls calls (SearchServer.empty stop_words) ⟨0, 0⟩ = some (s, tally)) :
    s.GetDocumentCount = (tally.successful_adds : Int) - (tally.removals_of_present : Int) ∧
      ∀ (s0 : SearchServer) (document_id : Int) (document : List Char)
        (status : DocumentStatus) (ratings : List Int),
        (s0.AddDocument document_id document status ratings).1 = .ok () ∨
          (s0.AddDocument document_id document status ratings).2.GetDocumentCount =
            s0.GetDocumentCount := by
  refine ⟨?_, ?_⟩
  · have := runCalls_count calls (SearchServer.empty stop_words) s ⟨0, 0⟩ tally OrdMap.wf_nil h
    simp only [SearchServer.empty, SearchServer.GetDocumentCount, List.length_nil] at this ⊢
    push_cast at this
    linarith
  · intro s0 document_id document status ratings
    rcases AddDocument_ok_or_unchanged s0 document_id document status ratings with h1 | h1
    · exact Or.inl h1
    · right
      rw [h1]

/-- C16, failing input: on an empty server `lower_bound` returns `end()` for
every id and `RemoveDocument` dereferences it, so the call returns no state and
the sequence that consists of `RemoveDocument(0)` has no document count; the
same happens after `AddDocument(1, ...)` for the absent id 2. -/
theorem C16_remove_absent_id_meets_end :
    (∀ (stop_words : List Word) (document_id : Int),
        (SearchServer.empty stop_words).RemoveDocument document_id = none) ∧
      runCalls [Call.RemoveDocument 0] (SearchServer.empty []) ⟨0, 0⟩ = none ∧
      runCalls [Call.AddDocument 1 "a".toList DocumentStatus.ACTUAL [], Call.RemoveDocument 2]
        (SearchServer.empty []) ⟨0, 0⟩ = none := by
  refine ⟨fun stop_words document_id => rfl, by decide, by decide!⟩

/-! ## Claims about `ConcurrentMap` -/

theorem Refines.update {V : Type} {cm : ConcurrentMap V} {m : OrdMap Int V} (h : Refines cm m)
    {key : Int} (hk : IsInt32 key) (init : V) (upd : V → V) :
    Refines (cm.update key init upd) (m.upsert key (upd init) upd) := by
  obtain ⟨hcm, hm, hkeys, hl⟩ := h
  refine ⟨ConcurrentMap.update_wf hcm hk _ _, OrdMap.wf_upsert _ _ _ hm, ?_, ?_⟩
  · intro e he
    rcases OrdMap.mem_upsert he with h1 | h1
    · rw [h1]
      exact hk
    · exact hkeys e h1
  · intro k hk'
    rw [ConcurrentMap.lookup_update hcm hk hk', OrdMap.find_upsert _ _ _ _ hm, hl key hk,
      hl k hk']

theorem Refines.erase {V : Type} {cm : ConcurrentMap V} {m : OrdMap Int V} (h : Refines cm m)
    {key : Int} (hk : IsInt32 key) : Refines (cm.erase key) (m.erase key) := by
  obtain ⟨hcm, hm, hkeys, hl⟩ := h
  refine ⟨ConcurrentMap.erase_wf hcm key, OrdMap.wf_erase _ hm,
    fun e he => hkeys e (OrdMap.mem_of_mem_erase he), ?_⟩
  intro k hk'
  rw [ConcurrentMap.lookup_erase hcm hk hk', OrdMap.find_erase _ _ hm, hl k hk']

theorem Refines.create {V : Type} (n : Nat) (hn : 0 < n) :
    Refines (ConcurrentMap.create n : ConcurrentMap V) [] :=
  ⟨ConcurrentMap.create_wf n hn, OrdMap.wf_nil, fun e he => by simp at he,
    fun k _ => by rw [ConcurrentMap.lookup_create]; rfl⟩

theorem Refines.run {V : Type} (init : V) (ops : List (MapOp V)) {cm : ConcurrentMap V}
    {m : OrdMap Int V} (h : Refines cm m) (hkeys : ∀ op ∈ ops, IsInt32 op.key) :
    Refines (ConcurrentMap.run init ops cm) (OrdMap.run init ops m) ∧
      (ConcurrentMap.run init ops cm).maps_.length = cm.maps_.length := by
  induction ops generalizing cm m with
  | nil => exact ⟨h, rfl⟩
  | cons op rest ih =>
    have hk : IsInt32 op.key := hkeys op (List.mem_cons_self _ _)
    have hrest : ∀ op ∈ rest, IsInt32 op.key := fun o ho => hkeys o (List.mem_cons_of_mem _ ho)
    cases op with
    | access key upd =>
      have hk' : IsInt32 key := hk
      obtain ⟨h1, h2⟩ := ih (h.update hk' init upd) hrest
      refine ⟨h1, ?_⟩
      simp only [ConcurrentMap.run]
      rw [h2]
      simp [ConcurrentMap.update]
    | erase key =>
      have hk' : IsInt32 key := hk
      obtain ⟨h1, h2⟩ := ih (h.erase hk') hrest
      refine ⟨h1, ?_⟩
      simp only [ConcurrentMap.run]
      rw [h2]
      simp [ConcurrentMap.erase]

theorem Refines.BuildOrdinaryMap_eq {V : Type} {cm : ConcurrentMap V} {m : OrdMap Int V}
    (h : Refines cm m) : cm.BuildOrdinaryMap = m := by
  obtain ⟨hcm, hm, hkeys, hl⟩ := h
  apply OrdMap.ext (ConcurrentMap.BuildOrdinaryMap_wf cm) hm
  intro k
  by_cases hk : IsInt32 k
  · rw [ConcurrentMap.BuildOrdinaryMap_find hcm k hk, hl k hk]
  · have h1 : OrdMap.find k cm.BuildOrdinaryMap = none := by
      cases hf : OrdMap.find k cm.BuildOrdinaryMap with
      | none => rfl
      | some v =>
        exact absurd (ConcurrentMap.BuildOrdinaryMap_isInt32 cm k v
          (OrdMap.mem_of_find_eq_some hf)) hk
    have h2 : OrdMap.find k m = none := by
      cases hf : OrdMap.find k m with
      | none => rfl
      | some v => exact absurd (hkeys _ (OrdMap.mem_of_find_eq_some hf)) hk
    rw [h1, h2]

/-- C18: for a bucket count `N >= 1` and operations (accesses followed by an
update, erasures) on `int` keys run one after the other, every entry sits in the
shard its key converted to `uint64_t` selects modulo `N`, and `BuildOrdinaryMap`
returns the map an ordinary `std::map` holds after the same operations. -/
theorem C18_concurrent_map_refines {V : Type} (N : Nat) (hN : 1 ≤ N) (init : V)
    (ops : List (MapOp V)) (hkeys : ∀ op ∈ ops, IsInt32 op.key) :
    (∀ i bucket, (ConcurrentMap.run init ops (ConcurrentMap.create N)).maps_[i]? = some bucket →
      ∀ e ∈ bucket, ∃ key, IsInt32 key ∧ e.1 = toUInt64 key ∧ i = toUInt64 key % N) ∧
    (ConcurrentMap.run init ops (ConcurrentMap.create N)).BuildOrdinaryMap =
      OrdMap.run init ops [] := by
  obtain ⟨href, hlen⟩ := Refines.run init ops (Refines.create (V := V) N hN) hkeys
  refine ⟨?_, href.BuildOrdinaryMap_eq⟩
  intro i bucket hb e he
  obtain ⟨hmod, key, hkey, heq⟩ := (href.1.2 i bucket hb).2 e he
  refine ⟨key, hkey, heq, ?_⟩
  rw [hlen] at hmod
  simp only [ConcurrentMap.create, List.length_replicate] at hmod
  rw [← heq, hmod]

/-- C18 at a concrete run: three buckets, rational values starting from 0. -/
theorem C18_concurrent_map_refines_witness :
    1 ≤ 3 ∧
    (∀ op ∈ [MapOp.access 5 (fun v : ℚ => v + 1), MapOp.access (-3) (fun v => v + 2),
        MapOp.access 5 (fun v => v + 1), MapOp.erase 7, MapOp.access 8 (fun v => v + 1),
        MapOp.erase (-3)], IsInt32 op.key) ∧
    (∀ i bucket,
      (ConcurrentMap.run (0 : ℚ)
        [MapOp.access 5 (fun v : ℚ => v + 1), MapOp.access (-3) (fun v => v + 2),
          MapOp.access 5 (fun v => v + 1), MapOp.erase 7, MapOp.access 8 (fun v => v + 1),
          MapOp.erase (-3)] (ConcurrentMap.create 3)).maps_[i]? = some bucket →
      ∀ e ∈ bucket, ∃ key, IsInt32 key ∧ e.1 = toUInt64 key ∧ i = toUInt64 key % 3) ∧
    (ConcurrentMap.run (0 : ℚ)
        [MapOp.access 5 (fun v : ℚ => v + 1), MapOp.access (-3) (fun v => v + 2),
          MapOp.access 5 (fun v => v + 1), MapOp.erase 7, MapOp.access 8 (fun v => v + 1),
          MapOp.erase (-3)] (ConcurrentMap.create 3)).BuildOrdinaryMap =
      OrdMap.run (0 : ℚ)
        [MapOp.access 5 (fun v : ℚ => v + 1), MapOp.access (-3) (fun v => v + 2),
          MapOp.access 5 (fun v => v + 1), MapOp.erase 7, MapOp.access 8 (fun v => v + 1),
          MapOp.erase (-3)] [] :=
  ⟨by decide, by simp [MapOp.key, IsInt32],
    C18_concurrent_map_refines 3 (by decide) (0 : ℚ) _ (by simp [MapOp.key, IsInt32])⟩

/-! ## Claims about batch processing -/

theorem ProcessQueries_of_forall₂ (ln : ℚ → ℚ) (s : SearchServer) (queries : List (List Char))
    (results : List (List Document))
    (h : List.Forall₂
      (fun query result =>
        s.FindTopDocuments ln ExecutionPolicy.seq query
          (fun _ document_status _ => decide (document_status = DocumentStatus.ACTUAL)) =
          .ok result) queries results) :
    ProcessQueries ln s queries = .ok results := by
  induction h with
  | nil => rfl
  | cons hhead _ ih => simp only [ProcessQueries, hhead, ih]

theorem foldl_lengths (documents : List (List Document)) (n : Nat) :
    documents.foldl (fun sum docs => sum + docs.length) n =
      n + (documents.map List.length).sum := by
  induction documents generalizing n with
  | nil => simp
  | cons d rest ih =>
    simp only [List.foldl_cons, ih, List.map_cons, List.sum_cons]
    omega

theorem foldl_moveBlock (documents : List (List Document)) (filled : List Document)
    (filler : Document) :
    documents.foldl moveBlock
        (filled ++ List.replicate (documents.map List.length).sum filler, filled.length) =
      (filled ++ documents.flatten, filled.length + (documents.map List.length).sum) := by
  induction documents generalizing filled with
  | nil => simp
  | cons d rest ih =>
    have hstep : moveBlock
        (filled ++ List.replicate ((d :: rest).map List.length).sum filler, filled.length) d =
        ((filled ++ d) ++ List.replicate (rest.map List.length).sum filler,
          (filled ++ d).length) := by
      simp only [moveBlock, List.map_cons, List.sum_cons, List.length_append]
      congr 1
      rw [List.take_left', List.drop_append, List.replicate_add, List.drop_left']
      all_goals simp
    simp only [List.foldl_cons, hstep, ih]
    simp [Nat.add_assoc]

theorem forall₂_FindTopDocuments {s : SearchServer} {corpus : Int → Option (List Word)}
    (hinv : ServerInv s corpus) (ln : ℚ → ℚ) (document_predicate : DocumentPredicate)
    (queries : List (List Char))
    (hvalid : ∀ raw_query ∈ queries, ∃ query, s.ParseQuery raw_query = .ok query) :
    ∃ results, List.Forall₂
      (fun query result =>
        s.FindTopDocuments ln ExecutionPolicy.seq query document_predicate = .ok result)
      queries results := by
  induction queries with
  | nil => exact ⟨[], List.Forall₂.nil⟩
  | cons q rest ih =>
    obtain ⟨query, hq⟩ := hvalid q (List.mem_cons_self _ _)
    obtain ⟨docs, hdocs⟩ :=
      FindTopDocuments_returns hinv ln ExecutionPolicy.seq document_predicate hq
    obtain ⟨results, hres⟩ := ih (fun r hr => hvalid r (List.mem_cons_of_mem _ hr))
    exact ⟨docs :: results, List.Forall₂.cons hdocs hres⟩

/-- C14: when `FindTopDocuments` returns `r_i` for every query `q_i` of a list,
`ProcessQueries` returns `[r_0, ..., r_n-1]` and `ProcessQueriesJoined` returns
their concatenation in that order, whose length is the sum of their lengths; in
a reachable state `FindTopDocuments` returns for every query that parses. -/
theorem C14_joined_is_concatenation (ln : ℚ → ℚ) (s : SearchServer)
    (queries : List (List Char)) :
    (∀ results : List (List Document),
      List.Forall₂
        (fun query result =>
          s.FindTopDocuments ln ExecutionPolicy.seq query
            (fun _ document_status _ => decide (document_status = DocumentStatus.ACTUAL)) =
            .ok result) queries results →
      ProcessQueries ln s queries = .ok results ∧
        ProcessQueriesJoined ln s queries = .ok results.flatten ∧
        results.flatten.length = (results.map List.length).sum) ∧
    (∀ (stop_words : List Word) (corpus : Int → Option (List Word)),
      Reaches stop_words s corpus →
      (∀ raw_query ∈ queries, ∃ query, s.ParseQuery raw_query = .ok query) →
      ∃ results : List (List Document),
        List.Forall₂
          (fun query result =>
            s.FindTopDocuments ln ExecutionPolicy.seq query
              (fun _ document_status _ => decide (document_status = DocumentStatus.ACTUAL)) =
              .ok result) queries results) := by
  constructor
  · intro results h
    have hp := ProcessQueries_of_forall₂ ln s queries results h
    refine ⟨hp, ?_, List.length_flatten _⟩
    unfold ProcessQueriesJoined
    simp only [hp]
    have := foldl_moveBlock results [] default
    simp only [List.nil_append, List.length_nil, Nat.zero_add] at this
    rw [foldl_lengths, Nat.zero_add, this]
  · intro stop_words corpus hreach hvalid
    exact forall₂_FindTopDocuments hreach.inv ln _ queries hvalid

/-- C14 on the two-document example, for the queries "cat", "sat dog" and "x". -/
theorem C14_joined_is_concatenation_witness :
    ProcessQueries lnSixDecimals catDogServer
        ["cat".toList, "sat dog".toList, "x".toList] =
        .ok [[⟨0, 693147 / 4000000, 4⟩], [⟨1, 693147 / 2000000, 3⟩, ⟨0, 0, 4⟩], []] ∧
      ProcessQueriesJoined lnSixDecimals catDogServer
        ["cat".toList, "sat dog".toList, "x".toList] =
        .ok [⟨0, 693147 / 4000000, 4⟩, ⟨1, 693147 / 2000000, 3⟩, ⟨0, 0, 4⟩] ∧
      (3 : Nat) = 1 + 2 + 0 ∧
      ∃ results : List (List Document),
        List.Forall₂
          (fun query result =>
            catDogServer.FindTopDocuments lnSixDecimals ExecutionPolicy.seq query
              (fun _ document_status _ => decide (document_status = DocumentStatus.ACTUAL)) =
              .ok result) ["cat".toList, "sat dog".toList, "x".toList] results :=
  have h := C14_joined_is_concatenation lnSixDecimals catDogServer
    ["cat".toList, "sat dog".toList, "x".toList]
  have h1 := h.1 [[⟨0, 693147 / 4000000, 4⟩], [⟨1, 693147 / 2000000, 3⟩, ⟨0, 0, 4⟩], []]
    (List.Forall₂.cons (by decide!)
      (List.Forall₂.cons (by decide!) (List.Forall₂.cons (by decide!) List.Forall₂.nil)))
  ⟨h1.1, h1.2.1, by decide,
    h.2 ["a".toList, "the".toList] catDogCorpus catDogServer_reaches (by
      intro raw_query hmem
      simp only [List.mem_cons, List.mem_singleton, List.not_mem_nil, or_false] at hmem
      rcases hmem with rfl | rfl | rfl
      · exact ⟨⟨["cat".toList], []⟩, by decide!⟩
      · exact ⟨⟨["dog".toList, "sat".toList], []⟩, by decide!⟩
      · exact ⟨⟨["x".toList], []⟩, by decide!⟩)⟩

/-! ## Facts about the tokenizer and the loop of `ParseQueryNoSort` -/

theorem findSpace_eq_none_iff (text : List Char) : findSpace text = none ↔ ' ' ∉ text := by
  induction text with
  | nil => simp [findSpace]
  | cons c cs ih =>
    by_cases hc : c = ' '
    · simp [findSpace, hc]
    · have hc' : ¬ ' ' = c := fun h => hc h.symm
      simp [findSpace, hc, hc', ih]

theorem findSpace_eq_some {text : List Char} {i : Nat} (h : findSpace text = some i) :
    i < text.length ∧ text = text.take i ++ ' ' :: text.drop (i + 1) ∧ ' ' ∉ text.take i := by
  induction text generalizing i with
  | nil => simp [findSpace] at h
  | cons c cs ih =>
    by_cases hc : c = ' '
    · simp only [findSpace, if_pos hc, Option.some.injEq] at h
      subst h
      simp [hc]
    · simp only [findSpace, if_neg hc] at h
      cases hf : findSpace cs with
      | none => simp [hf] at h
      | some j =>
        simp only [hf, Option.map_some', Option.some.injEq] at h
        subst h
        obtain ⟨h1, h2, h3⟩ := ih hf
        have hc' : ¬ ' ' = c := fun h => hc h.symm
        refine ⟨by simpa using h1, ?_, ?_⟩
        · simp only [List.take_succ_cons, List.drop_succ_cons, List.cons_append, List.cons.injEq,
            true_and]
          exact h2
        · simp only [List.take_succ_cons, List.mem_cons, not_or]
          exact ⟨hc', h3⟩

theorem SplitIntoWordsLoop_acc (fuel : Nat) (text : List Char) (words : List Word) :
    SplitIntoWordsLoop fuel text words = words ++ SplitIntoWordsLoop fuel text [] := by
  induction fuel generalizing text words with
  | zero => simp [SplitIntoWordsLoop]
  | succ fuel ih =>
    simp only [SplitIntoWordsLoop]
    cases findSpace text with
    | none => simp
    | some i =>
      simp only [List.nil_append]
      rw [ih _ (words ++ [text.take i]), ih _ [text.take i]]
      simp

theorem SplitIntoWordsLoop_none {fuel : Nat} {text : List Char} (h : findSpace text = none) :
    SplitIntoWordsLoop (fuel + 1) text [] = [text] := by
  simp [SplitIntoWordsLoop, h]

theorem SplitIntoWordsLoop_some {fuel : Nat} {text : List Char} {i : Nat}
    (h : findSpace text = some i) :
    SplitIntoWordsLoop (fuel + 1) text [] =
      text.take i :: SplitIntoWordsLoop fuel (text.drop (i + 1)) [] := by
  simp only [SplitIntoWordsLoop, h, List.nil_append]
  rw [SplitIntoWordsLoop_acc]
  rfl

theorem SplitIntoWordsLoop_ne_nil (fuel : Nat) (text : List Char) :
    SplitIntoWordsLoop (fuel + 1) text [] ≠ [] := by
  cases h : findSpace text with
  | none => simp [SplitIntoWordsLoop_none h]
  | some i => simp [SplitIntoWordsLoop_some h]

theorem intercalate_cons_of_ne_nil (sep t : List Char) {rest : List Word} (h : rest ≠ []) :
    sep.intercalate (t :: rest) = t ++ sep ++ sep.intercalate rest := by
  cases rest with
  | nil => exact absurd rfl h
  | cons r rs => simp [List.intercalate, List.intersperse]

theorem SplitIntoWordsLoop_spec (fuel : Nat) (text : List Char) (h : text.length < fuel) :
    (∀ t ∈ SplitIntoWordsLoop fuel text [], ' ' ∉ t) ∧
      [' '].intercalate (SplitIntoWordsLoop fuel text []) = text ∧
      (SplitIntoWordsLoop fuel text []).length = text.count ' ' + 1 := by
  induction fuel generalizing text with
  | zero => omega
  | succ fuel ih =>
    cases hf : findSpace text with
    | none =>
      rw [SplitIntoWordsLoop_none hf]
      have hno := (findSpace_eq_none_iff text).mp hf
      refine ⟨by simpa using hno, by simp [List.intercalate], ?_⟩
      simp [List.count_eq_zero_of_not_mem hno]
    | some i =>
      rw [SplitIntoWordsLoop_some hf]
      obtain ⟨hi, htext, hno⟩ := findSpace_eq_some hf
      have hlen : (text.drop (i + 1)).length < fuel := by
        simp only [List.length_drop]
        omega
      obtain ⟨h1, h2, h3⟩ := ih (text.drop (i + 1)) hlen
      have hfuel : ∃ f, fuel = f + 1 := ⟨fuel - 1, by omega⟩
      obtain ⟨f, hfe⟩ := hfuel
      have hne : SplitIntoWordsLoop fuel (text.drop (i + 1)) [] ≠ [] := by
        rw [hfe]
        exact SplitIntoWordsLoop_ne_nil f _
      refine ⟨?_, ?_, ?_⟩
      · intro t ht
        rcases List.mem_cons.mp ht with h | h
        · rw [h]
          exact hno
        · exact h1 t h
      · rw [intercalate_cons_of_ne_nil _ _ hne, h2]
        simpa using htext.symm
      · rw [List.length_cons, h3]
        conv_rhs => rw [htext]
        rw [List.count_append, List.count_cons_self, List.count_eq_zero_of_not_mem hno]
        omega

theorem IsValidWord_eq_true_iff (word : Word) :
    IsValidWord word = true ↔ ∀ c ∈ word, ¬ c.toNat < 32 := by
  cases h : IsValidWord word with
  | false =>
    obtain ⟨c, hc, hlt⟩ := (IsValidWord_eq_false_iff word).mp h
    simp only [Bool.false_eq_true, false_iff]
    exact fun hall => hall c hc hlt
  | true =>
    simp only [true_iff]
    intro c hc hlt
    have := (IsValidWord_eq_false_iff word).mpr ⟨c, hc, hlt⟩
    rw [h] at this
    exact Bool.noConfusion this

theorem ParseQueryWord_plus (s : SearchServer) (c : Char) (cs : List Char) (hc : c ≠ '-') :
    s.ParseQueryWord (c :: cs) =
      if IsValidWord (c :: cs) = true then .ok ⟨c :: cs, false, s.IsStopWord (c :: cs)⟩
      else .error Exception.invalid_argument := by
  have hc' : ¬ c = '-' := hc
  simp only [SearchServer.ParseQueryWord, List.isEmpty_cons, Bool.false_eq_true, if_false,
    List.head?_cons, Option.some.injEq, hc', decide_False, Bool.false_or]
  cases IsValidWord (c :: cs) <;> simp

theorem ParseQueryWord_minus (s : SearchServer) (cs : List Char) :
    s.ParseQueryWord ('-' :: cs) =
      if cs ≠ [] ∧ cs.head? ≠ some '-' ∧ IsValidWord cs = true then
        .ok ⟨cs, true, s.IsStopWord cs⟩
      else .error Exception.invalid_argument := by
  simp only [SearchServer.ParseQueryWord, List.isEmpty_cons, Bool.false_eq_true, if_false,
    List.head?_cons, decide_True, if_true, List.drop_succ_cons, List.drop_zero]
  cases cs with
  | nil => simp
  | cons d ds =>
    by_cases hd : d = '-'
    · simp [hd]
    · cases hv : IsValidWord (d :: ds) <;> simp [hd, hv]

theorem ParseQueryWord_error {s : SearchServer} {t : Word} {e : Exception}
    (h : s.ParseQueryWord t = .error e) : e = Exception.invalid_argument := by
  cases t with
  | nil =>
    simp only [SearchServer.ParseQueryWord, List.isEmpty_nil, if_true] at h
    exact (Except.error.inj h).symm
  | cons c cs =>
    by_cases hc : c = '-'
    · subst hc
      rw [ParseQueryWord_minus] at h
      split_ifs at h
      exact (Except.error.inj h).symm
    · rw [ParseQueryWord_plus s c cs hc] at h
      split_ifs at h
      exact (Except.error.inj h).symm

theorem IsValidQueryWord_plus (c : Char) (cs : List Char) (hc : c ≠ '-') :
    IsValidQueryWord (c :: cs) ↔ IsValidWord (c :: cs) = true := by
  unfold IsValidQueryWord
  rw [IsValidWord_eq_true_iff]
  constructor
  · exact fun h => h.2.2.2
  · intro h
    refine ⟨by simp, ?_, ?_, h⟩
    · intro heq
      simp only [List.cons.injEq] at heq
      exact hc heq.1
    · intro hp
      rw [List.cons_prefix_cons] at hp
      exact hc hp.1.symm

theorem IsValidQueryWord_minus (cs : List Char) :
    IsValidQueryWord ('-' :: cs) ↔
      (cs ≠ [] ∧ cs.head? ≠ some '-' ∧ IsValidWord cs = true) := by
  unfold IsValidQueryWord
  rw [IsValidWord_eq_true_iff]
  have hdash : ¬ ('-' : Char).toNat < 32 := by decide
  constructor
  · rintro ⟨_, h2, h3, h4⟩
    refine ⟨?_, ?_, fun c hc => h4 c (List.mem_cons_of_mem _ hc)⟩
    · intro hnil
      exact h2 (by rw [hnil])
    · intro hh
      apply h3
      cases cs with
      | nil => simp at hh
      | cons d ds =>
        simp only [List.head?_cons, Option.some.injEq] at hh
        rw [hh, List.cons_prefix_cons, List.cons_prefix_cons]
        exact ⟨rfl, rfl, List.nil_prefix⟩
  · rintro ⟨h1, h2, h3⟩
    refine ⟨by simp, ?_, ?_, ?_⟩
    · intro heq
      simp only [List.cons.injEq, true_and] at heq
      exact h1 heq
    · intro hp
      rw [List.cons_prefix_cons] at hp
      cases cs with
      | nil => exact h1 rfl
      | cons d ds =>
        rw [List.cons_prefix_cons] at hp
        apply h2
        rw [← hp.2.1]
        rfl
    · intro c hc
      rcases List.mem_cons.mp hc with h | h
      · rw [h]
        exact hdash
      · exact h3 c h

theorem ParseQueryWord_ok_iff (s : SearchServer) (t : Word) :
    (∃ qw, s.ParseQueryWord t = .ok qw) ↔ IsValidQueryWord t := by
  cases t with
  | nil => simp [SearchServer.ParseQueryWord, IsValidQueryWord]
  | cons c cs =>
    by_cases hc : c = '-'
    · subst hc
      rw [ParseQueryWord_minus, IsValidQueryWord_minus]
      split_ifs with h
      · exact ⟨fun _ => h, fun _ => ⟨_, rfl⟩⟩
      · constructor
        · rintro ⟨qw, hq⟩
          cases hq
        · exact fun h' => absurd h' h
    · rw [ParseQueryWord_plus s c cs hc, IsValidQueryWord_plus c cs hc]
      split_ifs with h
      · exact ⟨fun _ => h, fun _ => ⟨_, rfl⟩⟩
      · constructor
        · rintro ⟨qw, hq⟩
          cases hq
        · exact fun h' => absurd h' h

theorem ParseQueryWord_of_not_valid (s : SearchServer) (t : Word) (h : ¬ IsValidQueryWord t) :
    s.ParseQueryWord t = .error Exception.invalid_argument := by
  cases hp : s.ParseQueryWord t with
  | error e => rw [ParseQueryWord_error hp]
  | ok qw => exact absurd ((ParseQueryWord_ok_iff s t).mp ⟨qw, hp⟩) h

theorem parseWords_error {s : SearchServer} {slices : List Word} {result : Query}
    {e : Exception} (h : s.parseWords slices result = .error e) :
    e = Exception.invalid_argument := by
  induction slices generalizing result with
  | nil => simp [SearchServer.parseWords] at h
  | cons t rest ih =>
    simp only [SearchServer.parseWords] at h
    cases hp : s.ParseQueryWord t with
    | error e' =>
      rw [hp] at h
      simp only [Except.error.injEq] at h
      rw [← h]
      exact ParseQueryWord_error hp
    | ok qw =>
      rw [hp] at h
      exact ih h

theorem parseWords_ok_iff (s : SearchServer) (slices : List Word) (result : Query) :
    (∃ query, s.parseWords slices result = .ok query) ↔ ∀ t ∈ slices, IsValidQueryWord t := by
  induction slices generalizing result with
  | nil => simp [SearchServer.parseWords]
  | cons t rest ih =>
    simp only [SearchServer.parseWords, List.mem_cons, forall_eq_or_imp]
    cases hp : s.ParseQueryWord t with
    | error e =>
      have hnv : ¬ IsValidQueryWord t := fun hv => by
        obtain ⟨qw, hq⟩ := (ParseQueryWord_ok_iff s t).mpr hv
        rw [hp] at hq
        exact Except.noConfusion hq
      simp [hnv]
    | ok qw =>
      have hv : IsValidQueryWord t := (ParseQueryWord_ok_iff s t).mp ⟨qw, hp⟩
      simp only [hv, true_and]
      exact ih _

theorem parseWords_of_not_valid (s : SearchServer) (slices : List Word) (result : Query)
    (t : Word) (ht : t ∈ slices) (hnv : ¬ IsValidQueryWord t) :
    s.parseWords slices result = .error Exception.invalid_argument := by
  cases hp : s.parseWords slices result with
  | error e => rw [parseWords_error hp]
  | ok query => exact absurd ((parseWords_ok_iff s slices result).mp ⟨query, hp⟩ t ht) hnv

theorem ParseQueryWord_ok_plus {s : SearchServer} {t : Word} {qw : QueryWord}
    (h : s.ParseQueryWord t = .ok qw) (hm : qw.is_minus = false) :
    t = qw.data ∧ t.head? ≠ some '-' ∧ qw.is_stop = s.IsStopWord qw.data := by
  cases t with
  | nil => simp [SearchServer.ParseQueryWord] at h
  | cons c cs =>
    by_cases hc : c = '-'
    · subst hc
      rw [ParseQueryWord_minus] at h
      split_ifs at h
      simp only [Except.ok.injEq] at h
      rw [← h] at hm
      exact Bool.noConfusion hm
    · rw [ParseQueryWord_plus s c cs hc] at h
      split_ifs at h
      simp only [Except.ok.injEq] at h
      rw [← h]
      exact ⟨rfl, by simpa using hc, rfl⟩

theorem ParseQueryWord_ok_minus {s : SearchServer} {t : Word} {qw : QueryWord}
    (h : s.ParseQueryWord t = .ok qw) (hm : qw.is_minus = true) :
    t = '-' :: qw.data ∧ qw.is_stop = s.IsStopWord qw.data := by
  cases t with
  | nil => simp [SearchServer.ParseQueryWord] at h
  | cons c cs =>
    by_cases hc : c = '-'
    · subst hc
      rw [ParseQueryWord_minus] at h
      split_ifs at h
      simp only [Except.ok.injEq] at h
      rw [← h]
      exact ⟨rfl, rfl⟩
    · rw [ParseQueryWord_plus s c cs hc] at h
      split_ifs at h
      simp only [Except.ok.injEq] at h
      rw [← h] at hm
      exact Bool.noConfusion hm

theorem ParseQueryWord_valid_plus (s : SearchServer) {w : Word} (hv : IsValidQueryWord w)
    (hh : w.head? ≠ some '-') : s.ParseQueryWord w = .ok ⟨w, false, s.IsStopWord w⟩ := by
  cases w with
  | nil => exact absurd rfl hv.1
  | cons c cs =>
    have hc : c ≠ '-' := by simpa using hh
    rw [ParseQueryWord_plus s c cs hc, if_pos ((IsValidQueryWord_plus c cs hc).mp hv)]

theorem ParseQueryWord_valid_minus (s : SearchServer) {w : Word}
    (hv : IsValidQueryWord ('-' :: w)) :
    s.ParseQueryWord ('-' :: w) = .ok ⟨w, true, s.IsStopWord w⟩ := by
  rw [ParseQueryWord_minus, if_pos ((IsValidQueryWord_minus w).mp hv)]

theorem parseWords_mem {s : SearchServer} {slices : List Word} {result query : Query}
    (h : s.parseWords slices result = .ok query) (w : Word) :
    (w ∈ query.plus_words ↔
      w ∈ result.plus_words ∨ (w ∈ slices ∧ w.head? ≠ some '-' ∧ s.IsStopWord w = false)) ∧
    (w ∈ query.minus_words ↔
      w ∈ result.minus_words ∨ ('-' :: w ∈ slices ∧ s.IsStopWord w = false)) := by
  induction slices generalizing result with
  | nil =>
    simp only [SearchServer.parseWords, Except.ok.injEq] at h
    rw [← h]
    simp
  | cons t rest ih =>
    simp only [SearchServer.parseWords] at h
    cases hp : s.ParseQueryWord t with
    | error e =>
      rw [hp] at h
      exact Except.noConfusion h
    | ok qw =>
      rw [hp] at h
      obtain ⟨ih1, ih2⟩ := ih h
      have hvalid : IsValidQueryWord t := (ParseQueryWord_ok_iff s t).mp ⟨qw, hp⟩
      cases hm : qw.is_minus with
      | false =>
        obtain ⟨ht, hhead, hstop⟩ := ParseQueryWord_ok_plus hp hm
        have hnot : ∀ w', '-' :: w' ≠ t := by
          intro w' heq
          rw [← heq] at hhead
          exact hhead rfl
        cases hs : qw.is_stop with
        | true =>
          have hpush : pushQueryWord result qw = result := by simp [pushQueryWord, hs]
          rw [hpush] at ih1 ih2
          rw [ih1, ih2]
          constructor
          · constructor
            · rintro (h1 | ⟨h1, h2, h3⟩)
              · exact Or.inl h1
              · exact Or.inr ⟨List.mem_cons_of_mem _ h1, h2, h3⟩
            · rintro (h1 | ⟨h1, h2, h3⟩)
              · exact Or.inl h1
              · rcases List.mem_cons.mp h1 with h4 | h4
                · rw [h4, ht, ← hstop, hs] at h3
                  exact Bool.noConfusion h3
                · exact Or.inr ⟨h4, h2, h3⟩
          · constructor
            · rintro (h1 | ⟨h1, h2⟩)
              · exact Or.inl h1
              · exact Or.inr ⟨List.mem_cons_of_mem _ h1, h2⟩
            · rintro (h1 | ⟨h1, h2⟩)
              · exact Or.inl h1
              · rcases List.mem_cons.mp h1 with h4 | h4
                · exact absurd h4 (hnot w)
                · exact Or.inr ⟨h4, h2⟩
        | false =>
          have hpush : pushQueryWord result qw =
              { result with plus_words := result.plus_words ++ [qw.data] } := by
            simp [pushQueryWord, hs, hm]
          rw [hpush] at ih1 ih2
          rw [ih1, ih2]
          simp only [List.mem_append, List.mem_singleton]
          constructor
          · constructor
            · rintro ((h1 | h1) | ⟨h1, h2, h3⟩)
              · exact Or.inl h1
              · refine Or.inr ⟨?_, ?_, ?_⟩
                · rw [h1, ← ht]
                  exact List.mem_cons_self _ _
                · rw [h1, ← ht]
                  exact hhead
                · rw [h1, ← hstop, hs]
              · exact Or.inr ⟨List.mem_cons_of_mem _ h1, h2, h3⟩
            · rintro (h1 | ⟨h1, h2, h3⟩)
              · exact Or.inl (Or.inl h1)
              · rcases List.mem_cons.mp h1 with h4 | h4
                · exact Or.inl (Or.inr (by rw [h4, ht]))
                · exact Or.inr ⟨h4, h2, h3⟩
          · constructor
            · rintro (h1 | ⟨h1, h2⟩)
              · exact Or.inl h1
              · exact Or.inr ⟨List.mem_cons_of_mem _ h1, h2⟩
            · rintro (h1 | ⟨h1, h2⟩)
              · exact Or.inl h1
              · rcases List.mem_cons.mp h1 with h4 | h4
                · exact absurd h4 (hnot w)
                · exact Or.inr ⟨h4, h2⟩
      | true =>
        obtain ⟨ht, hstop⟩ := ParseQueryWord_ok_minus hp hm
        have hhead : t.head? = some '-' := by rw [ht]; rfl
        cases hs : qw.is_stop with
        | true =>
          have hpush : pushQueryWord result qw = result := by simp [pushQueryWord, hs]
          rw [hpush] at ih1 ih2
          rw [ih1, ih2]
          constructor
          · constructor
            · rintro (h1 | ⟨h1, h2, h3⟩)
              · exact Or.inl h1
              · exact Or.inr ⟨List.mem_cons_of_mem _ h1, h2, h3⟩
            · rintro (h1 | ⟨h1, h2, h3⟩)
              · exact Or.inl h1
              · rcases List.mem_cons.mp h1 with h4 | h4
                · rw [h4] at h2
                  exact absurd hhead h2
                · exact Or.inr ⟨h4, h2, h3⟩
          · constructor
            · rintro (h1 | ⟨h1, h2⟩)
              · exact Or.inl h1
              · exact Or.inr ⟨List.mem_cons_of_mem _ h1, h2⟩
            · rintro (h1 | ⟨h1, h2⟩)
              · exact Or.inl h1
              · rcases List.mem_cons.mp h1 with h4 | h4
                · rw [ht] at h4
                  have hw : w = qw.data := (List.cons.inj h4).2
                  rw [hw, ← hstop, hs] at h2
                  exact Bool.noConfusion h2
                · exact Or.inr ⟨h4, h2⟩
        | false =>
          have hpush : pushQueryWord result qw =
              { result with minus_words := result.minus_words ++ [qw.data] } := by
            simp [pushQueryWord, hs, hm]
          rw [hpush] at ih1 ih2
          rw [ih1, ih2]
          simp only [List.mem_append, List.mem_singleton]
          constructor
          · constructor
            · rintro (h1 | ⟨h1, h2, h3⟩)
              · exact Or.inl h1
              · exact Or.inr ⟨List.mem_cons_of_mem _ h1, h2, h3⟩
            · rintro (h1 | ⟨h1, h2, h3⟩)
              · exact Or.inl h1
              · rcases List.mem_cons.mp h1 with h4 | h4
                · rw [h4] at h2
                  exact absurd hhead h2
                · exact Or.inr ⟨h4, h2, h3⟩
          · constructor
            · rintro ((h1 | h1) | ⟨h1, h2⟩)
              · exact Or.inl h1
              · refine Or.inr ⟨?_, ?_⟩
                · rw [h1, ← ht]
                  exact List.mem_cons_self _ _
                · rw [h1, ← hstop, hs]
              · exact Or.inr ⟨List.mem_cons_of_mem _ h1, h2⟩
            · rintro (h1 | ⟨h1, h2⟩)
              · exact Or.inl (Or.inl h1)
              · rcases List.mem_cons.mp h1 with h4 | h4
                · rw [ht] at h4
                  exact Or.inl (Or.inr (List.cons.inj h4).2)
                · exact Or.inr ⟨h4, h2⟩

theorem parsedSlices_cons_of_ne_nil (t : Word) {rest : List Word} (h : rest ≠ []) :
    parsedSlices (t :: rest) = t :: parsedSlices rest := by
  cases rest with
  | nil => exact absurd rfl h
  | cons r rs => rfl

theorem mem_of_mem_parsedSlices {t : Word} {l : List Word} (h : t ∈ parsedSlices l) : t ∈ l := by
  induction l with
  | nil => simp [parsedSlices] at h
  | cons a rest ih =>
    cases rest with
    | nil =>
      simp only [parsedSlices] at h
      split_ifs at h
      · simp at h
      · exact h
    | cons r rs =>
      rw [parsedSlices_cons_of_ne_nil a (List.cons_ne_nil r rs)] at h
      rcases List.mem_cons.mp h with h1 | h1
      · rw [h1]
        exact List.mem_cons_self _ _
      · exact List.mem_cons_of_mem _ (ih h1)

theorem mem_parsedSlices_of_ne_nil {t : Word} {l : List Word} (h : t ∈ l) (hne : t ≠ []) :
    t ∈ parsedSlices l := by
  induction l with
  | nil => simp at h
  | cons a rest ih =>
    cases rest with
    | nil =>
      simp only [List.mem_singleton] at h
      subst h
      have : t.isEmpty = false := by
        cases t with
        | nil => exact absurd rfl hne
        | cons c cs => rfl
      simp [parsedSlices, this]
    | cons r rs =>
      rw [parsedSlices_cons_of_ne_nil a (List.cons_ne_nil r rs)]
      rcases List.mem_cons.mp h with h1 | h1
      · rw [h1]
        exact List.mem_cons_self _ _
      · exact List.mem_cons_of_mem _ (ih h1)

theorem mem_parsedSlices_iff (t : Word) (l : List Word) :
    t ∈ parsedSlices l ↔ t ∈ l.dropLast ∨ (l.getLast? = some t ∧ t ≠ []) := by
  induction l with
  | nil => simp [parsedSlices]
  | cons a rest ih =>
    cases rest with
    | nil =>
      simp only [parsedSlices, List.dropLast_single, List.not_mem_nil, false_or,
        List.getLast?_singleton, Option.some.injEq]
      cases a with
      | nil =>
        simp only [List.isEmpty_nil, if_true, List.not_mem_nil, false_iff, not_and, not_not]
        exact fun h => h.symm
      | cons c cs =>
        simp only [List.isEmpty_cons, Bool.false_eq_true, if_false, List.mem_singleton]
        constructor
        · intro h
          subst h
          exact ⟨rfl, List.cons_ne_nil _ _⟩
        · exact fun h => h.1.symm
    | cons r rs =>
      rw [parsedSlices_cons_of_ne_nil a (List.cons_ne_nil r rs), List.mem_cons, ih,
        List.dropLast_cons₂, List.mem_cons, List.getLast?_cons_cons]
      tauto

theorem ParseQueryNoSortLoop_eq (s : SearchServer) (fuel : Nat) (text : List Char)
    (result : Query) (h : text.length < fuel) :
    s.ParseQueryNoSortLoop fuel text result =
      s.parseWords (parsedSlices (SplitIntoWordsLoop fuel text [])) result := by
  induction fuel generalizing text result with
  | zero => omega
  | succ fuel ih =>
    cases hf : findSpace text with
    | none =>
      rw [SplitIntoWordsLoop_none hf]
      simp only [SearchServer.ParseQueryNoSortLoop, hf, parsedSlices]
      cases text with
      | nil => simp [SearchServer.parseWords]
      | cons c cs =>
        simp only [List.isEmpty_cons, Bool.not_false, if_true, Bool.false_eq_true, if_false,
          SearchServer.parseWords]
    | some i =>
      obtain ⟨hi, _, _⟩ := findSpace_eq_some hf
      have hlen : (text.drop (i + 1)).length < fuel := by
        simp only [List.length_drop]
        omega
      obtain ⟨f, hfe⟩ : ∃ f, fuel = f + 1 := ⟨fuel - 1, by omega⟩
      have hne : SplitIntoWordsLoop fuel (text.drop (i + 1)) [] ≠ [] := by
        rw [hfe]
        exact SplitIntoWordsLoop_ne_nil f _
      rw [SplitIntoWordsLoop_some hf, parsedSlices_cons_of_ne_nil _ hne]
      simp only [SearchServer.ParseQueryNoSortLoop, hf, SearchServer.parseWords]
      cases s.ParseQueryWord (text.take i) with
      | error e => rfl
      | ok qw => exact ih _ _ hlen

theorem ParseQueryNoSort_eq (s : SearchServer) (text : List Char) :
    s.ParseQueryNoSort text = s.parseWords (parsedSlices (SplitIntoWords text)) ⟨[], []⟩ :=
  ParseQueryNoSortLoop_eq s _ text _ (Nat.lt_succ_self _)

theorem mem_uniqueLoop {α : Type} [DecidableEq α] (x dest : α) (l : List α) :
    x ∈ dest :: uniqueLoop dest l ↔ x ∈ dest :: l := by
  induction l generalizing dest with
  | nil => simp [uniqueLoop]
  | cons y rest ih =>
    simp only [uniqueLoop]
    by_cases hy : dest = y
    · rw [if_pos hy, ih dest, ← hy]
      simp
    · rw [if_neg hy]
      have := ih y
      simp only [List.mem_cons] at this ⊢
      rw [this]

theorem mem_stdUnique {α : Type} [DecidableEq α] (x : α) (l : List α) :
    x ∈ stdUnique l ↔ x ∈ l := by
  cases l with
  | nil => simp [stdUnique]
  | cons y rest => exact mem_uniqueLoop x y rest

theorem mem_stdUnique_stdSort {α : Type} [DecidableEq α] (comp : α → α → Bool) (x : α)
    (l : List α) : x ∈ stdUnique (stdSort comp l) ↔ x ∈ l := by
  rw [mem_stdUnique, (stdSort_perm comp l).mem_iff]

theorem ParseQuery_eq (s : SearchServer) (text : List Char) :
    s.ParseQuery text =
      match s.ParseQueryNoSort text with
      | .error e => .error e
      | .ok result =>
        .ok
          { minus_words := stdUnique (stdSort (fun a b => decide (a < b)) result.minus_words)
            plus_words := stdUnique (stdSort (fun a b => decide (a < b)) result.plus_words) } :=
  rfl

theorem ParseQuery_of_not_valid (s : SearchServer) (text : List Char) (t : Word)
    (ht : t ∈ SplitIntoWords text) (hne : t ≠ []) (hnv : ¬ IsValidQueryWord t) :
    s.ParseQueryNoSort text = .error Exception.invalid_argument ∧
      s.ParseQuery text = .error Exception.invalid_argument := by
  have h : s.ParseQueryNoSort text = .error Exception.invalid_argument := by
    rw [ParseQueryNoSort_eq]
    exact parseWords_of_not_valid s _ _ t (mem_parsedSlices_of_ne_nil ht hne) hnv
  exact ⟨h, by rw [ParseQuery_eq, h]⟩

/-! ## Claims about the tokenizer and the query parser -/

/-- C19, as the code has it: `SplitIntoWords` returns the slices of the text
between its spaces, one more than there are spaces; no slice holds a space and
the slices joined by single spaces are the text.  (Slices may be empty.) -/
theorem C19_slices_between_spaces (text : List Char) :
    (∀ t ∈ SplitIntoWords text, ' ' ∉ t) ∧
      [' '].intercalate (SplitIntoWords text) = text ∧
      (SplitIntoWords text).length = text.count ' ' + 1 :=
  SplitIntoWordsLoop_spec _ text (Nat.lt_succ_self _)

/-- C19 as stated fails: adjacent spaces and a trailing space give empty
slices, and the empty text gives one empty slice. -/
theorem C19_empty_slices_returned :
    SplitIntoWords "a  b ".toList = ["a".toList, [], "b".toList, []] ∧
      SplitIntoWords [] = [[]] ∧
      ¬ (∀ t ∈ SplitIntoWords "a  b ".toList, t ≠ []) := by
  decide

theorem not_valid_of_bad {t : Word}
    (hbad : t = ['-'] ∨ ['-', '-'] <+: t ∨ ∃ c ∈ t, c.toNat < 32) :
    t ≠ [] ∧ ¬ IsValidQueryWord t := by
  rcases hbad with h | h | ⟨c, hc, hlt⟩
  · subst h
    exact ⟨by simp, fun hv => hv.2.1 rfl⟩
  · refine ⟨?_, fun hv => hv.2.2.1 h⟩
    intro hnil
    rw [hnil] at h
    simp at h
  · refine ⟨?_, fun hv => hv.2.2.2 c hc hlt⟩
    intro hnil
    rw [hnil] at hc
    simp at hc

/-- C12: when a slice of the query text is exactly `-`, starts with `--` or
holds a character with code 0..31, `ParseQuery` fails with `invalid_argument`,
and so do `FindTopDocuments` and, on a present id, `MatchDocument`, for either
policy. -/
theorem C12_invalid_token_fails (ln : ℚ → ℚ) (s : SearchServer) (text : List Char) (t : Word)
    (ht : t ∈ SplitIntoWords text)
    (hbad : t = ['-'] ∨ ['-', '-'] <+: t ∨ ∃ c ∈ t, c.toNat < 32) :
    s.ParseQuery text = .error Exception.invalid_argument ∧
      (∀ (policy : ExecutionPolicy) (document_predicate : DocumentPredicate),
        s.FindTopDocuments ln policy text document_predicate =
          .error Exception.invalid_argument) ∧
      (∀ (policy : ExecutionPolicy) (document_id : Int),
        (s.documents_.find document_id).isSome = true →
        s.MatchDocument policy text document_id = .error Exception.invalid_argument) := by
  obtain ⟨hne, hnv⟩ := not_valid_of_bad hbad
  obtain ⟨h1, h2⟩ := ParseQuery_of_not_valid s text t ht hne hnv
  refine ⟨h2, ?_, ?_⟩
  · intro policy document_predicate
    simp only [SearchServer.FindTopDocuments, h2]
  · intro policy document_id hpresent
    have hnone : (s.documents_.find document_id).isNone = false := by
      cases hf : OrdMap.find document_id s.documents_ with
      | none => simp [hf] at hpresent
      | some d => rfl
    cases policy <;> simp [SearchServer.MatchDocument, hnone, h1, h2]

/-- C12 at a concrete text: the second slice of "cat --dog" starts with `--`. -/
theorem C12_invalid_token_fails_witness :
    "--dog".toList ∈ SplitIntoWords "cat --dog".toList ∧
      ("--dog".toList = ['-'] ∨ ['-', '-'] <+: "--dog".toList ∨
        ∃ c ∈ "--dog".toList, c.toNat < 32) ∧
      catDogServer.ParseQuery "cat --dog".toList = .error Exception.invalid_argument ∧
      (∀ (policy : ExecutionPolicy) (document_predicate : DocumentPredicate),
        catDogServer.FindTopDocuments lnSixDecimals policy "cat --dog".toList
          document_predicate = .error Exception.invalid_argument) ∧
      (∀ (policy : ExecutionPolicy) (document_id : Int),
        (catDogServer.documents_.find document_id).isSome = true →
        catDogServer.MatchDocument policy "cat --dog".toList document_id =
          .error Exception.invalid_argument) :=
  ⟨by decide, Or.inr (Or.inl (by decide)),
    C12_invalid_token_fails lnSixDecimals catDogServer "cat --dog".toList "--dog".toList
      (by decide) (Or.inr (Or.inl (by decide)))⟩

/-- C20, as the code has it: `ParseQuery` succeeds exactly when every slice of
the text but the last is a valid query word and the last slice is empty or a
valid query word; otherwise it fails with `invalid_argument`.  An empty slice
that is not the last (a leading space, two adjacent spaces) is not valid. -/
theorem C20_parse_succeeds_iff (s : SearchServer) (text : List Char) :
    ((∃ query, s.ParseQuery text = .ok query) ↔
      ((∀ t ∈ (SplitIntoWords text).dropLast, IsValidQueryWord t) ∧
        ∀ t, (SplitIntoWords text).getLast? = some t → t = [] ∨ IsValidQueryWord t)) ∧
    ((∃ query, s.ParseQuery text = .ok query) ∨
      s.ParseQuery text = .error Exception.invalid_argument) := by
  have hiff : (∃ query, s.ParseQuery text = .ok query) ↔
      ∃ result, s.ParseQueryNoSort text = .ok result := by
    rw [ParseQuery_eq]
    cases s.ParseQueryNoSort text with
    | error e => simp
    | ok result => simp
  constructor
  · rw [hiff, ParseQueryNoSort_eq, parseWords_ok_iff]
    constructor
    · intro h
      refine ⟨fun t ht => h t ((mem_parsedSlices_iff t _).mpr (Or.inl ht)), ?_⟩
      intro t ht
      by_cases hne : t = []
      · exact Or.inl hne
      · exact Or.inr (h t ((mem_parsedSlices_iff t _).mpr (Or.inr ⟨ht, hne⟩)))
    · rintro ⟨h1, h2⟩ t ht
      rcases (mem_parsedSlices_iff t _).mp ht with h | ⟨h, hne⟩
      · exact h1 t h
      · exact (h2 t h).resolve_left hne
  · rw [ParseQuery_eq]
    cases hp : s.ParseQueryNoSort text with
    | error e =>
      right
      rw [ParseQueryNoSort_eq] at hp
      rw [parseWords_error hp]
    | ok result => exact Or.inl ⟨_, rfl⟩

/-- C20 as stated fails: the non-empty slices of "cat  dog" are valid query
words, and `ParseQuery` fails on the empty slice between the two spaces. -/
theorem C20_adjacent_spaces_fail :
    (∀ t ∈ SplitIntoWords "cat  dog".toList, t ≠ [] → IsValidQueryWord t) ∧
      catDogServer.ParseQuery "cat  dog".toList = .error Exception.invalid_argument ∧
      catDogServer.ParseQuery " cat".toList = .error Exception.invalid_argument := by
  refine ⟨by decide, by decide!, by decide!⟩

/-- C13: when `ParseQuery` succeeds, `plus_words` and `minus_words` are strictly
increasing, hold no stop word, no empty word and no word starting with `-`, and
are exactly the non-empty slices without a leading `-` that are not stop words,
and the words `w` that are not stop words with `-w` a slice of the text. -/
theorem C13_parsed_query_sets (s : SearchServer) (text : List Char) (query : Query)
    (h : s.ParseQuery text = .ok query) :
    query.plus_words.Sorted (· < ·) ∧ query.minus_words.Sorted (· < ·) ∧
      (∀ w ∈ query.plus_words ++ query.minus_words,
        s.IsStopWord w = false ∧ w ≠ [] ∧ w.head? ≠ some '-') ∧
      (∀ w, w ∈ query.plus_words ↔
        (w ∈ SplitIntoWords text ∧ w ≠ [] ∧ w.head? ≠ some '-' ∧ s.IsStopWord w = false)) ∧
      (∀ w, w ∈ query.minus_words ↔
        ('-' :: w ∈ SplitIntoWords text ∧ s.IsStopWord w = false)) := by
  obtain ⟨result, hres, hplus, hminus⟩ := ParseQuery_ok h
  rw [ParseQueryNoSort_eq] at hres
  have hvalid := (parseWords_ok_iff s _ _).mp ⟨result, hres⟩
  have hp : ∀ w, w ∈ query.plus_words ↔
      (w ∈ SplitIntoWords text ∧ w ≠ [] ∧ w.head? ≠ some '-' ∧ s.IsStopWord w = false) := by
    intro w
    rw [hplus, mem_stdUnique_stdSort, (parseWords_mem hres w).1]
    simp only [List.not_mem_nil, false_or]
    constructor
    · rintro ⟨h1, h2, h3⟩
      exact ⟨mem_of_mem_parsedSlices h1, (hvalid w h1).1, h2, h3⟩
    · rintro ⟨h1, h2, h3, h4⟩
      exact ⟨mem_parsedSlices_of_ne_nil h1 h2, h3, h4⟩
  have hm : ∀ w, w ∈ query.minus_words ↔
      ('-' :: w ∈ SplitIntoWords text ∧ s.IsStopWord w = false) := by
    intro w
    rw [hminus, mem_stdUnique_stdSort, (parseWords_mem hres w).2]
    simp only [List.not_mem_nil, false_or]
    constructor
    · rintro ⟨h1, h2⟩
      exact ⟨mem_of_mem_parsedSlices h1, h2⟩
    · rintro ⟨h1, h2⟩
      exact ⟨mem_parsedSlices_of_ne_nil h1 (List.cons_ne_nil _ _), h2⟩
  refine ⟨?_, ?_, ?_, hp, hm⟩
  · rw [hplus]
    exact stdUnique_stdSort_sorted _
  · rw [hminus]
    exact stdUnique_stdSort_sorted _
  · intro w hw
    rcases List.mem_append.mp hw with h1 | h1
    · obtain ⟨_, h2, h3, h4⟩ := (hp w).mp h1
      exact ⟨h4, h2, h3⟩
    · obtain ⟨h2, h3⟩ := (hm w).mp h1
      have hv := hvalid _ (mem_parsedSlices_of_ne_nil h2 (List.cons_ne_nil _ _))
      obtain ⟨h4, h5, _⟩ := (IsValidQueryWord_minus w).mp hv
      exact ⟨h3, h4, h5⟩

/-- C13 at a concrete text, with the stop words `a` and `the`. -/
theorem C13_parsed_query_sets_witness :
    catDogServer.ParseQuery "cat dog -mat cat a -x -x -the b ".toList =
        .ok ⟨["b".toList, "cat".toList, "dog".toList], ["mat".toList, "x".toList]⟩ ∧
      List.Sorted (· < ·) ["b".toList, "cat".toList, "dog".toList] ∧
      List.Sorted (· < ·) ["mat".toList, "x".toList] ∧
      (∀ w ∈ ["b".toList, "cat".toList, "dog".toList] ++ ["mat".toList, "x".toList],
        catDogServer.IsStopWord w = false ∧ w ≠ [] ∧ w.head? ≠ some '-') ∧
      (∀ w, w ∈ ["b".toList, "cat".toList, "dog".toList] ↔
        (w ∈ SplitIntoWords "cat dog -mat cat a -x -x -the b ".toList ∧ w ≠ [] ∧
          w.head? ≠ some '-' ∧ catDogServer.IsStopWord w = false)) ∧
      (∀ w, w ∈ ["mat".toList, "x".toList] ↔
        ('-' :: w ∈ SplitIntoWords "cat dog -mat cat a -x -x -the b ".toList ∧
          catDogServer.IsStopWord w = false)) :=
  ⟨by decide!,
    C13_parsed_query_sets catDogServer "cat dog -mat cat a -x -x -the b ".toList
      ⟨["b".toList, "cat".toList, "dog".toList], ["mat".toList, "x".toList]⟩ (by decide!)⟩

/-! ## Facts about `MatchDocument` -/

theorem wordInDocument_eq_indexEntry (s : SearchServer) (document_id : Int) (word : Word) :
    s.wordInDocument document_id word =
      (indexEntry s.word_to_document_freqs_ word document_id).isSome := by
  unfold SearchServer.wordInDocument indexEntry
  cases OrdMap.find word s.word_to_document_freqs_ <;> rfl

theorem ServerInv.wordInDocument_iff {s : SearchServer} {corpus : Int → Option (List Word)}
    (hinv : ServerInv s corpus) {d : Int} {words : List Word} (hd : corpus d = some words)
    (w : Word) : s.wordInDocument d w = true ↔ w ∈ words := by
  rw [wordInDocument_eq_indexEntry]
  constructor
  · intro h
    have hfr := hinv.freqs d
    rw [hd] at hfr
    cases hf : OrdMap.find d s.documents_ with
    | none => simp [hf] at hfr
    | some data =>
      simp only [hf, Option.map_some', Option.some.injEq] at hfr
      rw [hinv.entry_eq hf, hfr, find_wordFreqs] at h
      by_contra hw
      rw [if_neg hw] at h
      simp at h
  · exact fun hw => hinv.entry_of_token hd hw

theorem sorted_lt_ext {α : Type} [LinearOrder α] {l l' : List α}
    (h : l.Sorted (· < ·)) (h' : l'.Sorted (· < ·)) (hmem : ∀ x, x ∈ l ↔ x ∈ l') : l = l' :=
  List.eq_of_perm_of_sorted ((List.perm_ext_iff_of_nodup h.nodup h'.nodup).mpr hmem) h h'

theorem stdUnique_stdSort_congr {α : Type} [LinearOrder α] [DecidableEq α] {l l' : List α}
    (hmem : ∀ x, x ∈ l ↔ x ∈ l') :
    stdUnique (stdSort (fun a b => decide (a < b)) l) =
      stdUnique (stdSort (fun a b => decide (a < b)) l') := by
  apply sorted_lt_ext (stdUnique_stdSort_sorted l) (stdUnique_stdSort_sorted l')
  intro x
  rw [mem_stdUnique_stdSort, mem_stdUnique_stdSort, hmem]

theorem stdUnique_stdSort_of_sorted {α : Type} [LinearOrder α] [DecidableEq α] {l : List α}
    (h : l.Sorted (· < ·)) : stdUnique (stdSort (fun a b => decide (a < b)) l) = l :=
  sorted_lt_ext (stdUnique_stdSort_sorted l) h (fun x => mem_stdUnique_stdSort _ x l)

theorem any_congr_mem {α : Type} {l l' : List α} (p : α → Bool)
    (hmem : ∀ x, x ∈ l ↔ x ∈ l') : l.any p = l'.any p := by
  rw [Bool.eq_iff_iff]
  simp only [List.any_eq_true]
  constructor
  · rintro ⟨x, hx, hp⟩
    exact ⟨x, (hmem x).mp hx, hp⟩
  · rintro ⟨x, hx, hp⟩
    exact ⟨x, (hmem x).mpr hx, hp⟩

theorem isEmpty_congr_mem {α : Type} {l l' : List α}
    (hmem : ∀ x, x ∈ l ↔ x ∈ l') : l.isEmpty = l'.isEmpty := by
  cases l with
  | nil =>
    cases l' with
    | nil => rfl
    | cons y ys => exact absurd ((hmem y).mpr (List.mem_cons_self _ _)) (List.not_mem_nil _)
  | cons x xs =>
    cases l' with
    | nil => exact absurd ((hmem x).mp (List.mem_cons_self _ _)) (List.not_mem_nil _)
    | cons y ys => rfl

/-- The two policies of `MatchDocument` give the same outcome. -/
theorem MatchDocument_policy (s : SearchServer) (raw_query : List Char) (document_id : Int) :
    s.MatchDocument ExecutionPolicy.seq raw_query document_id =
      s.MatchDocument ExecutionPolicy.par raw_query document_id := by
  unfold SearchServer.MatchDocument
  cases hdoc : OrdMap.find document_id s.documents_ with
  | none => rfl
  | some document_data =>
    simp only [Option.isNone_some, Bool.false_eq_true, if_false]
    rw [ParseQuery_eq]
    cases hp : s.ParseQueryNoSort raw_query with
    | error e => rfl
    | ok result =>
      simp only
      have hplus : ∀ x, x ∈ stdUnique (stdSort (fun a b => decide (a < b)) result.plus_words) ↔
          x ∈ result.plus_words := fun x => mem_stdUnique_stdSort _ x _
      have hminus : ∀ x, x ∈ stdUnique (stdSort (fun a b => decide (a < b)) result.minus_words) ↔
          x ∈ result.minus_words := fun x => mem_stdUnique_stdSort _ x _
      rw [isEmpty_congr_mem hplus, any_congr_mem _ hminus]
      have hfilter : stdUnique (stdSort (fun a b => decide (a < b))
            ((stdUnique (stdSort (fun a b => decide (a < b)) result.plus_words)).filter
              (s.wordInDocument document_id))) =
          stdUnique (stdSort (fun a b => decide (a < b))
            (result.plus_words.filter (s.wordInDocument document_id))) := by
        apply stdUnique_stdSort_congr
        intro x
        rw [List.mem_filter, List.mem_filter, hplus]
      rw [hfilter]

/-- On a present id and a query that parses, the sequential `MatchDocument`
returns the plus words found in the index for the document. -/
theorem MatchDocument_seq_ok {s : SearchServer} {raw_query : List Char} {query : Query}
    {document_id : Int} {document_data : DocumentData}
    (hdoc : s.documents_.find document_id = some document_data)
    (hq : s.ParseQuery raw_query = .ok query) :
    s.MatchDocument ExecutionPolicy.seq raw_query document_id =
      .ok (if query.plus_words.isEmpty ||
            query.minus_words.any (s.wordInDocument document_id) then []
          else query.plus_words.filter (s.wordInDocument document_id),
        document_data.status) := by
  unfold SearchServer.MatchDocument
  simp only [hdoc, Option.isNone_some, Bool.false_eq_true, if_false, hq]
  have hsorted : query.plus_words.Sorted (· < ·) := by
    obtain ⟨result, _, hplus, _⟩ := ParseQuery_ok hq
    rw [hplus]
    exact stdUnique_stdSort_sorted _
  rw [stdUnique_stdSort_of_sorted (hsorted.filter _)]
  split_ifs <;> rfl

/-! ## Claims about `MatchDocument` -/

/-- C17: for every state, query text and document id, `MatchDocument` with the
sequential policy (parsing with `ParseQuery`) and with the parallel policy
(parsing with `ParseQueryNoSort`) give the same outcome: the same error, or the
same matched words and status. -/
theorem C17_policies_agree (s : SearchServer) (raw_query : List Char) (document_id : Int) :
    s.MatchDocument ExecutionPolicy.seq raw_query document_id =
      s.MatchDocument ExecutionPolicy.par raw_query document_id :=
  MatchDocument_policy s raw_query document_id

/-- C11: in every reachable state, for a present document id and a query that
parses, `MatchDocument` returns, with either policy, the stored status of the
document and: no word when the query has no plus-word or a minus-word of the
query is a token of the document; otherwise the plus-words of the query that
are tokens of the document, a strictly increasing list. -/
theorem C11_match_document {stop_words : List Word} {s : SearchServer}
    {corpus : Int → Option (List Word)} (hreach : Reaches stop_words s corpus)
    (policy : ExecutionPolicy) (raw_query : List Char) (query : Query) (document_id : Int)
    (words : List Word) (hdoc : corpus document_id = some words)
    (hq : s.ParseQuery raw_query = .ok query) :
    ∃ document_data, s.documents_.find document_id = some document_data ∧
      s.MatchDocument policy raw_query document_id =
        .ok (if query.plus_words = [] ∨ ∃ w ∈ query.minus_words, w ∈ words then []
            else query.plus_words.filter (fun w => decide (w ∈ words)),
          document_data.status) ∧
      (query.plus_words.filter (fun w => decide (w ∈ words))).Sorted (· < ·) := by
  have hinv := hreach.inv
  have hpresent := hinv.present_iff document_id
  rw [hdoc] at hpresent
  cases hfind : OrdMap.find document_id s.documents_ with
  | none => simp [hfind] at hpresent
  | some document_data =>
    refine ⟨document_data, rfl, ?_, ?_⟩
    · have hseq := MatchDocument_seq_ok hfind hq
      have hfun : s.wordInDocument document_id = fun w => decide (w ∈ words) := by
        funext w
        rw [Bool.eq_iff_iff, hinv.wordInDocument_iff hdoc w]
        simp
      have hpol : s.MatchDocument policy raw_query document_id =
          s.MatchDocument ExecutionPolicy.seq raw_query document_id := by
        cases policy
        · rfl
        · exact (MatchDocument_policy s raw_query document_id).symm
      rw [hpol, hseq, hfun]
      congr 2
      apply if_congr _ rfl rfl
      simp [List.isEmpty_iff]
    · obtain ⟨result, _, hplus, _⟩ := ParseQuery_ok hq
      have hsorted : query.plus_words.Sorted (· < ·) := by
        rw [hplus]
        exact stdUnique_stdSort_sorted _
      exact hsorted.filter _

/-- C11 on the two-document example: document 0 and the query
"sat cat cat -dog", with the parallel policy. -/
theorem C11_match_document_witness :
    catDogCorpus 0 = some ["cat".toList, "sat".toList, "on".toList, "mat".toList] ∧
      catDogServer.ParseQuery "sat cat cat -dog".toList =
        .ok ⟨["cat".toList, "sat".toList], ["dog".toList]⟩ ∧
      ∃ document_data, catDogServer.documents_.find 0 = some document_data ∧
        catDogServer.MatchDocument ExecutionPolicy.par "sat cat cat -dog".toList 0 =
          .ok (if ["cat".toList, "sat".toList] = [] ∨
                ∃ w ∈ ["dog".toList],
                  w ∈ ["cat".toList, "sat".toList, "on".toList, "mat".toList] then []
              else ["cat".toList, "sat".toList].filter
                (fun w => decide (w ∈ ["cat".toList, "sat".toList, "on".toList, "mat".toList])),
            document_data.status) ∧
        (["cat".toList, "sat".toList].filter
          (fun w => decide (w ∈ ["cat".toList, "sat".toList, "on".toList, "mat".toList]))).Sorted
          (· < ·) :=
  ⟨by decide, by decide!,
    C11_match_document catDogServer_reaches ExecutionPolicy.par "sat cat cat -dog".toList
      ⟨["cat".toList, "sat".toList], ["dog".toList]⟩ 0
      ["cat".toList, "sat".toList, "on".toList, "mat".toList] (by decide) (by decide!)⟩

/-! ## Facts about the request queue -/

theorem lastRequests_of_lt {results : List (List Document)} (h : results.length < 1440)
    (documents : List Document) :
    lastRequests results = results ∧
      lastRequests (results ++ [documents]) = results ++ [documents] := by
  unfold lastRequests
  constructor
  · have : results.length - min results.length 1440 = 0 := by omega
    rw [this, List.drop_zero]
  · have : (results ++ [documents]).length - min (results ++ [documents]).length 1440 = 0 := by
      simp only [List.length_append, List.length_singleton]
      omega
    rw [this, List.drop_zero]

theorem lastRequests_of_ge {results : List (List Document)} (h : 1440 ≤ results.length)
    (documents : List Document) :
    ∃ front rest, lastRequests results = front :: rest ∧
      lastRequests (results ++ [documents]) = rest ++ [documents] := by
  unfold lastRequests
  have h1 : results.length - min results.length 1440 = results.length - 1440 := by omega
  have h2 : (results ++ [documents]).length - min (results ++ [documents]).length 1440 =
      results.length - 1440 + 1 := by
    simp only [List.length_append, List.length_singleton]
    omega
  rw [h1, h2, List.drop_append_of_le_length (by omega)]
  cases hw : results.drop (results.length - 1440) with
  | nil =>
    have := congrArg List.length hw
    simp only [List.length_drop, List.length_nil] at this
    omega
  | cons front rest =>
    refine ⟨front, rest, rfl, ?_⟩
    have : results.drop (results.length - 1440 + 1) =
        (results.drop (results.length - 1440)).tail := by simp
    rw [this, hw, List.tail_cons]

theorem length_lastRequests (results : List (List Document)) :
    (lastRequests results).length = min results.length 1440 := by
  unfold lastRequests
  rw [List.length_drop]
  omega

theorem countP_le_window (results : List (List Document)) :
    (lastRequests results).countP List.isEmpty ≤ 1440 := by
  have h1 := List.countP_le_length List.isEmpty (l := lastRequests results)
  rw [length_lastRequests] at h1
  omega

theorem QueueInv_NewRequest {q : RequestQueue} {results : List (List Document)}
    (hinv : QueueInv q results) (documents : List Document) :
    QueueInv (q.NewRequest documents) (results ++ [documents]) := by
  obtain ⟨hreq, hsize, hnum⟩ := hinv
  have hbound := countP_le_window results
  unfold RequestQueue.NewRequest sec_in_day_
  by_cases hlt : q.size < 1440
  · have hn : results.length < 1440 := by omega
    obtain ⟨hw, hw'⟩ := lastRequests_of_lt hn documents
    rw [if_pos hlt]
    refine ⟨?_, ?_, ?_⟩
    · simp only [hreq, hw, hw', List.map_append, List.map_cons, List.map_nil]
    · simp only [List.length_append, List.length_singleton]
      rw [toInt32_of_isInt32 (by unfold IsInt32; omega)]
      push_cast
      omega
    · simp only [hw', List.countP_append, List.countP_cons, List.countP_nil]
      rw [hw] at hnum hbound
      cases hdoc : documents.isEmpty
      · simp [hnum]
      · simp only [if_true, hnum]
        rw [toInt32_of_isInt32 (by unfold IsInt32; omega)]
        simp
  · have hn : 1440 ≤ results.length := by omega
    obtain ⟨front, rest, hw, hw'⟩ := lastRequests_of_ge hn documents
    rw [if_neg hlt]
    rw [hw] at hreq hnum hbound
    simp only [List.countP_cons] at hnum hbound
    refine ⟨?_, ?_, ?_⟩
    · simp only [hreq, hw', List.map_cons, List.cons_append, List.tail_cons, List.map_append,
        List.map_nil]
    · simp only [List.length_append, List.length_singleton]
      push_cast
      omega
    · simp only [hreq, hw', List.map_cons, List.cons_append, List.head_cons,
        List.countP_append, List.countP_cons, List.countP_nil, QueryResult.ofDocuments]
      cases hfront : front.isEmpty <;> cases hdoc : documents.isEmpty <;>
        simp only [hfront, hdoc, if_true, if_false] at hnum hbound ⊢ <;>
        simp only [Bool.and_self, Bool.not_true, Bool.not_false, Bool.and_true, Bool.and_false,
          Bool.false_eq_true, if_true, if_false] <;>
        first
          | (rw [toInt32_of_isInt32 (by unfold IsInt32; omega)]; push_cast at hnum ⊢; omega)
          | (push_cast at hnum ⊢; omega)

theorem QueueInv_empty : QueueInv RequestQueue.empty [] := by
  unfold QueueInv lastRequests RequestQueue.empty
  simp

theorem QueueInv_foldl (results : List (List Document)) :
    ∀ (q : RequestQueue) (before : List (List Document)), QueueInv q before →
      QueueInv (results.foldl RequestQueue.NewRequest q) (before ++ results) := by
  induction results with
  | nil =>
    intro q before h
    simpa using h
  | cons documents rest ih =>
    intro q before h
    have := ih (q.NewRequest documents) (before ++ [documents]) (QueueInv_NewRequest h documents)
    simpa using this

/-! ## Claims about the request queue and the safety of the lookups -/

/-- C21: after `NewRequest` was called with each of `n` results in turn on a new
queue, the queue holds the entries of the last `min n 1440` of them, in order,
and `GetNoResultRequests` is the number of empty results among these. -/
theorem C21_sliding_window (results : List (List Document)) :
    (results.foldl RequestQueue.NewRequest RequestQueue.empty).requests_ =
        (results.drop (results.length - min results.length 1440)).map
          QueryResult.ofDocuments ∧
      (results.foldl RequestQueue.NewRequest RequestQueue.empty).requests_.length =
        min results.length 1440 ∧
      (results.foldl RequestQueue.NewRequest RequestQueue.empty).GetNoResultRequests =
        (((results.drop (results.length - min results.length 1440)).countP
          List.isEmpty : Nat) : Int) := by
  have h := QueueInv_foldl results RequestQueue.empty [] QueueInv_empty
  rw [List.nil_append] at h
  obtain ⟨hreq, _, hnum⟩ := h
  refine ⟨hreq, ?_, hnum⟩
  rw [hreq, List.length_map]
  exact length_lastRequests results

/-- C22: in every reachable state, every document id in a posting map of the
index is a key of `documents_`; `FindAllDocuments` returns for every query and
predicate, so none of its `at` lookups fails, and `FindTopDocuments` returns for
every query text that parses. -/
theorem C22_lookups_never_fail {stop_words : List Word} {s : SearchServer}
    {corpus : Int → Option (List Word)} (hreach : Reaches stop_words s corpus) (ln : ℚ → ℚ) :
    (∀ (word : Word) (postings : OrdMap Int ℚ),
      s.word_to_document_freqs_.find word = some postings →
      ∀ e ∈ postings, (s.documents_.find e.1).isSome = true) ∧
    (∀ (policy : ExecutionPolicy) (query : Query) (document_predicate : DocumentPredicate),
      ∃ matched_documents,
        s.FindAllDocuments ln policy query document_predicate = .ok matched_documents) ∧
    (∀ (policy : ExecutionPolicy) (raw_query : List Char) (query : Query)
      (document_predicate : DocumentPredicate),
      s.ParseQuery raw_query = .ok query →
      ∃ documents, s.FindTopDocuments ln policy raw_query document_predicate = .ok documents) := by
  have hinv := hreach.inv
  refine ⟨?_, ?_, ?_⟩
  · intro word postings hword e he
    exact (hinv.postings_docs hword e he).2
  · intro policy query document_predicate
    obtain ⟨entries, _, hok, _⟩ := FindAllDocuments_spec hinv ln policy query document_predicate
    exact ⟨_, hok⟩
  · intro policy raw_query query document_predicate hq
    exact FindTopDocuments_returns hinv ln policy document_predicate hq

/-- C22 on the two-document example. -/
theorem C22_lookups_never_fail_witness :
    Reaches ["a".toList, "the".toList] catDogServer catDogCorpus ∧
    (∀ (word : Word) (postings : OrdMap Int ℚ),
      catDogServer.word_to_document_freqs_.find word = some postings →
      ∀ e ∈ postings, (catDogServer.documents_.find e.1).isSome = true) ∧
    (∀ (policy : ExecutionPolicy) (query : Query) (document_predicate : DocumentPredicate),
      ∃ matched_documents,
        catDogServer.FindAllDocuments lnSixDecimals policy query document_predicate =
          .ok matched_documents) ∧
    (∀ (policy : ExecutionPolicy) (raw_query : List Char) (query : Query)
      (document_predicate : DocumentPredicate),
      catDogServer.ParseQuery raw_query = .ok query →
      ∃ documents, catDogServer.FindTopDocuments lnSixDecimals policy raw_query
        document_predicate = .ok documents) :=
  ⟨catDogServer_reaches, C22_lookups_never_fail catDogServer_reaches lnSixDecimals⟩
